import Mathlib

/-! # Registry and dispatch queue of `estructuras_de_datos_2025`

A shallow embedding of the three "manager" programs of the repository
(`gestores/gestor_vuelo.c`, `gestor_drones.c`, `gestor_trenes_examen_02_V1.c`)
and the properties of their ordered registry (binary search tree) and dispatch
queue (binary heap).

Conventions of the embedding.

* A C string is the list of its bytes before the terminating NUL.
* A C `int` is an `Int`; an array position is a `Nat`.
* A pointer to a heap-allocated tree node is modelled by the node itself
  together with its address (`dir`); `NULL` is the constructor `nulo`.
* Output (`printf`) is not modelled; a traversal that prints one line per node
  is modelled by the list of the records it prints, in printing order.
-/

/-- A C string: the bytes before the terminating NUL. -/
abbrev CStr := List Nat

/-- The C library function `strcmp`: lexicographic comparison of the bytes as
unsigned characters. The C standard fixes only the sign of the result; the
embedding returns `-1`, `0` or `1`. -/
def strcmp : CStr → CStr → Int
  | [], [] => 0
  | [], _ :: _ => -1
  | _ :: _, [] => 1
  | a :: s, b :: t => if a < b then -1 else if b < a then 1 else strcmp s t

/-- The C string with the characters of a literal. -/
def cad (s : String) : CStr := s.data.map Char.toNat

/-- The order of C strings under `strcmp`, non-strict. -/
def leStr (a b : CStr) : Prop := strcmp a b ≤ 0

instance (a b : CStr) : Decidable (leStr a b) :=
  inferInstanceAs (Decidable (_ ≤ _))

/-- Lexicographic order of two-part keys under `strcmp`: first component, then
second. -/
def menorClave (a b : CStr × CStr) : Prop :=
  strcmp a.1 b.1 < 0 ∨ (strcmp a.1 b.1 = 0 ∧ strcmp a.2 b.2 < 0)

/-- C `int` arithmetic with 32-bit wrap-around: the representative of `x`
modulo `2^32` in `[-2^31, 2^31)`. -/
def wrap32 (x : Int) : Int := (x + 2147483648) % 4294967296 - 2147483648

/-- Exchange of the entries at positions `i` and `j` of an array. -/
def intercambiar {α : Type} (e : Nat → α) (i j : Nat) : Nat → α :=
  Function.update (Function.update e i (e j)) j (e i)

/-- The percolate-up loop shared by the three heaps, over an array of entries
ordered by the integer key `k` (smaller key = closer to the root): while the
entry at `i` is not the root and has a smaller key than its parent, exchange
them. The first argument bounds the number of iterations. -/
def subirG {α : Type} (k : α → Int) : Nat → (Nat → α) → Nat → (Nat → α)
  | 0, e, _ => e
  | n + 1, e, i =>
    if i ≠ 0 ∧ k (e i) < k (e ((i - 1) / 2)) then
      subirG k n (intercambiar e i ((i - 1) / 2)) ((i - 1) / 2)
    else e

/-- The sift-down loop shared by the three heaps, over an array with `tam` live
entries ordered by the integer key `k`: exchange the entry at `i` with its
child of smallest key while that key is smaller. The first argument bounds the
number of iterations. -/
def bajarG {α : Type} (k : α → Int) : Nat → (Nat → α) → Nat → Nat → (Nat → α)
  | 0, e, _, _ => e
  | n + 1, e, tam, i =>
    let m := if 2 * i + 1 < tam ∧ k (e (2 * i + 1)) < k (e i) then 2 * i + 1 else i
    let m := if 2 * i + 2 < tam ∧ k (e (2 * i + 2)) < k (e m) then 2 * i + 2 else m
    if m ≠ i then bajarG k n (intercambiar e i m) tam m else e

/-- The heap order on the first `tam` entries of an array, by parent: no entry
has a smaller key than its parent. -/
def esMonticulo {α : Type} (k : α → Int) (e : Nat → α) (tam : Nat) : Prop :=
  ∀ j, 0 < j → j < tam → k (e ((j - 1) / 2)) ≤ k (e j)

/-- The heap order on the first `tam` entries of an array, by children: the key
of the entry at `i` is at most the keys of the entries at `2i+1` and `2i+2`
whenever those positions are below `tam`. -/
def ordenHijos {α : Type} (k : α → Int) (e : Nat → α) (tam : Nat) : Prop :=
  ∀ i, i < tam → (2 * i + 1 < tam → k (e i) ≤ k (e (2 * i + 1))) ∧
    (2 * i + 2 < tam → k (e i) ≤ k (e (2 * i + 2)))

/-- The entries at the first `tam` positions of an array, in position order. -/
def prefijo {α : Type} (e : Nat → α) (tam : Nat) : List α := (List.range tam).map e

/-- The array after the root of a heap with `tam ≥ 1` live entries is taken
out: the last live entry is moved to the root and sifted down among the
remaining `tam - 1`. -/
def extraerG {α : Type} (k : α → Int) (e : Nat → α) (tam : Nat) : Nat → α :=
  bajarG k (tam - 1) (Function.update e 0 (e (tam - 1))) (tam - 1) 0

/-- The entries returned by `n` successive extractions of the root. -/
def drenarG {α : Type} (k : α → Int) : Nat → (Nat → α) → Nat → List α
  | 0, _, _ => []
  | n + 1, e, tam => e 0 :: drenarG k n (extraerG k e tam) (tam - 1)

/-- The array after a new entry is appended at position `tam` and percolated
up. -/
def insertarG {α : Type} (k : α → Int) (e : Nat → α) (tam : Nat) (x : α) : Nat → α :=
  subirG k tam (Function.update e tam x) tam

/-! ## Flight manager (`gestores/gestor_vuelo.c`) -/

namespace GestorVuelo

/-- Growth factor of the heap (`REDIMENSION_FACTOR`). -/
def REDIMENSION_FACTOR : Int := 2

/-- Initial capacity of the heap (`MAX_NODOS`). -/
def MAX_NODOS : Int := 100

/-- The data fields of `struct vuelo` (everything except the two links). -/
structure DatosVuelo where
  codigo_vuelo : CStr
  origen : CStr
  destino : CStr
  aerolinea : CStr
  fecha_salida : Int
  hora_salida : Int
deriving DecidableEq

/-- A value of type `Vuelo*`: `NULL`, or the node at address `dir` with its
data fields and the trees its two links point to. -/
inductive Vuelo where
  | nulo
  | nodo (dir : Nat) (datos : DatosVuelo) (izquierdo derecho : Vuelo)
deriving DecidableEq

/-- The `struct salida`: a pointer to a flight node (`none` is `NULL`) and the
priority key. -/
structure Salida where
  vuelo : Option Nat
  clave_salida : Int
deriving DecidableEq

/-- The `struct heap`: the array, its capacity and the number of live entries. -/
structure Heap where
  elementos : Nat → Salida
  capacidad : Int
  tamano : Int

/-- The function `insertar_vuelo`. `nuevo_vuelo` is the freshly allocated node
at address `dir` holding `datos`; its callers set both of its links to `NULL`
before the call. On a duplicate code the new node is freed and the tree is
returned as it was. -/
def insertar_vuelo : Vuelo → Nat → DatosVuelo → Vuelo
  | .nulo, dir, datos => .nodo dir datos .nulo .nulo
  | .nodo p d izq der, dir, datos =>
    let cmp := strcmp datos.codigo_vuelo d.codigo_vuelo
    if cmp < 0 then .nodo p d (insertar_vuelo izq dir datos) der
    else if cmp > 0 then .nodo p d izq (insertar_vuelo der dir datos)
    else .nodo p d izq der

/-- The function `buscar_vuelo`: the node found (as the subtree it roots), or
`nulo`. -/
def buscar_vuelo : Vuelo → CStr → Vuelo
  | .nulo, _ => .nulo
  | .nodo p d izq der, codigo_vuelo =>
    let cmp := strcmp codigo_vuelo d.codigo_vuelo
    if cmp = 0 then .nodo p d izq der
    else if cmp < 0 then buscar_vuelo izq codigo_vuelo
    else buscar_vuelo der codigo_vuelo

/-- The address of the node a `Vuelo*` points to (`none` for `NULL`). -/
def direccion : Vuelo → Option Nat
  | .nulo => none
  | .nodo p _ _ _ => some p

/-- The contents of memory seen through a pointer: the data of the node of the
tree that lives at address `p`, if there is one. -/
def memoria : Vuelo → Nat → Option DatosVuelo
  | .nulo, _ => none
  | .nodo q d izq der, p =>
    if q = p then some d
    else match memoria izq p with
      | some x => some x
      | none => memoria der p

/-- The function `vuelo_en_heap`: linear scan of the first `tamano` entries,
reading each flight's code through the entry's pointer (`mem` is the memory at
the time of the call). An entry whose pointer does not point to a live node
does not match. -/
def vuelo_en_heap (mem : Nat → Option DatosVuelo) (heap : Heap) (codigo_vuelo : CStr) : Bool :=
  (List.range heap.tamano.toNat).any fun i =>
    match (heap.elementos i).vuelo with
    | none => false
    | some p =>
      match mem p with
      | none => false
      | some d => strcmp d.codigo_vuelo codigo_vuelo = 0

/-- The function `encontrar_min`: the data of the leftmost node of a non-empty
tree (`none` for `NULL`). -/
def encontrar_min : Vuelo → Option DatosVuelo
  | .nulo => none
  | .nodo _ d .nulo _ => some d
  | .nodo _ _ (.nodo p d i r) _ => encontrar_min (.nodo p d i r)

/-- The function `eliminar_vuelo`. `mem` is the memory through which the heap's
pointers are read; the two-child case overwrites the data of the node at
address `p` with the successor's before the recursive call, and the memory
passed on reflects that write. -/
def eliminar_vuelo (mem : Nat → Option DatosVuelo) :
    Vuelo → CStr → Heap → Vuelo
  | .nulo, _, _ => .nulo
  | .nodo p d izq der, codigo_vuelo, heap_salidas =>
    if vuelo_en_heap mem heap_salidas codigo_vuelo then .nodo p d izq der
    else
      let cmp := strcmp codigo_vuelo d.codigo_vuelo
      if cmp < 0 then .nodo p d (eliminar_vuelo mem izq codigo_vuelo heap_salidas) der
      else if cmp > 0 then .nodo p d izq (eliminar_vuelo mem der codigo_vuelo heap_salidas)
      else
        match izq, der with
        | .nulo, _ => der
        | _, .nulo => izq
        | _, _ =>
          match encontrar_min der with
          | none => .nodo p d izq der
          | some temp =>
            .nodo p temp izq
              (eliminar_vuelo (Function.update mem p (some temp)) der temp.codigo_vuelo heap_salidas)

/-- The function `recorrer_inorden`: the records printed, in printing order. -/
def recorrer_inorden : Vuelo → List DatosVuelo
  | .nulo => []
  | .nodo _ d izq der => recorrer_inorden izq ++ d :: recorrer_inorden der

/-- The function `redimensionar_heap`: doubles the capacity when the heap is
full; `realloc` keeps the stored entries (a failed allocation ends the program
and is not modelled). -/
def redimensionar_heap (heap : Heap) : Heap :=
  if heap.tamano < heap.capacidad then heap
  else { heap with capacidad := heap.capacidad * REDIMENSION_FACTOR }

/-- The percolate-up loop of `insertar_heap`, started at position `i`. The
first argument bounds the number of iterations; the position at least halves
in each one, so `i` iterations are never exceeded. -/
def subir : Nat → (Nat → Salida) → Nat → (Nat → Salida)
  | 0, e, _ => e
  | n + 1, e, i =>
    if i ≠ 0 ∧ (e ((i - 1) / 2)).clave_salida > (e i).clave_salida then
      subir n (intercambiar e i ((i - 1) / 2)) ((i - 1) / 2)
    else e

/-- The function `insertar_heap`. -/
def insertar_heap (heap : Heap) (nueva_salida : Salida) : Heap :=
  let h := redimensionar_heap heap
  let tamano := h.tamano + 1
  let i := (tamano - 1).toNat
  { h with
    tamano := tamano
    elementos := subir i (Function.update h.elementos i nueva_salida) i }

/-- The recursion of `min_heapify` on the array `e` with `tamano` live
entries, from position `i`. The first argument bounds the recursion depth;
each call moves to a child position below `tamano`. -/
def min_heapify_aux : Nat → (Nat → Salida) → Int → Nat → (Nat → Salida)
  | 0, e, _, _ => e
  | n + 1, e, tamano, i =>
    let izq := 2 * i + 1
    let der := 2 * i + 2
    let min := i
    let min := if (izq : Int) < tamano ∧ (e izq).clave_salida < (e min).clave_salida then izq else min
    let min := if (der : Int) < tamano ∧ (e der).clave_salida < (e min).clave_salida then der else min
    if min ≠ i then min_heapify_aux n (intercambiar e i min) tamano min else e

/-- The function `min_heapify`. -/
def min_heapify (heap : Heap) (i : Nat) : Heap :=
  { heap with elementos := min_heapify_aux heap.tamano.toNat heap.elementos heap.tamano i }

/-- The function `extraer_min_heap`: the heap afterwards and the entry returned. -/
def extraer_min_heap (heap : Heap) : Heap × Salida :=
  if heap.tamano ≤ 0 then (heap, { vuelo := none, clave_salida := 0 })
  else
    let raiz := heap.elementos 0
    let e := Function.update heap.elementos 0 (heap.elementos (heap.tamano - 1).toNat)
    (min_heapify { heap with elementos := e, tamano := heap.tamano - 1 } 0, raiz)

/-- The state of `main`: the tree of flights and the heap of departures. -/
structure Sistema where
  arbol_vuelos : Vuelo
  monticulo_salidas : Heap

/-- The state in which `main` enters its menu loop. The array is freshly
allocated; its (indeterminate) contents are never read before being written. -/
def inicial : Sistema :=
  { arbol_vuelos := .nulo
    monticulo_salidas :=
      { elementos := fun _ => { vuelo := none, clave_salida := 0 }
        capacidad := MAX_NODOS
        tamano := 0 } }

/-- The menu options of `main` that change the state. `registrar dir d` is
option 1, `dir` being the address `malloc` returned for the new node. -/
inductive Operacion where
  | registrar (dir : Nat) (datos : DatosVuelo)
  | programar (codigo_vuelo : CStr) (fecha_salida hora_salida : Int)
  | despegar
  | eliminar (codigo_vuelo : CStr)

/-- One pass through the `switch` of `main` (options 1, 6, 8 and 3). -/
def paso (s : Sistema) : Operacion → Sistema
  | .registrar dir datos =>
    { s with arbol_vuelos := insertar_vuelo s.arbol_vuelos dir datos }
  | .programar codigo_vuelo fecha_salida hora_salida =>
    match direccion (buscar_vuelo s.arbol_vuelos codigo_vuelo) with
    | none => s
    | some p =>
      { s with
        monticulo_salidas :=
          insertar_heap s.monticulo_salidas
            { vuelo := some p
              clave_salida := wrap32 (wrap32 (fecha_salida * 10000) + hora_salida) } }
  | .despegar =>
    if s.monticulo_salidas.tamano > 0 then
      { s with monticulo_salidas := (extraer_min_heap s.monticulo_salidas).1 }
    else s
  | .eliminar codigo_vuelo =>
    { s with
      arbol_vuelos :=
        eliminar_vuelo (memoria s.arbol_vuelos) s.arbol_vuelos codigo_vuelo s.monticulo_salidas }

/-- The state after a sequence of menu options. -/
def ejecutar (s : Sistema) (ops : List Operacion) : Sistema := ops.foldl paso s

/-- The addresses of the nodes of a tree. -/
def direcciones : Vuelo → List Nat
  | .nulo => []
  | .nodo p _ izq der => direcciones izq ++ p :: direcciones der

/-- The codes printed by `recorrer_inorden`, in order. -/
def codigos (raiz : Vuelo) : List CStr := (recorrer_inorden raiz).map (·.codigo_vuelo)

/-- The binary search tree property: every code in the left subtree is smaller
than the node's and every code in the right subtree is greater. -/
def esABB : Vuelo → Prop
  | .nulo => True
  | .nodo _ d izq der =>
    esABB izq ∧ esABB der ∧
      (∀ x ∈ recorrer_inorden izq, strcmp x.codigo_vuelo d.codigo_vuelo < 0) ∧
      (∀ x ∈ recorrer_inorden der, strcmp d.codigo_vuelo x.codigo_vuelo < 0)

/-- The tree obtained from `NULL` by inserting the given (address, record)
pairs one by one with `insertar_vuelo`. -/
def construir (l : List (Nat × DatosVuelo)) : Vuelo :=
  l.foldl (fun raiz x => insertar_vuelo raiz x.1 x.2) .nulo

/-- A flight record with the given code (the other fields are irrelevant to
the tree). -/
def vueloDe (codigo : String) : DatosVuelo :=
  { codigo_vuelo := cad codigo, origen := cad "Madrid", destino := cad "Paris",
    aerolinea := cad "Iberia", fecha_salida := 20251204, hora_salida := 1000 }

/-- The search tree property with equal codes allowed on the right: every code
in the left subtree is smaller than the node's and every code in the right
subtree is greater or equal. -/
def esABBdebil : Vuelo → Prop
  | .nulo => True
  | .nodo _ d izq der =>
    esABBdebil izq ∧ esABBdebil der ∧
      (∀ x ∈ recorrer_inorden izq, strcmp x.codigo_vuelo d.codigo_vuelo < 0) ∧
      (∀ x ∈ recorrer_inorden der, strcmp d.codigo_vuelo x.codigo_vuelo ≤ 0)

/-- The code of the node a `Vuelo*` points to (`none` for `NULL`). -/
def codigoDe : Vuelo → Option CStr
  | .nulo => none
  | .nodo _ d _ _ => some d.codigo_vuelo

instance (a b : DatosVuelo) : Decidable (strcmp a.codigo_vuelo b.codigo_vuelo < 0) :=
  inferInstanceAs (Decidable (_ < _))

/-- The search tree property of flights can be checked by computation. -/
def decEsABB : (t : Vuelo) → Decidable (esABB t)
  | .nulo => isTrue trivial
  | .nodo _ d izq der =>
    have := decEsABB izq
    have := decEsABB der
    inferInstanceAs (Decidable (esABB izq ∧ esABB der ∧
      (∀ x ∈ recorrer_inorden izq, strcmp x.codigo_vuelo d.codigo_vuelo < 0) ∧
      (∀ x ∈ recorrer_inorden der, strcmp d.codigo_vuelo x.codigo_vuelo < 0)))

instance (t : Vuelo) : Decidable (esABB t) := decEsABB t

/-- The entries of the heap at the positions below `tamano`, in position
order. -/
def entradas (heap : Heap) : List Salida := prefijo heap.elementos heap.tamano.toNat

/-- The min-heap order of a heap: every entry at a position `i` below `tamano`
has a key less than or equal to the keys of the entries at `2i+1` and `2i+2`,
whenever those positions are below `tamano`. -/
def esMinHeap (heap : Heap) : Prop :=
  ∀ i : Nat, (i : Int) < heap.tamano →
    (((2 * i + 1 : Nat) : Int) < heap.tamano →
      (heap.elementos i).clave_salida ≤ (heap.elementos (2 * i + 1)).clave_salida) ∧
    (((2 * i + 2 : Nat) : Int) < heap.tamano →
      (heap.elementos i).clave_salida ≤ (heap.elementos (2 * i + 2)).clave_salida)

/-- The heaps reachable from an empty heap (any array contents, `tamano = 0`,
`capacidad ≥ 1`) by calls of `insertar_heap` and `extraer_min_heap`. -/
inductive HeapAlcanzable : Heap → Prop where
  | vacio (elementos : Nat → Salida) (capacidad : Int) :
      1 ≤ capacidad →
      HeapAlcanzable { elementos := elementos, capacidad := capacidad, tamano := 0 }
  | insertar {heap : Heap} (nueva_salida : Salida) :
      HeapAlcanzable heap → HeapAlcanzable (insertar_heap heap nueva_salida)
  | extraer {heap : Heap} :
      HeapAlcanzable heap → HeapAlcanzable (extraer_min_heap heap).1

/-- The heap after `n` successive calls of `extraer_min_heap` and the entries
they returned, in order. -/
def extraer_varias : Nat → Heap → Heap × List Salida
  | 0, heap => (heap, [])
  | n + 1, heap =>
    ((extraer_varias n (extraer_min_heap heap).1).1,
      (extraer_min_heap heap).2 :: (extraer_varias n (extraer_min_heap heap).1).2)

/-- The extraction loop of `heapsort_y_mostrar` on the temporary heap: the
entries it prints, in order. -/
def heapsort_bucle : Nat → Heap → List Salida
  | 0, _ => []
  | n + 1, heap_temp =>
    (extraer_min_heap heap_temp).2 :: heapsort_bucle n (extraer_min_heap heap_temp).1

/-- The function `heapsort_y_mostrar`: the heap it was given, as it is after
the call, and the entries printed. The first `tamano` entries are copied into
a freshly allocated array (holding `basura` elsewhere) and the extraction loop
runs on a temporary heap over that copy; the function never writes through
`heap`. -/
def heapsort_y_mostrar (basura : Nat → Salida) (heap : Heap) : Heap × List Salida :=
  if heap.tamano = 0 then (heap, [])
  else
    let original_tamano := heap.tamano
    let elementos_copia : Nat → Salida := fun i =>
      if (i : Int) < original_tamano then heap.elementos i else basura i
    let heap_temp : Heap :=
      { elementos := elementos_copia, capacidad := original_tamano, tamano := original_tamano }
    (heap, heapsort_bucle original_tamano.toNat heap_temp)

/-- The heap obtained from `heap` by inserting the entries of a list one by
one with `insertar_heap`. -/
def insertar_todas (heap : Heap) (l : List Salida) : Heap := l.foldl insertar_heap heap

/-- An entry with the given key (the pointer is irrelevant to the heap). -/
def salidaDe (clave : Int) : Salida := { vuelo := some 1, clave_salida := clave }

/-- The nodes of a tree, each as the subtree it roots (what a `Vuelo*` to it
points to), in in-order. -/
def subarboles : Vuelo → List Vuelo
  | .nulo => []
  | .nodo p d izq der => subarboles izq ++ .nodo p d izq der :: subarboles der

/-- The priority key of a departure, as `main` (option 6) and
`generar_vuelos_automaticos` compute it: `fecha * 10000 + hora` in `int`
arithmetic. -/
def clave_de_salida (fecha_salida hora_salida : Int) : Int :=
  wrap32 (wrap32 (fecha_salida * 10000) + hora_salida)

/-- The date and time `generar_vuelos_automaticos` writes back into the flight:
`clave_salida / 10000` and `clave_salida % 10000` (C division truncates
towards zero). -/
def fecha_y_hora_de (clave_salida : Int) : Int × Int :=
  (Int.tdiv clave_salida 10000, Int.tmod clave_salida 10000)

end GestorVuelo

/-! ## Train manager (`gestor_trenes_examen_02_V1.c`) -/

namespace GestorTrenes

/-- Capacity of the fixed-size heap (`MAX_HEAP`). -/
def MAX_HEAP : Int := 100

/-- The data fields of `struct tren` (everything except the two links). -/
structure DatosTren where
  id_tren : CStr
  compania : CStr
  origen : CStr
  destino : CStr
  distancia : Int
  fecha_operacion : Int
  hora_operacion : Int
  tipo_carga : CStr
deriving DecidableEq

/-- A value of type `Tren*`: `NULL`, or the node at address `dir` with its data
fields and the trees its two links point to. -/
inductive Tren where
  | nulo
  | nodo (dir : Nat) (datos : DatosTren) (izquierdo derecho : Tren)
deriving DecidableEq

/-- The `struct operacion`: a pointer to a train node (`none` is `NULL`) and
the priority key. -/
structure Operacion where
  tren : Option Nat
  clave_prioridad : Int
deriving DecidableEq

/-- The `struct heap`: a fixed array of `MAX_HEAP` entries and the number of
live ones. -/
structure Heap where
  elementos : Nat → Operacion
  tamano : Int

/-- The function `insertar_tren`; `nuevo_tren` is the freshly allocated node at
address `dir` holding `datos`, both links `NULL`. -/
def insertar_tren : Tren → Nat → DatosTren → Tren
  | .nulo, dir, datos => .nodo dir datos .nulo .nulo
  | .nodo p d izq der, dir, datos =>
    let cmp := strcmp datos.destino d.destino
    if cmp < 0 then .nodo p d (insertar_tren izq dir datos) der
    else if cmp > 0 then .nodo p d izq (insertar_tren der dir datos)
    else
      let cmp_id := strcmp datos.id_tren d.id_tren
      if cmp_id < 0 then .nodo p d (insertar_tren izq dir datos) der
      else if cmp_id > 0 then .nodo p d izq (insertar_tren der dir datos)
      else .nodo p d izq der

/-- The function `encontrar_min`: the data of the leftmost node of a non-empty
tree (`none` for `NULL`). -/
def encontrar_min : Tren → Option DatosTren
  | .nulo => none
  | .nodo _ d .nulo _ => some d
  | .nodo _ _ (.nodo p d i r) _ => encontrar_min (.nodo p d i r)

/-- The function `eliminar_tren`. It takes the tree and the key only. -/
def eliminar_tren : Tren → CStr → CStr → Tren
  | .nulo, _, _ => .nulo
  | .nodo p d izq der, destino, id_tren =>
    let cmp := strcmp destino d.destino
    if cmp < 0 then .nodo p d (eliminar_tren izq destino id_tren) der
    else if cmp > 0 then .nodo p d izq (eliminar_tren der destino id_tren)
    else
      let cmp_id := strcmp id_tren d.id_tren
      if cmp_id < 0 then .nodo p d (eliminar_tren izq destino id_tren) der
      else if cmp_id > 0 then .nodo p d izq (eliminar_tren der destino id_tren)
      else
        match izq, der with
        | .nulo, .nulo => .nulo
        | .nulo, _ => der
        | _, .nulo => izq
        | _, _ =>
          match encontrar_min der with
          | none => .nodo p d izq der
          | some sucesor =>
            .nodo p sucesor izq (eliminar_tren der sucesor.destino sucesor.id_tren)

/-- The function `recorrer_inorden`: the records printed, in printing order. -/
def recorrer_inorden : Tren → List DatosTren
  | .nulo => []
  | .nodo _ d izq der => recorrer_inorden izq ++ d :: recorrer_inorden der

/-- The nodes of a tree as (address, data) pairs, in in-order. -/
def nodos : Tren → List (Nat × DatosTren)
  | .nulo => []
  | .nodo p d izq der => nodos izq ++ (p, d) :: nodos der

/-- The state of `main`: the tree of trains and the heap of operations. -/
structure Sistema where
  arbol_trenes : Tren
  heap_operaciones : Heap

/-- Option 3 of the menu of `main` (delete a train). -/
def caso_eliminar (s : Sistema) (destino id_tren : CStr) : Sistema :=
  { s with arbol_trenes := eliminar_tren s.arbol_trenes destino id_tren }

/-- Order of the registry: `destino` first, then `id_tren`. -/
def menor (a b : DatosTren) : Prop :=
  strcmp a.destino b.destino < 0 ∨
    (strcmp a.destino b.destino = 0 ∧ strcmp a.id_tren b.id_tren < 0)

/-- The binary search tree property: every record in the left subtree is
smaller than the node's and every record in the right subtree is greater. -/
def esABB : Tren → Prop
  | .nulo => True
  | .nodo _ d izq der =>
    esABB izq ∧ esABB der ∧
      (∀ x ∈ recorrer_inorden izq, menor x d) ∧ (∀ x ∈ recorrer_inorden der, menor d x)

instance (a b : DatosTren) : Decidable (menor a b) :=
  inferInstanceAs (Decidable (_ ∨ _))

/-- The search tree property can be checked by computation. -/
def decEsABB : (t : Tren) → Decidable (esABB t)
  | .nulo => isTrue trivial
  | .nodo _ d izq der =>
    have := decEsABB izq
    have := decEsABB der
    inferInstanceAs (Decidable (esABB izq ∧ esABB der ∧
      (∀ x ∈ recorrer_inorden izq, menor x d) ∧ (∀ x ∈ recorrer_inorden der, menor d x)))

instance (t : Tren) : Decidable (esABB t) := decEsABB t

/-- Whether a record has the key (`destino`, `id_tren`). -/
def tieneClave (destino id_tren : CStr) (d : DatosTren) : Prop :=
  d.destino = destino ∧ d.id_tren = id_tren

instance (destino id_tren : CStr) (d : DatosTren) : Decidable (tieneClave destino id_tren d) :=
  inferInstanceAs (Decidable (_ ∧ _))

/-- A train record with the given key and distance (the other fields are
irrelevant to the tree). -/
def trenDe (destino id : String) (distancia : Int) : DatosTren :=
  { id_tren := cad id, compania := cad "Renfe", origen := cad "Madrid", destino := cad destino,
    distancia := distancia, fecha_operacion := 20251216, hora_operacion := 900,
    tipo_carga := cad "Carbon" }

/-- The heapify-up loop of `insertar_heap`, started at position `i`. The first
argument bounds the number of iterations; the position at least halves in each
one. -/
def subir : Nat → (Nat → Operacion) → Nat → (Nat → Operacion)
  | 0, e, _ => e
  | n + 1, e, i =>
    if i > 0 ∧ (e ((i - 1) / 2)).clave_prioridad < (e i).clave_prioridad then
      subir n (intercambiar e i ((i - 1) / 2)) ((i - 1) / 2)
    else e

/-- The function `insertar_heap`: on a full heap it reports the error and
returns without inserting. -/
def insertar_heap (heap : Heap) (nueva_op : Operacion) : Heap :=
  if heap.tamano ≥ MAX_HEAP then heap
  else
    let i := heap.tamano.toNat
    { elementos := subir i (Function.update heap.elementos i nueva_op) i
      tamano := heap.tamano + 1 }

/-- The recursion of `max_heapify` on the array `e` with `tamano` live
entries, from position `i`. The first argument bounds the recursion depth;
each call moves to a child position below `tamano`. -/
def max_heapify_aux : Nat → (Nat → Operacion) → Int → Nat → (Nat → Operacion)
  | 0, e, _, _ => e
  | n + 1, e, tamano, i =>
    let izq := 2 * i + 1
    let der := 2 * i + 2
    let mayor := i
    let mayor :=
      if (izq : Int) < tamano ∧ (e izq).clave_prioridad > (e mayor).clave_prioridad then izq
      else mayor
    let mayor :=
      if (der : Int) < tamano ∧ (e der).clave_prioridad > (e mayor).clave_prioridad then der
      else mayor
    if mayor ≠ i then max_heapify_aux n (intercambiar e i mayor) tamano mayor else e

/-- The function `max_heapify`. -/
def max_heapify (heap : Heap) (i : Nat) : Heap :=
  { heap with elementos := max_heapify_aux heap.tamano.toNat heap.elementos heap.tamano i }

/-- The function `extraer_max_heap`: the heap afterwards and the operation
returned. -/
def extraer_max_heap (heap : Heap) : Heap × Operacion :=
  if heap.tamano ≤ 0 then (heap, { tren := none, clave_prioridad := 0 })
  else
    let max := heap.elementos 0
    let e := Function.update heap.elementos 0 (heap.elementos (heap.tamano - 1).toNat)
    (max_heapify { elementos := e, tamano := heap.tamano - 1 } 0, max)

/-- The extraction loop of `heapsort_y_mostrar` on the copy: the operations it
lists, in order. -/
def heapsort_bucle : Nat → Heap → List Operacion
  | 0, _ => []
  | n + 1, copia =>
    (extraer_max_heap copia).2 :: heapsort_bucle n (extraer_max_heap copia).1

/-- The function `heapsort_y_mostrar`: the operations listed, in order. The
first `tamano` entries are copied into the local heap `copia` (whose array
holds `basura` elsewhere) and the extraction loop runs on the copy. -/
def heapsort_y_mostrar (basura : Nat → Operacion) (heap : Heap) : List Operacion :=
  if heap.tamano = 0 then []
  else
    let copia : Heap :=
      { elementos := fun i => if (i : Int) < heap.tamano then heap.elementos i else basura i
        tamano := heap.tamano }
    let tam_original := copia.tamano
    heapsort_bucle tam_original.toNat copia

/-- The operations of the heap at the positions below `tamano`, in position
order. -/
def entradas (heap : Heap) : List Operacion := prefijo heap.elementos heap.tamano.toNat

/-- The max-heap order of a heap: every operation at a position `i` below
`tamano` has a priority greater than or equal to the priorities at `2i+1` and
`2i+2`, whenever those positions are below `tamano`. -/
def esMaxHeap (heap : Heap) : Prop :=
  ∀ i : Nat, (i : Int) < heap.tamano →
    (((2 * i + 1 : Nat) : Int) < heap.tamano →
      (heap.elementos i).clave_prioridad ≥ (heap.elementos (2 * i + 1)).clave_prioridad) ∧
    (((2 * i + 2 : Nat) : Int) < heap.tamano →
      (heap.elementos i).clave_prioridad ≥ (heap.elementos (2 * i + 2)).clave_prioridad)

/-- An operation with the given priority on the train at address 1. -/
def opDe (clave : Int) : Operacion := { tren := some 1, clave_prioridad := clave }

/-- The heap holding the given operations at its first positions (and the
operation of priority 0 elsewhere). -/
def heapDe (l : List Operacion) : Heap :=
  { elementos := fun i => l.getD i (opDe 0), tamano := l.length }

/-- The function `buscar_tren_por_destino`: the trains whose line it prints, in
order, and the pointer it returns. The values returned by the two recursive
calls are not used; `encontrado` is set only by the node itself. -/
def buscar_tren_por_destino : Tren → CStr → List DatosTren × Option Nat
  | .nulo, _ => ([], none)
  | .nodo p d izq der, destino =>
    let encontrado : Option Nat := none
    let salida_izq := (buscar_tren_por_destino izq destino).1
    let aqui := if strcmp d.destino destino = 0 then [d] else []
    let encontrado := if strcmp d.destino destino = 0 then some p else encontrado
    let salida_der := (buscar_tren_por_destino der destino).1
    (salida_izq ++ aqui ++ salida_der, encontrado)

/-- The function `filtrar_por_carga`: the trains whose line it prints, in
order. -/
def filtrar_por_carga : Tren → CStr → List DatosTren
  | .nulo, _ => []
  | .nodo _ d izq der, tipo_carga =>
    filtrar_por_carga izq tipo_carga
      ++ (if strcmp d.tipo_carga tipo_carga = 0 then [d] else [])
      ++ filtrar_por_carga der tipo_carga

/-- The function `filtrar_por_distancia_minima`: the trains whose line it
prints, in order. -/
def filtrar_por_distancia_minima : Tren → Int → List DatosTren
  | .nulo, _ => []
  | .nodo _ d izq der, distancia_min =>
    filtrar_por_distancia_minima izq distancia_min
      ++ (if d.distancia ≥ distancia_min then [d] else [])
      ++ filtrar_por_distancia_minima der distancia_min

/-- The contents of memory seen through a pointer: the data of the node of the
tree that lives at address `p`, if there is one. The nodes of the tree are the
only live nodes: every node that `main` allocates is linked into the tree or
freed by `insertar_tren`, and `eliminar_tren` frees the node it unlinks. -/
def memoria : Tren → Nat → Option DatosTren
  | .nulo, _ => none
  | .nodo q d izq der, p =>
    if q = p then some d
    else match memoria izq p with
      | some x => some x
      | none => memoria der p

/-- The function `buscar_tren_por_id`: the address of the node found (`none`
for `NULL`). -/
def buscar_tren_por_id : Tren → CStr → Option Nat
  | .nulo, _ => none
  | .nodo p d izq der, id_tren =>
    if strcmp d.id_tren id_tren = 0 then some p
    else
      match buscar_tren_por_id izq id_tren with
      | some q => some q
      | none => buscar_tren_por_id der id_tren

/-- The state in which `main` enters its menu loop. -/
def inicial : Sistema :=
  { arbol_trenes := .nulo
    heap_operaciones :=
      { elementos := fun _ => { tren := none, clave_prioridad := 0 }, tamano := 0 } }

/-- Option 1 of the menu of `main` (register a train); `dir` is the address
`malloc` returned for the new node. -/
def caso_registrar (s : Sistema) (dir : Nat) (datos : DatosTren) : Sistema :=
  { s with arbol_trenes := insertar_tren s.arbol_trenes dir datos }

/-- Option 6 of the menu of `main` (schedule an operation on a train). -/
def caso_programar (s : Sistema) (id_tren : CStr) : Sistema :=
  match buscar_tren_por_id s.arbol_trenes id_tren with
  | none => s
  | some p =>
    match memoria s.arbol_trenes p with
    | none => s
    | some d =>
      { s with
        heap_operaciones :=
          insertar_heap s.heap_operaciones { tren := some p, clave_prioridad := d.distancia } }

/-- Option 7 of the menu of `main` (show the next operation): `none` when the
heap is empty; otherwise what the read through `elementos[0].tren` finds, the
record of a live node or `none` when the pointer does not point to one. -/
def caso_consultar (s : Sistema) : Option (Option DatosTren) :=
  if s.heap_operaciones.tamano > 0 then
    some ((s.heap_operaciones.elementos 0).tren.bind (memoria s.arbol_trenes))
  else none

/-- The state after registering Sevilla/T1 (at address 1) and scheduling an
operation on T1. -/
def estado_hoja : Sistema :=
  caso_programar (caso_registrar inicial 1 (trenDe "Sevilla" "T1" 530)) (cad "T1")

/-- The state after registering Lugo/T2, Avila/T1 and Vigo/T3 (at the
addresses 1, 2 and 3) and scheduling an operation on T2, the root, which has
two children. -/
def estado_dos_hijos : Sistema :=
  caso_programar
    (caso_registrar
      (caso_registrar (caso_registrar inicial 1 (trenDe "Lugo" "T2" 300)) 2
        (trenDe "Avila" "T1" 200))
      3 (trenDe "Vigo" "T3" 600))
    (cad "T2")

end GestorTrenes

/-! ## Drone manager (`gestor_drones.c`) -/

namespace GestorDrones

/-- Number of slots of the registry array (`MAX_NODOS`). -/
def MAX_NODOS : Int := 100

/-- The "no node" index (`POS_VACIA`). -/
def POS_VACIA : Int := -1

/-- Initial capacity of the heap (`MAX_HEAP`). -/
def MAX_HEAP : Int := 100

/-- The `Dron` record, links included: `izquierdo` and `derecho` are slot
indexes or `POS_VACIA`. -/
structure Dron where
  id_dron : CStr
  compania : CStr
  zona_origen : CStr
  zona_entrega : CStr
  nivel_bateria : Int
  fecha_mision : Int
  hora_mision : Int
  tipo_carga : CStr
  izquierdo : Int
  derecho : Int
deriving DecidableEq

/-- The `ABB` record. The array is indexed by the `int` values stored in the
links; the slots of the C array are the indexes `0 .. MAX_NODOS - 1`. -/
structure ABB where
  elementos : Int → Dron
  raiz : Int
  tamano : Int
  siguiente_libre : Int

/-- The `ElementoHeap` record. -/
structure ElementoHeap where
  indice_dron : Int
  prioridad : Int
deriving DecidableEq

/-- The `MaxHeap` record. -/
structure MaxHeap where
  elementos : Nat → ElementoHeap
  capacidad : Int
  tamano : Int

/-- The function `inicializarABB`, applied to the uninitialised local `abb` of
`main`, whose slots hold `basura`. -/
def inicializarABB (basura : Int → Dron) : ABB :=
  { elementos := fun i =>
      if 0 ≤ i ∧ i < MAX_NODOS then
        { basura i with izquierdo := POS_VACIA, derecho := POS_VACIA }
      else basura i
    raiz := POS_VACIA
    tamano := 0
    siguiente_libre := 0 }

/-- The function `compararDrones`. -/
def compararDrones (d1 d2 : Dron) : Int :=
  let cmp := strcmp d1.zona_entrega d2.zona_entrega
  if cmp ≠ 0 then cmp else strcmp d1.id_dron d2.id_dron

/-- The assignment `abb->elementos[i].izquierdo = v`. -/
def ponerIzquierdo (abb : ABB) (i v : Int) : ABB :=
  { abb with elementos := Function.update abb.elementos i { abb.elementos i with izquierdo := v } }

/-- The assignment `abb->elementos[i].derecho = v`. -/
def ponerDerecho (abb : ABB) (i v : Int) : ABB :=
  { abb with elementos := Function.update abb.elementos i { abb.elementos i with derecho := v } }

/-- The function `insertarRecursivoABB`: the registry afterwards and the index
returned. The first argument bounds the recursion depth; `none` means the bound
was reached. -/
def insertarRecursivoABB : Nat → ABB → Int → Int → Option (ABB × Int)
  | 0, _, _, _ => none
  | n + 1, abb, indice_actual, nuevo_indice =>
    if indice_actual = POS_VACIA then some (abb, nuevo_indice)
    else
      let cmp := compararDrones (abb.elementos nuevo_indice) (abb.elementos indice_actual)
      if cmp < 0 then
        match insertarRecursivoABB n abb (abb.elementos indice_actual).izquierdo nuevo_indice with
        | none => none
        | some (abb1, r) => some (ponerIzquierdo abb1 indice_actual r, indice_actual)
      else if cmp > 0 then
        match insertarRecursivoABB n abb (abb.elementos indice_actual).derecho nuevo_indice with
        | none => none
        | some (abb1, r) => some (ponerDerecho abb1 indice_actual r, indice_actual)
      else some (abb, indice_actual)

/-- The function `insertarDronABB`: the registry afterwards and the value
returned (1 registered, 0 not). -/
def insertarDronABB (fuel : Nat) (abb : ABB) (nuevo_dron : Dron) : Option (ABB × Int) :=
  if abb.siguiente_libre ≥ MAX_NODOS then some (abb, 0)
  else
    let nuevo_indice := abb.siguiente_libre
    let abb0 : ABB := { abb with elementos := Function.update abb.elementos nuevo_indice nuevo_dron }
    match insertarRecursivoABB fuel abb0 abb0.raiz nuevo_indice with
    | none => none
    | some (abb1, raiz_retornada) =>
      if raiz_retornada = nuevo_indice ∨ (abb1.raiz ≠ POS_VACIA ∧ raiz_retornada = abb1.raiz) ∨
          (abb1.raiz = POS_VACIA ∧ raiz_retornada = nuevo_indice) then
        if nuevo_indice = abb1.siguiente_libre then
          some ({ abb1 with
                  raiz := raiz_retornada
                  siguiente_libre := abb1.siguiente_libre + 1
                  tamano := abb1.tamano + 1 }, 1)
        else some (abb1, 0)
      else some (abb1, 0)

/-- The function `buscarIndiceDron` (its loop, bounded by the first argument). -/
def buscarIndiceDronDesde : Nat → ABB → Int → CStr → CStr → Option Int
  | 0, _, _, _, _ => none
  | n + 1, abb, indice, zona, id =>
    if indice ≠ POS_VACIA then
      let nodo := abb.elementos indice
      let cmp_zona := strcmp zona nodo.zona_entrega
      if cmp_zona = 0 then
        let cmp_id := strcmp id nodo.id_dron
        if cmp_id = 0 then some indice
        else if cmp_id < 0 then buscarIndiceDronDesde n abb nodo.izquierdo zona id
        else buscarIndiceDronDesde n abb nodo.derecho zona id
      else if cmp_zona < 0 then buscarIndiceDronDesde n abb nodo.izquierdo zona id
      else buscarIndiceDronDesde n abb nodo.derecho zona id
    else some POS_VACIA

/-- The function `buscarIndiceDron`. -/
def buscarIndiceDron (fuel : Nat) (abb : ABB) (zona id : CStr) : Option Int :=
  buscarIndiceDronDesde fuel abb abb.raiz zona id

/-- The function `dronEnHeap`: linear scan of the first `tamano` entries. -/
def dronEnHeap (heap : MaxHeap) (indice_dron : Int) : Bool :=
  (List.range heap.tamano.toNat).any fun i => (heap.elementos i).indice_dron = indice_dron

/-- The function `buscarMinimo` (its loop, bounded by the first argument). -/
def buscarMinimo : Nat → ABB → Int → Option Int
  | 0, _, _ => none
  | n + 1, abb, indice =>
    if (abb.elementos indice).izquierdo ≠ POS_VACIA then
      buscarMinimo n abb (abb.elementos indice).izquierdo
    else some indice

/-- The function `eliminarRecursivoABB`: the registry afterwards, the index
returned and the value of `*exito` afterwards. `nodo` is a pointer into the
array, so `nodo->derecho` after the copy reads the copied link. -/
def eliminarRecursivoABB :
    Nat → ABB → Int → CStr → CStr → MaxHeap → Int → Option (ABB × Int × Int)
  | 0, _, _, _, _, _, _ => none
  | n + 1, abb, indice_actual, zona, id, heap, exito =>
    if indice_actual = POS_VACIA then some (abb, POS_VACIA, exito)
    else
      let nodo := abb.elementos indice_actual
      let cmp_zona := strcmp zona nodo.zona_entrega
      let cmp_id := strcmp id nodo.id_dron
      if cmp_zona < 0 ∨ (cmp_zona = 0 ∧ cmp_id < 0) then
        match eliminarRecursivoABB n abb nodo.izquierdo zona id heap exito with
        | none => none
        | some (abb1, r, exito1) => some (ponerIzquierdo abb1 indice_actual r, indice_actual, exito1)
      else if cmp_zona > 0 ∨ (cmp_zona = 0 ∧ cmp_id > 0) then
        match eliminarRecursivoABB n abb nodo.derecho zona id heap exito with
        | none => none
        | some (abb1, r, exito1) => some (ponerDerecho abb1 indice_actual r, indice_actual, exito1)
      else
        if dronEnHeap heap indice_actual then some (abb, indice_actual, 0)
        else if nodo.izquierdo = POS_VACIA then some (abb, nodo.derecho, 1)
        else if nodo.derecho = POS_VACIA then some (abb, nodo.izquierdo, 1)
        else
          match buscarMinimo n abb nodo.derecho with
          | none => none
          | some min_derecha =>
            let abb0 : ABB :=
              { abb with
                elementos := Function.update abb.elementos indice_actual (abb.elementos min_derecha) }
            match eliminarRecursivoABB n abb0 (abb0.elementos indice_actual).derecho
                (abb0.elementos min_derecha).zona_entrega (abb0.elementos min_derecha).id_dron
                heap 1 with
            | none => none
            | some (abb1, r, exito1) =>
              some (ponerDerecho abb1 indice_actual r, indice_actual, exito1)

/-- The function `eliminarDronABB`: the registry afterwards and the value
returned. -/
def eliminarDronABB (fuel : Nat) (abb : ABB) (zona id : CStr) (heap : MaxHeap) :
    Option (ABB × Int) :=
  match eliminarRecursivoABB fuel abb abb.raiz zona id heap 0 with
  | none => none
  | some (abb1, r, exito) =>
    if exito ≠ 0 then some ({ abb1 with raiz := r, tamano := abb1.tamano - 1 }, 1)
    else some ({ abb1 with raiz := r }, 0)

/-- The function `recorrerInordenRecursivo`: the records shown, in order. -/
def recorrerInordenRecursivo : Nat → ABB → Int → Option (List Dron)
  | 0, _, _ => none
  | n + 1, abb, indice =>
    if indice = POS_VACIA then some []
    else
      let nodo := abb.elementos indice
      match recorrerInordenRecursivo n abb nodo.izquierdo with
      | none => none
      | some l =>
        match recorrerInordenRecursivo n abb nodo.derecho with
        | none => none
        | some r => some (l ++ nodo :: r)

/-- The function `recorrerInordenABB`. -/
def recorrerInordenABB (fuel : Nat) (abb : ABB) : Option (List Dron) :=
  recorrerInordenRecursivo fuel abb abb.raiz

/-- The function `redimensionarHeap`: doubles the capacity; `realloc` keeps
the stored entries (a failed allocation ends the program and is not modelled). -/
def redimensionarHeap (heap : MaxHeap) : MaxHeap :=
  { heap with capacidad := heap.capacidad * 2 }

/-- The function `crearMaxHeap` (successful allocation); the fresh array holds
`basura`. -/
def crearMaxHeap (basura : Nat → ElementoHeap) (capacidad : Int) : MaxHeap :=
  { elementos := basura, capacidad := capacidad, tamano := 0 }

/-- The loop of `heapifyUp` from position `indice`. The first argument bounds
the number of iterations; the position at least halves in each one. -/
def heapifyUpDesde : Nat → (Nat → ElementoHeap) → Nat → (Nat → ElementoHeap)
  | 0, e, _ => e
  | n + 1, e, indice =>
    if indice > 0 then
      let padre := (indice - 1) / 2
      if (e indice).prioridad > (e padre).prioridad then
        heapifyUpDesde n (intercambiar e indice padre) padre
      else e
    else e

/-- The function `heapifyUp`. -/
def heapifyUp (heap : MaxHeap) (indice : Nat) : MaxHeap :=
  { heap with elementos := heapifyUpDesde indice heap.elementos indice }

/-- The loop of `heapifyDown` on an array with `tamano` live entries. The
first argument bounds the number of iterations; each one moves to a child
position below `tamano`. -/
def heapifyDownDesde : Nat → (Nat → ElementoHeap) → Int → Nat → (Nat → ElementoHeap)
  | 0, e, _, _ => e
  | n + 1, e, tamano, indice =>
    let izquierda := 2 * indice + 1
    let derecha := 2 * indice + 2
    let mayor := indice
    let mayor :=
      if (izquierda : Int) < tamano ∧ (e izquierda).prioridad > (e mayor).prioridad then izquierda
      else mayor
    let mayor :=
      if (derecha : Int) < tamano ∧ (e derecha).prioridad > (e mayor).prioridad then derecha
      else mayor
    if mayor = indice then e
    else heapifyDownDesde n (intercambiar e indice mayor) tamano mayor

/-- The function `heapifyDown`. -/
def heapifyDown (heap : MaxHeap) (indice : Nat) : MaxHeap :=
  { heap with
    elementos := heapifyDownDesde heap.tamano.toNat heap.elementos heap.tamano indice }

/-- The function `insertarHeap`. -/
def insertarHeap (heap : MaxHeap) (nuevo_elemento : ElementoHeap) : MaxHeap :=
  let h := if heap.tamano ≥ heap.capacidad then redimensionarHeap heap else heap
  let h1 : MaxHeap :=
    { h with elementos := Function.update h.elementos h.tamano.toNat nuevo_elemento }
  let h2 := heapifyUp h1 h1.tamano.toNat
  { h2 with tamano := h2.tamano + 1 }

/-- The function `consultarMaxHeap`. -/
def consultarMaxHeap (heap : MaxHeap) : ElementoHeap :=
  if heap.tamano = 0 then { indice_dron := POS_VACIA, prioridad := POS_VACIA }
  else heap.elementos 0

/-- The function `extraerMaxHeap`: the heap afterwards and the entry returned. -/
def extraerMaxHeap (heap : MaxHeap) : MaxHeap × ElementoHeap :=
  if heap.tamano = 0 then (heap, { indice_dron := POS_VACIA, prioridad := POS_VACIA })
  else
    let max_elemento := heap.elementos 0
    let h : MaxHeap := { heap with tamano := heap.tamano - 1 }
    if h.tamano > 0 then
      let h1 : MaxHeap :=
        { h with elementos := Function.update h.elementos 0 (h.elementos h.tamano.toNat) }
      (heapifyDown h1 0, max_elemento)
    else (h, max_elemento)

/-- The three test drones of `cargarDronesPrueba`. -/
def d1 : Dron :=
  { id_dron := cad "D1", compania := cad "Com1", zona_origen := cad "ZonaA",
    zona_entrega := cad "A1", nivel_bateria := 90, fecha_mision := 20251216,
    hora_mision := 1400, tipo_carga := cad "Paquete", izquierdo := POS_VACIA,
    derecho := POS_VACIA }

/-- Second test drone (zone `B1`). -/
def d2 : Dron :=
  { id_dron := cad "D2", compania := cad "Com2", zona_origen := cad "ZonaB",
    zona_entrega := cad "B1", nivel_bateria := 50, fecha_mision := 20251216,
    hora_mision := 1500, tipo_carga := cad "Carta", izquierdo := POS_VACIA,
    derecho := POS_VACIA }

/-- Third test drone (zone `C1`). -/
def d3 : Dron :=
  { id_dron := cad "D3", compania := cad "Com1", zona_origen := cad "ZonaC",
    zona_entrega := cad "C1", nivel_bateria := 75, fecha_mision := 20251217,
    hora_mision := 1000, tipo_carga := cad "Paquete", izquierdo := POS_VACIA,
    derecho := POS_VACIA }

/-- The function `cargarDronesPrueba`. -/
def cargarDronesPrueba (fuel : Nat) (abb : ABB) : Option ABB :=
  match insertarDronABB fuel abb d2 with
  | none => none
  | some (abb1, _) =>
    match insertarDronABB fuel abb1 d1 with
    | none => none
    | some (abb2, _) =>
      match insertarDronABB fuel abb2 d3 with
      | none => none
      | some (abb3, _) => some abb3

/-- The state of `main`: the registry and the heap of missions. -/
structure Sistema where
  abb : ABB
  heap : MaxHeap

/-- The menu options of `main` that change the state. -/
inductive Operacion where
  | registrar (nuevo_dron : Dron)
  | programar (zona id : CStr)
  | despachar
  | eliminar (zona id : CStr)
  | cargarPrueba

/-- One pass through the `switch` of `main` (options 1, 5, 6, 3 and 9). Option 1
sets both links of the new drone to `POS_VACIA` before registering it. -/
def paso (fuel : Nat) (s : Sistema) : Operacion → Option Sistema
  | .registrar nuevo_dron =>
    match insertarDronABB fuel s.abb
        { nuevo_dron with izquierdo := POS_VACIA, derecho := POS_VACIA } with
    | none => none
    | some (abb1, _) => some { s with abb := abb1 }
  | .programar zona id =>
    match buscarIndiceDron fuel s.abb zona id with
    | none => none
    | some indice =>
      if indice = POS_VACIA then some s
      else
        some { s with
               heap := insertarHeap s.heap
                 { indice_dron := indice, prioridad := (s.abb.elementos indice).nivel_bateria } }
  | .despachar =>
    if s.heap.tamano > 0 then some { s with heap := (extraerMaxHeap s.heap).1 } else some s
  | .eliminar zona id =>
    match eliminarDronABB fuel s.abb zona id s.heap with
    | none => none
    | some (abb1, _) => some { s with abb := abb1 }
  | .cargarPrueba =>
    match cargarDronesPrueba fuel s.abb with
    | none => none
    | some abb1 => some { s with abb := abb1 }

/-- The state after a sequence of menu options. -/
def ejecutar (fuel : Nat) : Sistema → List Operacion → Option Sistema
  | s, [] => some s
  | s, op :: ops =>
    match paso fuel s op with
    | none => none
    | some s1 => ejecutar fuel s1 ops

/-- The indexes of the nodes reachable from `indice` through the links, in
in-order. -/
def indicesDesde : Nat → ABB → Int → Option (List Int)
  | 0, _, _ => none
  | n + 1, abb, indice =>
    if indice = POS_VACIA then some []
    else
      match indicesDesde n abb (abb.elementos indice).izquierdo with
      | none => none
      | some l =>
        match indicesDesde n abb (abb.elementos indice).derecho with
        | none => none
        | some r => some (l ++ indice :: r)

/-- The entries of the heap at the positions below `tamano`. -/
def entradas (heap : MaxHeap) : List ElementoHeap :=
  (List.range heap.tamano.toNat).map heap.elementos

/-- The state in which `main` enters its menu loop (all memory zero before
initialisation). -/
def inicial : Sistema :=
  { abb := inicializarABB fun _ =>
      { id_dron := [], compania := [], zona_origen := [], zona_entrega := [],
        nivel_bateria := 0, fecha_mision := 0, hora_mision := 0, tipo_carga := [],
        izquierdo := 0, derecho := 0 }
    heap := crearMaxHeap (fun _ => { indice_dron := 0, prioridad := 0 }) MAX_HEAP }

/-- The key of a drone: `zona_entrega`, then `id_dron`. -/
def clave (d : Dron) : CStr × CStr := (d.zona_entrega, d.id_dron)

/-- The order of the registry: `a` goes before `b` under `compararDrones`. -/
def menor (a b : Dron) : Prop := compararDrones a b < 0

instance (a b : Dron) : Decidable (menor a b) := inferInstanceAs (Decidable (_ < _))

/-- The shape of a tree stored in the array: which slot is the root and which
shapes hang from its two links. -/
inductive Forma where
  | hoja
  | nodo (indice : Int) (izq der : Forma)
deriving DecidableEq

/-- The slots of a shape, in in-order. -/
def Forma.indices : Forma → List Int
  | .hoja => []
  | .nodo j l r => l.indices ++ j :: r.indices

/-- The height of a shape. -/
def Forma.altura : Forma → Nat
  | .hoja => 0
  | .nodo _ l r => max l.altura r.altura + 1

/-- The links of the array `e`, followed from index `i`, spell out the shape
`t`. -/
def Representa (e : Int → Dron) : Int → Forma → Prop
  | i, .hoja => i = POS_VACIA
  | i, .nodo j l r =>
    i = j ∧ j ≠ POS_VACIA ∧ Representa e (e j).izquierdo l ∧ Representa e (e j).derecho r

/-- The binary search tree property of a shape over the array `e`: every drone
in a node's left subtree is smaller than the node's under `compararDrones`, and
every drone in its right subtree is greater. -/
def esABB (e : Int → Dron) : Forma → Prop
  | .hoja => True
  | .nodo j l r =>
    esABB e l ∧ esABB e r ∧
      (∀ k ∈ l.indices, menor (e k) (e j)) ∧ (∀ k ∈ r.indices, menor (e j) (e k))

/-- The registry is well formed: the links from `raiz` spell out a shape whose
slots are pairwise distinct, lie below `siguiente_libre` (itself within the
array), and form a binary search tree. -/
def Invariante (abb : ABB) : Prop :=
  ∃ t : Forma, Representa abb.elementos abb.raiz t ∧ t.indices.Nodup ∧
    (∀ k ∈ t.indices, 0 ≤ k ∧ k < abb.siguiente_libre) ∧ esABB abb.elementos t ∧
    0 ≤ abb.siguiente_libre ∧ abb.siguiente_libre ≤ MAX_NODOS

/-- The registries reachable from `inicializarABB` by calls of
`insertarDronABB` (on a drone whose links are `POS_VACIA`) and of
`eliminarDronABB` (against any heap) that return. -/
inductive Alcanzable : ABB → Prop where
  | inicio (basura : Int → Dron) : Alcanzable (inicializarABB basura)
  | insertar {abb abb1 : ABB} {fuel : Nat} {nuevo_dron : Dron} {r : Int} :
      Alcanzable abb → nuevo_dron.izquierdo = POS_VACIA → nuevo_dron.derecho = POS_VACIA →
      insertarDronABB fuel abb nuevo_dron = some (abb1, r) → Alcanzable abb1
  | eliminar {abb abb1 : ABB} {fuel : Nat} {zona id : CStr} {heap : MaxHeap} {r : Int} :
      Alcanzable abb → eliminarDronABB fuel abb zona id heap = some (abb1, r) →
      Alcanzable abb1

/-- The max-heap order of a heap: every entry at a position `i` below `tamano`
has a priority greater than or equal to the priorities of the entries at `2i+1`
and `2i+2`, whenever those positions are below `tamano`. -/
def esMaxHeap (heap : MaxHeap) : Prop :=
  ∀ i : Nat, (i : Int) < heap.tamano →
    (((2 * i + 1 : Nat) : Int) < heap.tamano →
      (heap.elementos i).prioridad ≥ (heap.elementos (2 * i + 1)).prioridad) ∧
    (((2 * i + 2 : Nat) : Int) < heap.tamano →
      (heap.elementos i).prioridad ≥ (heap.elementos (2 * i + 2)).prioridad)

/-- The heaps reachable from `crearMaxHeap(c)` with `c ≥ 1` by calls of
`insertarHeap` and `extraerMaxHeap`. -/
inductive MaxHeapAlcanzable : MaxHeap → Prop where
  | crear (basura : Nat → ElementoHeap) (capacidad : Int) :
      1 ≤ capacidad → MaxHeapAlcanzable (crearMaxHeap basura capacidad)
  | insertar {heap : MaxHeap} (nuevo_elemento : ElementoHeap) :
      MaxHeapAlcanzable heap → MaxHeapAlcanzable (insertarHeap heap nuevo_elemento)
  | extraer {heap : MaxHeap} :
      MaxHeapAlcanzable heap → MaxHeapAlcanzable (extraerMaxHeap heap).1

/-- The data fields of a drone, with both links set to `POS_VACIA`:
`mostrarDron` prints the data fields only. -/
def sinEnlaces (d : Dron) : Dron := { d with izquierdo := POS_VACIA, derecho := POS_VACIA }

/-- The function `buscarPorZonaRecursivo`: the drones shown, in order. The
first argument bounds the recursion depth; `none` means the bound was
reached. -/
def buscarPorZonaRecursivo : Nat → ABB → Int → CStr → Option (List Dron)
  | 0, _, _, _ => none
  | n + 1, abb, indice, zona =>
    if indice = POS_VACIA then some []
    else
      let dron := abb.elementos indice
      let cmp := strcmp zona dron.zona_entrega
      match (if cmp ≤ 0 then buscarPorZonaRecursivo n abb dron.izquierdo zona else some []) with
      | none => none
      | some l =>
        let m := if cmp = 0 then [dron] else []
        match (if cmp ≥ 0 then buscarPorZonaRecursivo n abb dron.derecho zona else some []) with
        | none => none
        | some r => some (l ++ m ++ r)

/-- A registry with the three test drones: B1 in slot 0 (the root), A1 in slot
1 (its left child) and C1 in slot 2 (its right child). -/
def registro_de_prueba : ABB :=
  { elementos := fun i =>
      if i = 0 then { d2 with izquierdo := 1, derecho := 2 }
      else if i = 1 then d1
      else d3
    raiz := 0
    tamano := 3
    siguiente_libre := 3 }

/-- A drone whose `zona_entrega` is the one-character string with code `k`,
both links `POS_VACIA`. -/
def dronDe (k : Nat) : Dron :=
  { id_dron := cad "D", compania := cad "Com", zona_origen := cad "Zona",
    zona_entrega := [k], nivel_bateria := 80, fecha_mision := 20251216,
    hora_mision := 1200, tipo_carga := cad "Paquete", izquierdo := POS_VACIA,
    derecho := POS_VACIA }

/-- Successive calls of `insertarDronABB`, one per drone of the list. -/
def registrarTodos (fuel : Nat) : ABB → List Dron → Option ABB
  | abb, [] => some abb
  | abb, d :: l =>
    match insertarDronABB fuel abb d with
    | none => none
    | some (abb1, _) => registrarTodos fuel abb1 l

/-- One hundred drones with pairwise different zones (the codes 1 to 100, in
the order 37, 74, 10, ...). -/
def cienDrones : List Dron := (List.range 100).map fun i => dronDe ((37 * (i + 1)) % 101)

end GestorDrones

/-! ## Train exercise (`examen_01.c`) -/

namespace Examen01

/-- The data fields of a `struct tren`. -/
structure DatosTren where
  id_tren : CStr
  compania : CStr
  origen : CStr
  destino : CStr
  carga_tipo : CStr
  distancia : Int
  fecha_operacion : Int
  hora_operacion : Int
deriving DecidableEq

/-- A value of type `Tren*`: `NULL`, or the node at address `dir` with its data
fields and the trees its two links point to. -/
inductive Tren where
  | nulo
  | nodo (dir : Nat) (datos : DatosTren) (izquierdo derecho : Tren)
deriving DecidableEq

/-- The function `insertar_tren`: the tree is ordered by `destino`;
`nuevo_tren` is the freshly allocated node at address `dir` holding `datos`,
both links `NULL`. On an equal `destino` the new node is freed. -/
def insertar_tren : Tren → Nat → DatosTren → Tren
  | .nulo, dir, datos => .nodo dir datos .nulo .nulo
  | .nodo p d izq der, dir, datos =>
    let cmp := strcmp datos.destino d.destino
    if cmp < 0 then .nodo p d (insertar_tren izq dir datos) der
    else if cmp > 0 then .nodo p d izq (insertar_tren der dir datos)
    else .nodo p d izq der

/-- The function `buscar_tren`: it descends comparing its argument with
`id_tren`. The node found (as the subtree it roots), or `nulo`. -/
def buscar_tren : Tren → CStr → Tren
  | .nulo, _ => .nulo
  | .nodo p d izq der, id_tren =>
    let cmp := strcmp id_tren d.id_tren
    if cmp = 0 then .nodo p d izq der
    else if cmp < 0 then buscar_tren izq id_tren
    else buscar_tren der id_tren

/-- The function `recorrer_inorden`: the records printed, in order. -/
def recorrer_inorden : Tren → List DatosTren
  | .nulo => []
  | .nodo _ d izq der => recorrer_inorden izq ++ d :: recorrer_inorden der

/-- A train record with the given identifier and destination. -/
def trenDe (id destino : String) : DatosTren :=
  { id_tren := cad id, compania := cad "Renfe", origen := cad "Cordoba", destino := cad destino,
    carga_tipo := cad "mixto", distancia := 400, fecha_operacion := 20251216,
    hora_operacion := 900 }

end Examen01

/-! ## Circular list of patients (`listas/ejercicio_listas.c`) -/

namespace Urgencias

/-- The `PACIENTE` record (`triaje` is the value of the enumeration). -/
structure PACIENTE where
  nombre : CStr
  motivo : CStr
  tiempo_espera : Int
  triaje : Int
deriving DecidableEq

/-- The `NODO` record: `sig` is a pointer (`none` is `NULL`). -/
structure NODO where
  info : PACIENTE
  sig : Option Nat
deriving DecidableEq

/-- The heap memory: the node stored at each live address, and `none` at the
addresses that are not allocated (never allocated, or freed). -/
abbrev Memoria := Nat → Option NODO

/-- Reading `*p`: fails on `NULL` and on an address that is not live. -/
def leer (mem : Memoria) (p : Option Nat) : Option NODO := p.bind mem

/-- Writing `*p = nd`: fails on `NULL` and on an address that is not live. -/
def escribir (mem : Memoria) (p : Option Nat) (nd : NODO) : Option Memoria :=
  match p with
  | none => none
  | some a => if (mem a).isSome then some (Function.update mem a (some nd)) else none

/-- The call `free(p)`. -/
def liberar (mem : Memoria) (p : Option Nat) : Memoria :=
  match p with
  | none => mem
  | some a => Function.update mem a none

/-- The function `crearLista`. -/
def crearLista : Option Nat := none

/-- The function `listaVacia`. -/
def listaVacia (ultimo : Option Nat) : Bool := decide (ultimo = none)

/-- The function `insertarPaciente`; `dir` is the address `malloc` returns for
the new node. The memory afterwards and the pointer returned. -/
def insertarPaciente (mem : Memoria) (ultimo : Option Nat) (nuevo : PACIENTE) (dir : Nat) :
    Option (Memoria × Option Nat) :=
  let nuevoNodo : Option Nat := some dir
  if ultimo = none then
    some (Function.update mem dir (some { info := nuevo, sig := nuevoNodo }), nuevoNodo)
  else
    match leer mem ultimo with
    | none => none
    | some nu =>
      let mem1 := Function.update mem dir (some { info := nuevo, sig := nu.sig })
      match escribir mem1 ultimo { nu with sig := nuevoNodo } with
      | none => none
      | some mem2 => some (mem2, nuevoNodo)

/-- The `do ... while (temp != start)` loop of `mostrarLista`: the patients
printed, in order. The first argument bounds the number of iterations. -/
def mostrarBucle : Nat → Memoria → Option Nat → Option Nat → Option (List PACIENTE)
  | 0, _, _, _ => none
  | n + 1, mem, start, temp =>
    match leer mem temp with
    | none => none
    | some nd =>
      if nd.sig ≠ start then (mostrarBucle n mem start nd.sig).map (nd.info :: ·)
      else some [nd.info]

/-- The function `mostrarLista`: the patients printed, in order. -/
def mostrarLista (fuel : Nat) (mem : Memoria) (ultimo : Option Nat) : Option (List PACIENTE) :=
  if listaVacia ultimo then some []
  else
    match leer mem ultimo with
    | none => none
    | some nu => mostrarBucle fuel mem nu.sig nu.sig

/-- The `do ... while (it != ultimo->sig)` loop of `contarNodos`. The first
argument bounds the number of iterations. -/
def contarBucle : Nat → Memoria → Option Nat → Option Nat → Int → Option Int
  | 0, _, _, _, _ => none
  | n + 1, mem, start, it, cnt =>
    match leer mem it with
    | none => none
    | some nd =>
      if nd.sig ≠ start then contarBucle n mem start nd.sig (cnt + 1)
      else some (cnt + 1)

/-- The function `contarNodos`. -/
def contarNodos (fuel : Nat) (mem : Memoria) (ultimo : Option Nat) : Option Int :=
  if ultimo = none then some 0
  else
    match leer mem ultimo with
    | none => none
    | some nu => contarBucle fuel mem nu.sig nu.sig 0

/-- The `do ... while (actual != start)` loop of `eliminarPorNombre`: the
memory afterwards and the pointer returned. The first argument bounds the
number of iterations. -/
def eliminarBucle : Nat → Memoria → Option Nat → Option Nat → Option Nat → Option Nat → CStr →
    Option (Memoria × Option Nat)
  | 0, _, _, _, _, _, _ => none
  | n + 1, mem, ultimo, start, actual, prev, nombre =>
    match leer mem actual with
    | none => none
    | some na =>
      if strcmp na.info.nombre nombre = 0 then
        if actual = prev then some (liberar mem actual, none)
        else
          match leer mem prev with
          | none => none
          | some np =>
            match escribir mem prev { np with sig := na.sig } with
            | none => none
            | some mem1 =>
              let ultimo := if actual = ultimo then prev else ultimo
              some (liberar mem1 actual, ultimo)
      else
        let prev := actual
        let actual := na.sig
        if actual ≠ start then eliminarBucle n mem ultimo start actual prev nombre
        else some (mem, ultimo)

/-- The function `eliminarPorNombre`: the memory afterwards and the pointer
returned. -/
def eliminarPorNombre (fuel : Nat) (mem : Memoria) (ultimo : Option Nat) (nombre : CStr) :
    Option (Memoria × Option Nat) :=
  if listaVacia ultimo then some (mem, none)
  else
    match leer mem ultimo with
    | none => none
    | some nu => eliminarBucle fuel mem ultimo nu.sig nu.sig ultimo nombre

/-- The `while (temp != NULL && i < pos)` loop of `eliminarPorPosicion`: the
values of `temp` and `anterior` when it ends. The first argument bounds the
number of iterations. -/
def posicionBucle : Nat → Memoria → Option Nat → Option Nat → Int → Int →
    Option (Option Nat × Option Nat)
  | 0, _, _, _, _, _ => none
  | n + 1, mem, temp, anterior, i, pos =>
    if temp ≠ none ∧ i < pos then
      match leer mem temp with
      | none => none
      | some nt => posicionBucle n mem nt.sig temp (i + 1) pos
    else some (temp, anterior)

/-- The function `eliminarPorPosicion`: the memory afterwards and the pointer
returned. -/
def eliminarPorPosicion (fuel : Nat) (mem : Memoria) (ultimo : Option Nat) (pos : Int) :
    Option (Memoria × Option Nat) :=
  if listaVacia ultimo then some (mem, none)
  else
    let temp := ultimo
    if pos = 0 then
      match leer mem temp with
      | none => none
      | some nt => some (liberar mem temp, nt.sig)
    else
      match posicionBucle fuel mem temp none 0 pos with
      | none => none
      | some (temp, anterior) =>
        if temp = none then some (mem, ultimo)
        else
          match leer mem temp with
          | none => none
          | some nt =>
            match leer mem anterior with
            | none => none
            | some na =>
              match escribir mem anterior { na with sig := nt.sig } with
              | none => none
              | some mem1 => some (liberar mem1 temp, ultimo)

/-- Successive calls of `insertarPaciente`, one per (address, patient) pair. -/
def insertarTodos : Memoria → Option Nat → List (Nat × PACIENTE) →
    Option (Memoria × Option Nat)
  | mem, ultimo, [] => some (mem, ultimo)
  | mem, ultimo, (dir, nuevo) :: l =>
    match insertarPaciente mem ultimo nuevo dir with
    | none => none
    | some (mem1, ultimo1) => insertarTodos mem1 ultimo1 l

/-- The patient that `setPaciente` fills in (`triaje` is left as it was; 0
here). -/
def pacienteDe (nombre motivo : String) (t : Int) : PACIENTE :=
  { nombre := cad nombre, motivo := cad motivo, tiempo_espera := t, triaje := 0 }

/-- The memory with no live node. -/
def memoriaVacia : Memoria := fun _ => none

/-- Following `sig` from address `a` goes through the nodes of `l` (address
and patient, in order) and arrives at address `b`. -/
def Cadena (mem : Memoria) : Nat → List (Nat × PACIENTE) → Nat → Prop
  | a, [], b => a = b
  | a, (p, x) :: l, b =>
    a = p ∧ ∃ s, mem p = some { info := x, sig := some s } ∧ Cadena mem s l b

/-- Following `sig` from the first node of `l` goes through the nodes of `l`
and comes back to the first node. -/
def Ciclo (mem : Memoria) (l : List (Nat × PACIENTE)) : Prop :=
  match l with
  | [] => True
  | (a, _) :: _ => Cadena mem a l a

/-- The pointer `ultimo` holds the circular list of the patients `l` (with the
addresses of their nodes), first patient first: the addresses are pairwise
distinct, the nodes form a cycle in that order, and `ultimo` is the last node
(`NULL` for the empty list). -/
def Circular (mem : Memoria) (ultimo : Option Nat) (l : List (Nat × PACIENTE)) : Prop :=
  (l.map Prod.fst).Nodup ∧ Ciclo mem l ∧ ultimo = (l.map Prod.fst).getLast?

end Urgencias

/-! ## Binary search over integers (`busqueda/busqueda_enteros.c`) -/

namespace BusquedaEnteros

/-- The size of the test vector (`TAM`). -/
def TAM : Int := 10

/-- The `while (izq <= der)` loop of `busqueda_binaria`, in 32-bit `int`
arithmetic: the index returned and the value of `*comps`. The first argument
bounds the number of iterations. -/
def busqueda_bucle : Nat → (Int → Int) → Int → Int → Int → Int → Option (Int × Int)
  | 0, _, _, _, _, _ => none
  | n + 1, V, X, izq, der, comps =>
    if izq ≤ der then
      let cen := Int.tdiv (wrap32 (izq + der)) 2
      let comps := wrap32 (comps + 1)
      if V cen = X then some (cen, comps)
      else if V cen > X then busqueda_bucle n V X izq (wrap32 (cen - 1)) comps
      else busqueda_bucle n V X (wrap32 (cen + 1)) der comps
    else some (-1, comps)

/-- The function `busqueda_binaria`: the index returned and the value of
`*comps`. -/
def busqueda_binaria (fuel : Nat) (V : Int → Int) (N X : Int) : Option (Int × Int) :=
  let izq := 0
  let der := wrap32 (N - 1)
  busqueda_bucle fuel V X izq der 0

/-- The vector that `crear_vector` fills in. -/
def vector_de_prueba (i : Int) : Int :=
  [3, 7, 12, 18, 21, 25, 30, 34, 42, 50].getD i.toNat 0

end BusquedaEnteros

/-! ## Binary search over student records (`busqueda_struct.c`) -/

namespace BusquedaStruct

/-- The `Alumno` record (the mark, a `float`, plays no part in the comparison
and is left out). -/
structure Alumno where
  id : Int
  nombre : CStr
deriving DecidableEq

/-- The function `cmp_id`: `a->id - id` in 32-bit `int` arithmetic. -/
def cmp_id (a : Alumno) (id : Int) : Int := wrap32 (a.id - id)

end BusquedaStruct

/-! ## Circular queue of processes (`colas/cola_vectorial.c`) -/

namespace ColaVectorial

/-- The size of the array of the queue (`MAX`). -/
def MAX : Int := 10

/-- The `PROCESO` record. -/
structure PROCESO where
  pid : Int
  nombre : CStr
  tiempo_ejecucion : Int
deriving DecidableEq

/-- The `COLA` record. -/
structure COLA where
  datos : Int → PROCESO
  front : Int
  rear : Int
  num_elem : Int

/-- The function `crearCola`. -/
def crearCola (c : COLA) : COLA := { c with front := 0, rear := 0, num_elem := 0 }

/-- The function `colaVacia`. -/
def colaVacia (c : COLA) : Int := if c.front = c.rear then 1 else 0

/-- The function `colaLlena`. -/
def colaLlena (c : COLA) : Int := if Int.tmod (c.rear + 1) MAX = c.front then 1 else 0

/-- The function `encolar`. -/
def encolar (c : COLA) (nuevo : PROCESO) : COLA :=
  if colaLlena c ≠ 0 then c
  else
    { c with
      datos := Function.update c.datos c.rear nuevo
      rear := Int.tmod (c.rear + 1) MAX
      num_elem := c.num_elem + 1 }

/-- The function `desencolar`: the queue afterwards and the value of
`*atendido` afterwards. -/
def desencolar (c : COLA) (atendido : PROCESO) : COLA × PROCESO :=
  if colaVacia c ≠ 0 then (c, atendido)
  else
    ({ c with front := Int.tmod (c.front + 1) MAX, num_elem := c.num_elem - 1 },
      c.datos c.front)

/-- The process with the given identifier. -/
def procesoDe (pid : Int) : PROCESO := { pid := pid, nombre := cad "p", tiempo_ejecucion := 5 }

/-- The queue after `crearCola` (on contents where every cell holds the
process 0) and one `encolar` per identifier of the list. -/
def colaCon (pids : List Int) : COLA :=
  pids.foldl (fun c pid => encolar c (procesoDe pid))
    (crearCola { datos := fun _ => procesoDe 0, front := 0, rear := 0, num_elem := 0 })

/-- The queues reachable from `crearCola` by calls of `encolar` and
`desencolar`. -/
inductive Alcanzable : COLA → Prop where
  | crear (c : COLA) : Alcanzable (crearCola c)
  | encolar {c : COLA} (nuevo : PROCESO) : Alcanzable c → Alcanzable (encolar c nuevo)
  | desencolar {c : COLA} (atendido : PROCESO) :
      Alcanzable c → Alcanzable (desencolar c atendido).1

end ColaVectorial

/-! ## Vector stack of words (`pilas/pilas.c`) -/

namespace Pilas

/-- The number of rows of the stack (`MAX`). -/
def MAX : Int := 10

/-- The size of a row, terminator included (`MAXLEN`). -/
def MAXLEN : Nat := 30

/-- The `StackVector` record. A row of `data` is held as the string it
contains (the characters before its terminator). -/
structure StackVector where
  data : Nat → CStr
  top : Int

/-- The string left in a row by `strncpy(dst, src, MAXLEN - 1)` followed by
`dst[MAXLEN - 1] = 0`: the first `MAXLEN - 1` characters of `src`. -/
def copiar (src : CStr) : CStr := src.take (MAXLEN - 1)

/-- The function `createStackVector`. -/
def createStackVector (s : StackVector) : StackVector := { s with top := -1 }

/-- The function `isEmptyVector`. -/
def isEmptyVector (s : StackVector) : Int := if s.top = -1 then 1 else 0

/-- The function `isFullVector`. -/
def isFullVector (s : StackVector) : Int := if s.top = MAX - 1 then 1 else 0

/-- The function `pushVector`. -/
def pushVector (s : StackVector) (word : CStr) : StackVector :=
  if isFullVector s ≠ 0 then s
  else
    let top := s.top + 1
    { data := Function.update s.data top.toNat (copiar word), top := top }

/-- The function `popVector`: the stack afterwards, the value returned and
the contents of `out_word` afterwards. -/
def popVector (s : StackVector) (out_word : CStr) : StackVector × Int × CStr :=
  if isEmptyVector s ≠ 0 then (s, 0, out_word)
  else ({ s with top := s.top - 1 }, 1, copiar (s.data s.top.toNat))

/-- The table `names` of `fillStackVectorWithNames`. -/
def names : List CStr :=
  [cad "Ana", cad "Luis", cad "Marta", cad "Pablo", cad "Sofia", cad "Carlos", cad "Elena",
   cad "Raul", cad "Lucia", cad "Andres", cad "Clara", cad "Javier", cad "Paula", cad "David",
   cad "Maria", cad "Hugo", cad "Irene", cad "Sergio", cad "Nuria", cad "Alberto", cad "Eva",
   cad "Jorge", cad "Sandra", cad "Manuel", cad "Beatriz", cad "Diego", cad "Laura",
   cad "Carmen", cad "Antonio", cad "Sara"]

/-- The `for` loop of `fillStackVectorWithNames` from index `i`, with the
given number of iterations left. -/
def fillBucle : Nat → StackVector → Nat → StackVector
  | 0, s, _ => s
  | n + 1, s, i => fillBucle n (pushVector s (names.getD i [])) (i + 1)

/-- The function `fillStackVectorWithNames`. -/
def fillStackVectorWithNames (s : StackVector) (count : Int) : StackVector :=
  let totalNames : Int := names.length
  let namesToInsert := if count < totalNames then count else totalNames
  fillBucle namesToInsert.toNat s 0

/-- Successive calls of `pushVector`, one per word. -/
def apilar (s : StackVector) (l : List CStr) : StackVector := l.foldl pushVector s

/-- The given number of successive calls of `popVector`: the stack afterwards
and the words obtained by the calls that returned 1, in order. -/
def desapilar : Nat → StackVector → StackVector × List CStr
  | 0, s => (s, [])
  | n + 1, s =>
    if (popVector s []).2.1 = 1 then
      ((desapilar n (popVector s []).1).1,
        (popVector s []).2.2 :: (desapilar n (popVector s []).1).2)
    else desapilar n (popVector s []).1

end Pilas

/-! ## Direct insertion sort (`Ejercicio-Final-V.2.0.c`, `busqueda/ordenacion_binaria.c`) -/

namespace EjercicioFinal

/-- The `while (j > 0 && v[j - 1] > aux)` loop of `ordenacion`, started at
position `j`: the vector and the value of `j` when it ends. The values are of
any type; `mayor a b` is the comparison `a > b` of the source. -/
def desplazar {α : Type} (mayor : α → α → Bool) (aux : α) : Nat → (Nat → α) → (Nat → α) × Nat
  | 0, v => (v, 0)
  | j + 1, v =>
    if mayor (v j) aux then desplazar mayor aux j (Function.update v (j + 1) (v j))
    else (v, j + 1)

/-- The `for` loop of `ordenacion` from index `i`, with the given number of
iterations left. -/
def ordenacion_bucle {α : Type} (mayor : α → α → Bool) : Nat → Nat → (Nat → α) → (Nat → α)
  | 0, _, v => v
  | k + 1, i, v =>
    let aux := v i
    let r := desplazar mayor aux i v
    ordenacion_bucle mayor k (i + 1) (Function.update r.1 r.2 aux)

/-- The function `ordenacion`. -/
def ordenacion {α : Type} (mayor : α → α → Bool) (v : Nat → α) (n : Int) : Nat → α :=
  ordenacion_bucle mayor n.toNat 0 v

/-- The vector holding the given values at its first positions (0 elsewhere). -/
def vectorDe (l : List Int) : Nat → Int := fun i => l.getD i 0

end EjercicioFinal

/-! # Properties -/

/-! ## `strcmp` is a strict total order -/

theorem strcmp_self (a : CStr) : strcmp a a = 0 := by
  induction a with
  | nil => rfl
  | cons x s ih => simp [strcmp, ih]

theorem strcmp_antisim (a b : CStr) : strcmp b a = - strcmp a b := by
  induction a generalizing b with
  | nil => cases b <;> simp [strcmp]
  | cons x s ih =>
    cases b with
    | nil => simp [strcmp]
    | cons y t =>
      simp only [strcmp]
      split_ifs <;> first | omega | exact ih t

theorem strcmp_eq_zero {a b : CStr} : strcmp a b = 0 ↔ a = b := by
  constructor
  · intro h
    induction a generalizing b with
    | nil => cases b with
      | nil => rfl
      | cons y t => simp [strcmp] at h
    | cons x s ih =>
      cases b with
      | nil => simp [strcmp] at h
      | cons y t =>
        simp only [strcmp] at h
        split_ifs at h with h1 h2
        all_goals first
          | omega
          | (have hxy : x = y := by omega
             rw [hxy, ih h])
  · rintro rfl; exact strcmp_self a

theorem strcmp_trans {a b c : CStr} (h1 : strcmp a b < 0) (h2 : strcmp b c < 0) :
    strcmp a c < 0 := by
  induction a generalizing b c with
  | nil =>
    cases c with
    | nil => cases b <;> simp [strcmp] at h1 h2
    | cons z u => simp [strcmp]
  | cons x s ih =>
    cases b with
    | nil => simp [strcmp] at h1
    | cons y t =>
      cases c with
      | nil => simp [strcmp] at h2
      | cons z u =>
        simp only [strcmp] at h1 h2 ⊢
        split_ifs at h1 h2 ⊢ <;> first | omega | exact ih h1 h2

theorem strcmp_gt_iff {a b : CStr} : strcmp a b > 0 ↔ strcmp b a < 0 := by
  rw [strcmp_antisim a b]; omega

theorem strcmp_ne_of_lt {a b : CStr} (h : strcmp a b < 0) : a ≠ b := by
  rintro rfl; rw [strcmp_self] at h; omega

/-! ## Flight manager: the registry -/

namespace GestorVuelo

theorem mem_inorden_insertar {t : Vuelo} {p : Nat} {d x : DatosVuelo}
    (h : x ∈ recorrer_inorden (insertar_vuelo t p d)) : x = d ∨ x ∈ recorrer_inorden t := by
  induction t with
  | nulo => simpa [insertar_vuelo, recorrer_inorden] using h
  | nodo q e izq der ihi ihd =>
    simp only [insertar_vuelo] at h
    split_ifs at h
    · simp only [recorrer_inorden, List.mem_append, List.mem_cons] at h ⊢
      rcases h with h | h | h
      · rcases ihi h with h | h <;> simp [h]
      · simp [h]
      · simp [h]
    · simp only [recorrer_inorden, List.mem_append, List.mem_cons] at h ⊢
      rcases h with h | h | h
      · simp [h]
      · simp [h]
      · rcases ihd h with h | h <;> simp [h]
    · exact Or.inr h

theorem insertar_esABB {t : Vuelo} (p : Nat) (d : DatosVuelo) (h : esABB t) :
    esABB (insertar_vuelo t p d) := by
  induction t with
  | nulo => simp [insertar_vuelo, esABB, recorrer_inorden]
  | nodo q e izq der ihi ihd =>
    obtain ⟨hi, hd, hmi, hmd⟩ := h
    simp only [insertar_vuelo]
    split_ifs with h1 h2
    · refine ⟨ihi hi, hd, ?_, hmd⟩
      intro x hx
      rcases mem_inorden_insertar hx with rfl | hx
      · exact h1
      · exact hmi x hx
    · refine ⟨hi, ihd hd, hmi, ?_⟩
      intro x hx
      rcases mem_inorden_insertar hx with rfl | hx
      · exact strcmp_gt_iff.mp h2
      · exact hmd x hx
    · exact ⟨hi, hd, hmi, hmd⟩

theorem insertar_duplicado {t : Vuelo} (p : Nat) (d : DatosVuelo) (h : esABB t)
    (hd : d.codigo_vuelo ∈ codigos t) : insertar_vuelo t p d = t := by
  induction t with
  | nulo => simp [codigos, recorrer_inorden] at hd
  | nodo q e izq der ihi ihd =>
    obtain ⟨hi, hder, hmi, hmd⟩ := h
    simp only [codigos, recorrer_inorden, List.map_append, List.map_cons, List.mem_append,
      List.mem_cons, List.mem_map] at hd
    simp only [insertar_vuelo]
    split_ifs with h1 h2
    · rcases hd with ⟨x, hx, hxd⟩ | hd | ⟨x, hx, hxd⟩
      · rw [ihi hi (List.mem_map.mpr ⟨x, hx, hxd⟩)]
      · rw [hd, strcmp_self] at h1; omega
      · have := strcmp_trans h1 (hmd x hx)
        rw [hxd, strcmp_self] at this; omega
    · have h2' := strcmp_gt_iff.mp h2
      rcases hd with ⟨x, hx, hxd⟩ | hd | ⟨x, hx, hxd⟩
      · have := strcmp_trans (hmi x hx) h2'
        rw [hxd, strcmp_self] at this; omega
      · rw [hd, strcmp_self] at h2; omega
      · rw [ihd hder (List.mem_map.mpr ⟨x, hx, hxd⟩)]
    · rfl

theorem insertar_perm {t : Vuelo} (p : Nat) (d : DatosVuelo)
    (hd : d.codigo_vuelo ∉ codigos t) :
    (recorrer_inorden (insertar_vuelo t p d)).Perm (d :: recorrer_inorden t) := by
  induction t with
  | nulo => simp [insertar_vuelo, recorrer_inorden]
  | nodo q e izq der ihi ihd =>
    simp only [codigos, recorrer_inorden, List.map_append, List.map_cons, List.mem_append,
      List.mem_cons, not_or] at hd
    obtain ⟨hdi, hde, hdd⟩ := hd
    simp only [insertar_vuelo]
    split_ifs with h1 h2
    · simp only [recorrer_inorden]
      exact ((ihi hdi).append_right _).trans (by simp)
    · simp only [recorrer_inorden]
      have := (ihd hdd)
      exact (List.Perm.append_left _ ((List.Perm.cons e this).trans (List.Perm.swap d e _))).trans
        (List.perm_middle)
    · exfalso
      have : strcmp d.codigo_vuelo e.codigo_vuelo = 0 := by omega
      exact hde (strcmp_eq_zero.mp this)

theorem inorden_vuelos_ordenado {t : Vuelo} (h : esABB t) :
    (recorrer_inorden t).Pairwise (fun a b => strcmp a.codigo_vuelo b.codigo_vuelo < 0) := by
  induction t with
  | nulo => simp [recorrer_inorden]
  | nodo q e izq der ihi ihd =>
    obtain ⟨hi, hd, hmi, hmd⟩ := h
    simp only [recorrer_inorden, List.pairwise_append, List.pairwise_cons, List.mem_cons]
    refine ⟨ihi hi, ⟨hmd, ihd hd⟩, ?_⟩
    rintro a ha b (rfl | hb)
    · exact hmi a ha
    · exact strcmp_trans (hmi a ha) (hmd b hb)

theorem foldl_insertar_esABB (l : List (Nat × DatosVuelo)) (t : Vuelo) (h : esABB t) :
    esABB (l.foldl (fun raiz x => insertar_vuelo raiz x.1 x.2) t) := by
  induction l generalizing t with
  | nil => exact h
  | cons x l ih => exact ih _ (insertar_esABB x.1 x.2 h)

theorem construir_esABB (l : List (Nat × DatosVuelo)) : esABB (construir l) :=
  foldl_insertar_esABB l .nulo trivial

theorem foldl_insertar_perm (l : List (Nat × DatosVuelo)) (t : Vuelo)
    (hn : (l.map (·.2.codigo_vuelo)).Nodup)
    (hdis : ∀ x ∈ l, x.2.codigo_vuelo ∉ codigos t) :
    (recorrer_inorden (l.foldl (fun raiz x => insertar_vuelo raiz x.1 x.2) t)).Perm
      (recorrer_inorden t ++ l.map (·.2)) := by
  induction l generalizing t with
  | nil => simp
  | cons x l ih =>
    simp only [List.map_cons, List.nodup_cons, List.mem_map, not_exists, not_and] at hn
    have hx := hdis x (List.mem_cons_self _ _)
    have hp := insertar_perm x.1 x.2 hx
    have hdis' : ∀ y ∈ l, y.2.codigo_vuelo ∉ codigos (insertar_vuelo t x.1 x.2) := by
      intro y hy hmem
      simp only [codigos, List.mem_map] at hmem
      obtain ⟨z, hz, hzy⟩ := hmem
      rcases mem_inorden_insertar hz with rfl | hz
      · exact hn.1 y hy hzy.symm
      · exact hdis y (List.mem_cons_of_mem _ hy) (List.mem_map.mpr ⟨z, hz, hzy⟩)
    refine (ih _ hn.2 hdis').trans ?_
    simp only [List.foldl_cons, List.map_cons]
    exact (hp.append_right _).trans (List.perm_middle).symm

instance : IsTotal CStr leStr :=
  ⟨fun a b => by
    unfold leStr
    have := strcmp_antisim a b
    omega⟩

instance : IsTrans CStr leStr :=
  ⟨fun a b c hab hbc => by
    unfold leStr at *
    rcases lt_or_eq_of_le hab with h1 | h1
    · rcases lt_or_eq_of_le hbc with h2 | h2
      · exact le_of_lt (strcmp_trans h1 h2)
      · rw [← strcmp_eq_zero.mp h2]; exact hab
    · rw [strcmp_eq_zero.mp h1]; exact hbc⟩

instance : IsAntisymm CStr leStr :=
  ⟨fun a b hab hba => by
    unfold leStr at *
    have := strcmp_antisim a b
    exact strcmp_eq_zero.mp (by omega)⟩

theorem vuelo_en_heap_iff (mem : Nat → Option DatosVuelo) (heap : Heap) (k : CStr) :
    vuelo_en_heap mem heap k = true ↔
      ∃ i : Nat, (i : Int) < heap.tamano ∧ ∃ p d, (heap.elementos i).vuelo = some p ∧
        mem p = some d ∧ d.codigo_vuelo = k := by
  simp only [vuelo_en_heap, List.any_eq_true, List.mem_range]
  constructor
  · rintro ⟨i, hi, h⟩
    refine ⟨i, by omega, ?_⟩
    cases hp : (heap.elementos i).vuelo with
    | none => simp [hp] at h
    | some p =>
      cases hd : mem p with
      | none => simp [hp, hd] at h
      | some d =>
        simp only [hp, hd, decide_eq_true_eq] at h
        exact ⟨p, d, rfl, hd, strcmp_eq_zero.mp h⟩
  · rintro ⟨i, hi, p, d, hp, hd, rfl⟩
    exact ⟨i, by omega, by simp [hp, hd, strcmp_self]⟩

theorem eliminar_vuelo_programado (mem : Nat → Option DatosVuelo) (raiz : Vuelo) (k : CStr)
    (heap : Heap) (h : vuelo_en_heap mem heap k = true) :
    eliminar_vuelo mem raiz k heap = raiz := by
  cases raiz with
  | nulo => rfl
  | nodo p d izq der => simp [eliminar_vuelo, h]

/-- C1 (the code breaks the claim). Register B, A, C at three distinct addresses,
schedule C, delete B: the two-child case copies C into the root, the recursive
deletion of the successor is refused because C is scheduled, and the tree ends
up with two nodes of code C; the in-order traversal A, C, C is not strictly
ascending. -/
theorem c1_codigo_duplicado_tras_eliminar :
    codigos (ejecutar inicial
      [.registrar 1 (vueloDe "B"), .registrar 2 (vueloDe "A"), .registrar 3 (vueloDe "C"),
       .programar (cad "C") 20251204 1000, .eliminar (cad "B")]).arbol_vuelos
      = [cad "A", cad "C", cad "C"] ∧
    ¬ (codigos (ejecutar inicial
      [.registrar 1 (vueloDe "B"), .registrar 2 (vueloDe "A"), .registrar 3 (vueloDe "C"),
       .programar (cad "C") 20251204 1000, .eliminar (cad "B")]).arbol_vuelos).Pairwise
        (fun a b => strcmp a b < 0) := by
  decide

/-- C2. If some entry among the first `tamano` heap entries points to a flight
whose code is `k`, `eliminar_vuelo` returns the root it was given: the tree
(nodes, links, data, traversal) is the same, and so is the whole state of
`main` after option 3, heap included. -/
theorem c2_guardia_vuelo_programado (mem : Nat → Option DatosVuelo) (raiz : Vuelo)
    (heap : Heap) (k : CStr)
    (h : ∃ i : Nat, (i : Int) < heap.tamano ∧ ∃ p d, (heap.elementos i).vuelo = some p ∧
      mem p = some d ∧ d.codigo_vuelo = k) :
    vuelo_en_heap mem heap k = true ∧
    eliminar_vuelo mem raiz k heap = raiz ∧
    recorrer_inorden (eliminar_vuelo mem raiz k heap) = recorrer_inorden raiz ∧
    (mem = memoria raiz →
      (paso { arbol_vuelos := raiz, monticulo_salidas := heap } (.eliminar k)).arbol_vuelos = raiz ∧
      (paso { arbol_vuelos := raiz, monticulo_salidas := heap } (.eliminar k)).monticulo_salidas.tamano
        = heap.tamano ∧
      (paso { arbol_vuelos := raiz, monticulo_salidas := heap } (.eliminar k)).monticulo_salidas.capacidad
        = heap.capacidad ∧
      (paso { arbol_vuelos := raiz, monticulo_salidas := heap } (.eliminar k)).monticulo_salidas.elementos
        = heap.elementos) := by
  have hv := (vuelo_en_heap_iff mem heap k).mpr h
  have he := eliminar_vuelo_programado mem raiz k heap hv
  refine ⟨hv, he, by rw [he], ?_⟩
  rintro rfl
  simp only [paso, he, and_self]

/-- C2 at a concrete state: B, A, C registered, C scheduled; deleting C is
refused. -/
theorem c2_guardia_vuelo_programado_testigo :
    vuelo_en_heap
      (memoria (.nodo 1 (vueloDe "B") (.nodo 2 (vueloDe "A") .nulo .nulo)
        (.nodo 3 (vueloDe "C") .nulo .nulo)))
      { elementos := fun _ => { vuelo := some 3, clave_salida := 5 }, capacidad := 100, tamano := 1 }
      (cad "C") = true ∧
    eliminar_vuelo
      (memoria (.nodo 1 (vueloDe "B") (.nodo 2 (vueloDe "A") .nulo .nulo)
        (.nodo 3 (vueloDe "C") .nulo .nulo)))
      (.nodo 1 (vueloDe "B") (.nodo 2 (vueloDe "A") .nulo .nulo)
        (.nodo 3 (vueloDe "C") .nulo .nulo)) (cad "C")
      { elementos := fun _ => { vuelo := some 3, clave_salida := 5 }, capacidad := 100, tamano := 1 }
      = .nodo 1 (vueloDe "B") (.nodo 2 (vueloDe "A") .nulo .nulo)
        (.nodo 3 (vueloDe "C") .nulo .nulo) :=
  have h := c2_guardia_vuelo_programado
    (memoria (.nodo 1 (vueloDe "B") (.nodo 2 (vueloDe "A") .nulo .nulo)
      (.nodo 3 (vueloDe "C") .nulo .nulo)))
    (.nodo 1 (vueloDe "B") (.nodo 2 (vueloDe "A") .nulo .nulo)
      (.nodo 3 (vueloDe "C") .nulo .nulo))
    { elementos := fun _ => { vuelo := some 3, clave_salida := 5 }, capacidad := 100, tamano := 1 }
    (cad "C") ⟨0, by decide, 3, vueloDe "C", rfl, by decide, rfl⟩
  ⟨h.1, h.2.1⟩

/-- C7. Inserting flights with pairwise distinct codes one by one into the empty
tree gives a tree whose in-order traversal holds exactly the inserted flights,
its codes strictly ascending under `strcmp`: it is the list of codes sorted. -/
theorem c7_insercion_da_recorrido_ordenado (l : List (Nat × DatosVuelo))
    (h : (l.map (·.2.codigo_vuelo)).Nodup) :
    (codigos (construir l)).Pairwise (fun a b => strcmp a b < 0) ∧
    (recorrer_inorden (construir l)).Perm (l.map (·.2)) ∧
    codigos (construir l) = (l.map (·.2.codigo_vuelo)).insertionSort leStr := by
  have hperm : (recorrer_inorden (construir l)).Perm (l.map (·.2)) := by
    have := foldl_insertar_perm l .nulo h (by simp [codigos, recorrer_inorden])
    simpa [construir, recorrer_inorden] using this
  have hord : (codigos (construir l)).Pairwise (fun a b => strcmp a b < 0) := by
    have := inorden_vuelos_ordenado (construir_esABB l)
    simpa [codigos, List.pairwise_map] using this
  refine ⟨hord, hperm, ?_⟩
  apply List.eq_of_perm_of_sorted (r := leStr)
  · have : (codigos (construir l)).Perm (l.map (·.2.codigo_vuelo)) := by
      have := hperm.map (·.codigo_vuelo)
      simpa [codigos] using this
    exact this.trans (List.perm_insertionSort leStr _).symm
  · exact hord.imp (fun h => le_of_lt h)
  · exact List.sorted_insertionSort leStr _

/-- C7 on the example of the specification: M, B, T, A gives A, B, M, T. -/
theorem c7_insercion_da_recorrido_ordenado_testigo :
    codigos (construir [(1, vueloDe "M"), (2, vueloDe "B"), (3, vueloDe "T"), (4, vueloDe "A")])
      = [cad "A", cad "B", cad "M", cad "T"] ∧
    (codigos (construir
      [(1, vueloDe "M"), (2, vueloDe "B"), (3, vueloDe "T"), (4, vueloDe "A")])).Pairwise
      (fun a b => strcmp a b < 0) :=
  ⟨by decide,
   (c7_insercion_da_recorrido_ordenado
     [(1, vueloDe "M"), (2, vueloDe "B"), (3, vueloDe "T"), (4, vueloDe "A")] (by decide)).1⟩

/-- C8. On a tree built by `insertar_vuelo`, inserting a flight whose code is
already in the tree returns the very same tree: every node, link and record is
unchanged, and so is the in-order traversal. -/
theorem c8_duplicado_deja_arbol_igual (l : List (Nat × DatosVuelo)) (dir : Nat)
    (datos : DatosVuelo) (h : datos.codigo_vuelo ∈ codigos (construir l)) :
    insertar_vuelo (construir l) dir datos = construir l ∧
    recorrer_inorden (insertar_vuelo (construir l) dir datos) = recorrer_inorden (construir l) := by
  have he := insertar_duplicado dir datos (construir_esABB l) h
  exact ⟨he, by rw [he]⟩

/-- C8 on the example of the specification: after C, A, B, inserting A again
leaves the traversal A, B, C. -/
theorem c8_duplicado_deja_arbol_igual_testigo :
    codigos (insertar_vuelo (construir [(1, vueloDe "C"), (2, vueloDe "A"), (3, vueloDe "B")])
      4 (vueloDe "A")) = [cad "A", cad "B", cad "C"] ∧
    insertar_vuelo (construir [(1, vueloDe "C"), (2, vueloDe "A"), (3, vueloDe "B")])
      4 (vueloDe "A") = construir [(1, vueloDe "C"), (2, vueloDe "A"), (3, vueloDe "B")] :=
  ⟨by decide,
   (c8_duplicado_deja_arbol_igual [(1, vueloDe "C"), (2, vueloDe "A"), (3, vueloDe "B")]
     4 (vueloDe "A") (by decide)).1⟩

end GestorVuelo

/-! ## Two-part keys -/

theorem menorClave_irrefl (a : CStr × CStr) : ¬ menorClave a a := by
  unfold menorClave
  rw [strcmp_self, strcmp_self]
  omega

theorem menorClave_trans {a b c : CStr × CStr} (h1 : menorClave a b) (h2 : menorClave b c) :
    menorClave a c := by
  unfold menorClave at *
  rcases h1 with h1 | ⟨h1, h1'⟩
  · rcases h2 with h2 | ⟨h2, _⟩
    · exact Or.inl (strcmp_trans h1 h2)
    · rw [← strcmp_eq_zero.mp h2]; exact Or.inl h1
  · rw [strcmp_eq_zero.mp h1]
    rcases h2 with h2 | ⟨h2, h2'⟩
    · exact Or.inl h2
    · exact Or.inr ⟨h2, strcmp_trans h1' h2'⟩

theorem menorClave_tricotomia (a b : CStr × CStr) : menorClave a b ∨ a = b ∨ menorClave b a := by
  unfold menorClave
  have h1 := strcmp_antisim a.1 b.1
  have h2 := strcmp_antisim a.2 b.2
  by_cases e1 : strcmp a.1 b.1 = 0
  · by_cases e2 : strcmp a.2 b.2 = 0
    · right; left
      exact Prod.ext (strcmp_eq_zero.mp e1) (strcmp_eq_zero.mp e2)
    · rcases lt_or_gt_of_ne e2 with h | h
      · exact Or.inl (Or.inr ⟨e1, h⟩)
      · exact Or.inr (Or.inr (Or.inr ⟨by omega, by omega⟩))
  · rcases lt_or_gt_of_ne e1 with h | h
    · exact Or.inl (Or.inl h)
    · exact Or.inr (Or.inr (Or.inl (by omega)))

theorem menorClave_ne {a b : CStr × CStr} (h : menorClave a b) : a ≠ b := by
  rintro rfl; exact menorClave_irrefl a h

/-! ## Train manager: deletion -/

namespace GestorTrenes

theorem menor_tren_iff (a b : DatosTren) :
    menor a b ↔ menorClave (a.destino, a.id_tren) (b.destino, b.id_tren) := Iff.rfl

theorem menor_tren_trans {a b c : DatosTren} (h1 : menor a b) (h2 : menor b c) : menor a c :=
  (menor_tren_iff a c).mpr (menorClave_trans ((menor_tren_iff a b).mp h1) ((menor_tren_iff b c).mp h2))

theorem eliminar_tren_menor {p : Nat} {e : DatosTren} {izq der : Tren} {destino id_tren : CStr}
    (h : menorClave (destino, id_tren) (e.destino, e.id_tren)) :
    eliminar_tren (.nodo p e izq der) destino id_tren
      = .nodo p e (eliminar_tren izq destino id_tren) der := by
  simp only [menorClave] at h
  simp only [eliminar_tren]
  split_ifs <;> first | rfl | omega

theorem eliminar_tren_mayor {p : Nat} {e : DatosTren} {izq der : Tren} {destino id_tren : CStr}
    (h : menorClave (e.destino, e.id_tren) (destino, id_tren)) :
    eliminar_tren (.nodo p e izq der) destino id_tren
      = .nodo p e izq (eliminar_tren der destino id_tren) := by
  simp only [menorClave] at h
  have h1 := strcmp_antisim destino e.destino
  have h2 := strcmp_antisim id_tren e.id_tren
  simp only [eliminar_tren]
  split_ifs <;> first | rfl | omega

theorem encontrar_min_eq_head (t : Tren) : encontrar_min t = (recorrer_inorden t).head? := by
  induction t with
  | nulo => rfl
  | nodo p e izq der ihi _ =>
    cases izq with
    | nulo => simp [encontrar_min, recorrer_inorden]
    | nodo q f i r =>
      rw [encontrar_min, ihi]
      simp only [recorrer_inorden]
      cases h : recorrer_inorden i <;> simp

theorem inorden_trenes_ordenado {t : Tren} (h : esABB t) : (recorrer_inorden t).Pairwise menor := by
  induction t with
  | nulo => simp [recorrer_inorden]
  | nodo q e izq der ihi ihd =>
    obtain ⟨hi, hd, hmi, hmd⟩ := h
    simp only [recorrer_inorden, List.pairwise_append, List.pairwise_cons, List.mem_cons]
    refine ⟨ihi hi, ⟨hmd, ihd hd⟩, ?_⟩
    rintro a ha b (rfl | hb)
    · exact hmi a ha
    · exact menor_tren_trans (hmi a ha) (hmd b hb)

theorem no_tieneClave_of_menor {destino id_tren : CStr} {x : DatosTren}
    (h : menorClave (destino, id_tren) (x.destino, x.id_tren)) : ¬ tieneClave destino id_tren x := by
  rintro ⟨h1, h2⟩
  rw [← h1, ← h2] at h
  exact menorClave_irrefl _ h

theorem no_tieneClave_of_mayor {destino id_tren : CStr} {x : DatosTren}
    (h : menorClave (x.destino, x.id_tren) (destino, id_tren)) : ¬ tieneClave destino id_tren x := by
  rintro ⟨h1, h2⟩
  rw [← h1, ← h2] at h
  exact menorClave_irrefl _ h

theorem filter_sin_clave {destino id_tren : CStr} {l : List DatosTren}
    (h : ∀ x ∈ l, ¬ tieneClave destino id_tren x) :
    l.filter (fun x => decide (¬ tieneClave destino id_tren x)) = l := by
  rw [List.filter_eq_self]
  intro x hx
  simpa using h x hx

theorem eliminar_tren_dos_hijos (p : Nat) (e : DatosTren) (q : Nat) (f : DatosTren) (i r : Tren)
    (q2 : Nat) (f2 : DatosTren) (i2 r2 : Tren) (suc : DatosTren)
    (hmin : encontrar_min (.nodo q2 f2 i2 r2) = some suc) :
    eliminar_tren (.nodo p e (.nodo q f i r) (.nodo q2 f2 i2 r2)) e.destino e.id_tren
      = .nodo p suc (.nodo q f i r)
          (eliminar_tren (.nodo q2 f2 i2 r2) suc.destino suc.id_tren) := by
  rw [eliminar_tren]
  · simp only [strcmp_self, lt_self_iff_false, if_false, gt_iff_lt, hmin]
  all_goals simp

theorem eliminar_tren_correcto (t : Tren) (destino id_tren : CStr) (h : esABB t) :
    esABB (eliminar_tren t destino id_tren) ∧
    recorrer_inorden (eliminar_tren t destino id_tren)
      = (recorrer_inorden t).filter (fun x => decide (¬ tieneClave destino id_tren x)) := by
  induction t generalizing destino id_tren with
  | nulo => simp [eliminar_tren, esABB, recorrer_inorden]
  | nodo p e izq der ihi ihd =>
    obtain ⟨hi, hd, hmi, hmd⟩ := h
    rcases menorClave_tricotomia (destino, id_tren) (e.destino, e.id_tren) with hlt | heq | hgt
    · rw [eliminar_tren_menor hlt]
      obtain ⟨ih1, ih2⟩ := ihi destino id_tren hi
      refine ⟨⟨ih1, hd, ?_, hmd⟩, ?_⟩
      · intro x hx
        rw [ih2] at hx
        exact hmi x (List.mem_filter.mp hx).1
      · have hder : ∀ x ∈ e :: recorrer_inorden der, ¬ tieneClave destino id_tren x := by
          intro x hx
          rcases List.mem_cons.mp hx with rfl | hx
          · exact no_tieneClave_of_menor hlt
          · exact no_tieneClave_of_menor (menorClave_trans hlt ((menor_tren_iff _ _).mp (hmd x hx)))
        simp only [recorrer_inorden, List.filter_append, ih2, filter_sin_clave hder]
    · obtain ⟨rfl, rfl⟩ := Prod.ext_iff.mp heq
      have hizq : ∀ x ∈ recorrer_inorden izq, ¬ tieneClave e.destino e.id_tren x :=
        fun x hx => no_tieneClave_of_mayor ((menor_tren_iff _ _).mp (hmi x hx))
      have hder : ∀ x ∈ recorrer_inorden der, ¬ tieneClave e.destino e.id_tren x :=
        fun x hx => no_tieneClave_of_menor ((menor_tren_iff _ _).mp (hmd x hx))
      have he : tieneClave e.destino e.id_tren e := ⟨rfl, rfl⟩
      have hfil : (recorrer_inorden (.nodo p e izq der)).filter
          (fun x => decide (¬ tieneClave e.destino e.id_tren x))
          = recorrer_inorden izq ++ recorrer_inorden der := by
        simp only [recorrer_inorden, List.filter_append, filter_sin_clave hizq, List.filter_cons,
          filter_sin_clave hder]
        simp [he]
      rw [hfil]
      cases izq with
      | nulo =>
        cases der with
        | nulo => simp [eliminar_tren, strcmp_self, esABB, recorrer_inorden]
        | nodo q f i r =>
          simp only [eliminar_tren, strcmp_self, lt_self_iff_false, if_false, gt_iff_lt]
          exact ⟨hd, by simp [recorrer_inorden]⟩
      | nodo q f i r =>
        cases der with
        | nulo =>
          simp only [eliminar_tren, strcmp_self, lt_self_iff_false, if_false, gt_iff_lt]
          exact ⟨hi, by simp [recorrer_inorden]⟩
        | nodo q2 f2 i2 r2 =>
          have hord := inorden_trenes_ordenado hd
          have hmin := encontrar_min_eq_head (.nodo q2 f2 i2 r2)
          cases hl : recorrer_inorden (.nodo q2 f2 i2 r2) with
          | nil => simp [recorrer_inorden] at hl
          | cons suc tl =>
            rw [hl] at hord hmin
            simp only [List.head?_cons] at hmin
            obtain ⟨ih1, ih2⟩ := ihd suc.destino suc.id_tren hd
            have htl : ∀ x ∈ tl, ¬ tieneClave suc.destino suc.id_tren x :=
              fun x hx => no_tieneClave_of_menor ((menor_tren_iff _ _).mp ((List.pairwise_cons.mp hord).1 x hx))
            have hsuc : tieneClave suc.destino suc.id_tren suc := ⟨rfl, rfl⟩
            rw [hl, List.filter_cons, filter_sin_clave htl] at ih2
            simp only [hsuc, not_true_eq_false, decide_False, Bool.false_eq_true, if_false] at ih2
            rw [eliminar_tren_dos_hijos p e q f i r q2 f2 i2 r2 suc hmin]
            refine ⟨⟨hi, ih1, ?_, ?_⟩, ?_⟩
            · intro x hx
              exact menor_tren_trans (hmi x hx) (hmd suc (by rw [hl]; exact List.mem_cons_self _ _))
            · intro x hx
              rw [ih2] at hx
              exact (List.pairwise_cons.mp hord).1 x hx
            · rw [recorrer_inorden, ih2]
    · rw [eliminar_tren_mayor hgt]
      obtain ⟨ih1, ih2⟩ := ihd destino id_tren hd
      refine ⟨⟨hi, ih1, hmi, ?_⟩, ?_⟩
      · intro x hx
        rw [ih2] at hx
        exact hmd x (List.mem_filter.mp hx).1
      · have hizq : ∀ x ∈ recorrer_inorden izq, ¬ tieneClave destino id_tren x := by
          intro x hx
          exact no_tieneClave_of_mayor (menorClave_trans ((menor_tren_iff _ _).mp (hmi x hx)) hgt)
        have he : ¬ tieneClave destino id_tren e := no_tieneClave_of_mayor hgt
        simp only [recorrer_inorden, List.filter_append, ih2, filter_sin_clave hizq,
          List.filter_cons]
        simp [he]

theorem eliminar_tren_ausente (t : Tren) (destino id_tren : CStr)
    (h : ∀ x ∈ recorrer_inorden t, ¬ tieneClave destino id_tren x) :
    eliminar_tren t destino id_tren = t := by
  induction t with
  | nulo => rfl
  | nodo p e izq der ihi ihd =>
    simp only [recorrer_inorden, List.mem_append, List.mem_cons] at h
    rcases menorClave_tricotomia (destino, id_tren) (e.destino, e.id_tren) with hlt | heq | hgt
    · rw [eliminar_tren_menor hlt, ihi (fun x hx => h x (Or.inl hx))]
    · obtain ⟨rfl, rfl⟩ := Prod.ext_iff.mp heq
      exact absurd ⟨rfl, rfl⟩ (h e (Or.inr (Or.inl rfl)))
    · rw [eliminar_tren_mayor hgt, ihd (fun x hx => h x (Or.inr (Or.inr hx)))]

theorem filter_quita_uno {destino id_tren : CStr} {l : List DatosTren}
    (hord : l.Pairwise menor) (h : ∃ x ∈ l, tieneClave destino id_tren x) :
    ∃ l1 x l2, l = l1 ++ x :: l2 ∧ tieneClave destino id_tren x ∧
      l.filter (fun y => decide (¬ tieneClave destino id_tren y)) = l1 ++ l2 := by
  obtain ⟨x, hx, hk⟩ := h
  obtain ⟨l1, l2, rfl⟩ := List.append_of_mem hx
  refine ⟨l1, x, l2, rfl, hk, ?_⟩
  rw [List.pairwise_append, List.pairwise_cons] at hord
  obtain ⟨_, ⟨h2, _⟩, h3⟩ := hord
  have hk' : (x.destino, x.id_tren) = (destino, id_tren) := Prod.ext hk.1 hk.2
  have a1 : ∀ y ∈ l1, ¬ tieneClave destino id_tren y := by
    intro y hy
    apply no_tieneClave_of_mayor
    rw [← hk']
    exact (menor_tren_iff _ _).mp (h3 y hy x (List.mem_cons_self _ _))
  have a2 : ∀ y ∈ l2, ¬ tieneClave destino id_tren y := by
    intro y hy
    apply no_tieneClave_of_menor
    rw [← hk']
    exact (menor_tren_iff _ _).mp (h2 y hy)
  rw [List.filter_append, List.filter_cons, filter_sin_clave a1, filter_sin_clave a2]
  simp [hk]

theorem mem_inorden_of_mem_nodos {t : Tren} {p : Nat} {d : DatosTren} (h : (p, d) ∈ nodos t) :
    d ∈ recorrer_inorden t := by
  induction t with
  | nulo => simp [nodos] at h
  | nodo q e izq der ihi ihd =>
    simp only [nodos, List.mem_append, List.mem_cons, Prod.mk.injEq] at h
    simp only [recorrer_inorden, List.mem_append, List.mem_cons]
    rcases h with h | ⟨_, rfl⟩ | h
    · exact Or.inl (ihi h)
    · exact Or.inr (Or.inl rfl)
    · exact Or.inr (Or.inr (ihd h))

theorem eliminar_tren_ignora_heap (s : Sistema) (destino id_tren : CStr)
    (hab : esABB s.arbol_trenes)
    (h : ∃ i : Nat, (i : Int) < s.heap_operaciones.tamano ∧ ∃ p d,
      (s.heap_operaciones.elementos i).tren = some p ∧ (p, d) ∈ nodos s.arbol_trenes ∧
        tieneClave destino id_tren d) :
    (∀ x ∈ recorrer_inorden (caso_eliminar s destino id_tren).arbol_trenes,
      ¬ tieneClave destino id_tren x) ∧
    (caso_eliminar s destino id_tren).arbol_trenes ≠ s.arbol_trenes ∧
    (caso_eliminar s destino id_tren).heap_operaciones.tamano = s.heap_operaciones.tamano ∧
    (caso_eliminar s destino id_tren).heap_operaciones.elementos
      = s.heap_operaciones.elementos := by
  obtain ⟨i, _, p, d, _, hmem, hk⟩ := h
  have hd := mem_inorden_of_mem_nodos hmem
  have hc := (eliminar_tren_correcto s.arbol_trenes destino id_tren hab).2
  have h1 : ∀ x ∈ recorrer_inorden (caso_eliminar s destino id_tren).arbol_trenes,
      ¬ tieneClave destino id_tren x := by
    intro x hx
    simp only [caso_eliminar] at hx
    rw [hc] at hx
    simpa using (List.mem_filter.mp hx).2
  refine ⟨h1, ?_, rfl, rfl⟩
  intro heq
  rw [heq] at h1
  exact h1 d hd hk

/-- C4 fails in the code. After registering Sevilla/T1 and scheduling an
operation on it, option 3 deletes the train: the tree becomes empty, the heap
still holds the operation with its pointer to address 1, no live node is at
that address, and option 7 reads through that pointer. With Lugo/T2 as the
root of Avila/T1 and Vigo/T3 and an operation scheduled on T2, option 3
removes T2 from the listing, frees the node at address 3 and leaves the data
of Vigo/T3 at address 1, so the operation scheduled on T2 shows T3. On every
search tree, a train that a heap entry points to is removed like any other and
the heap is not touched. -/
theorem c4_eliminar_tren_sin_guardia :
    ((caso_eliminar estado_hoja (cad "Sevilla") (cad "T1")).arbol_trenes = .nulo ∧
      (caso_eliminar estado_hoja (cad "Sevilla") (cad "T1")).heap_operaciones.tamano = 1 ∧
      ((caso_eliminar estado_hoja (cad "Sevilla") (cad "T1")).heap_operaciones.elementos 0).tren
        = some 1 ∧
      caso_consultar estado_hoja = some (some (trenDe "Sevilla" "T1" 530)) ∧
      caso_consultar (caso_eliminar estado_hoja (cad "Sevilla") (cad "T1")) = some none) ∧
    (recorrer_inorden estado_dos_hijos.arbol_trenes
        = [trenDe "Avila" "T1" 200, trenDe "Lugo" "T2" 300, trenDe "Vigo" "T3" 600] ∧
      recorrer_inorden (caso_eliminar estado_dos_hijos (cad "Lugo") (cad "T2")).arbol_trenes
        = [trenDe "Avila" "T1" 200, trenDe "Vigo" "T3" 600] ∧
      ((caso_eliminar estado_dos_hijos (cad "Lugo") (cad "T2")).heap_operaciones.elementos
        0).tren = some 1 ∧
      memoria (caso_eliminar estado_dos_hijos (cad "Lugo") (cad "T2")).arbol_trenes 3 = none ∧
      caso_consultar estado_dos_hijos = some (some (trenDe "Lugo" "T2" 300)) ∧
      caso_consultar (caso_eliminar estado_dos_hijos (cad "Lugo") (cad "T2"))
        = some (some (trenDe "Vigo" "T3" 600))) ∧
    ∀ (s : Sistema) (destino id_tren : CStr), esABB s.arbol_trenes →
      (∃ i : Nat, (i : Int) < s.heap_operaciones.tamano ∧ ∃ p d,
        (s.heap_operaciones.elementos i).tren = some p ∧ (p, d) ∈ nodos s.arbol_trenes ∧
          tieneClave destino id_tren d) →
      (∀ x ∈ recorrer_inorden (caso_eliminar s destino id_tren).arbol_trenes,
        ¬ tieneClave destino id_tren x) ∧
      (caso_eliminar s destino id_tren).arbol_trenes ≠ s.arbol_trenes ∧
      (caso_eliminar s destino id_tren).heap_operaciones.tamano = s.heap_operaciones.tamano ∧
      (caso_eliminar s destino id_tren).heap_operaciones.elementos
        = s.heap_operaciones.elementos :=
  ⟨by decide, by decide, eliminar_tren_ignora_heap⟩

/-- C6. On a search tree ordered by (`destino`, `id_tren`), `eliminar_tren`
returns a search tree whose in-order traversal is the previous one without the
records of that key; if a train has the key, exactly that one record is taken
out and all others stay, unchanged and in order (leaf, one child or two
children alike); if none has it, the tree is returned as it was. -/
theorem c6_eliminar_tren_es_borrado_de_abb (raiz : Tren) (destino id_tren : CStr)
    (h : esABB raiz) :
    esABB (eliminar_tren raiz destino id_tren) ∧
    recorrer_inorden (eliminar_tren raiz destino id_tren)
      = (recorrer_inorden raiz).filter (fun x => decide (¬ tieneClave destino id_tren x)) ∧
    ((∃ x ∈ recorrer_inorden raiz, tieneClave destino id_tren x) →
      ∃ l1 x l2, recorrer_inorden raiz = l1 ++ x :: l2 ∧ tieneClave destino id_tren x ∧
        recorrer_inorden (eliminar_tren raiz destino id_tren) = l1 ++ l2) ∧
    ((∀ x ∈ recorrer_inorden raiz, ¬ tieneClave destino id_tren x) →
      eliminar_tren raiz destino id_tren = raiz) := by
  obtain ⟨h1, h2⟩ := eliminar_tren_correcto raiz destino id_tren h
  refine ⟨h1, h2, ?_, eliminar_tren_ausente raiz destino id_tren⟩
  intro hex
  obtain ⟨l1, x, l2, e1, e2, e3⟩ := filter_quita_uno (inorden_trenes_ordenado h) hex
  exact ⟨l1, x, l2, e1, e2, by rw [h2, e3]⟩

/-- C6 on a node with two children: from Cadiz, Lugo, Vigo (Lugo at the root)
deleting Lugo leaves Cadiz, Vigo. -/
theorem c6_eliminar_tren_es_borrado_de_abb_testigo :
    recorrer_inorden (eliminar_tren
      (.nodo 1 (trenDe "Lugo" "T2" 100) (.nodo 2 (trenDe "Cadiz" "T1" 200) .nulo .nulo)
        (.nodo 3 (trenDe "Vigo" "T3" 300) .nulo .nulo)) (cad "Lugo") (cad "T2"))
      = [trenDe "Cadiz" "T1" 200, trenDe "Vigo" "T3" 300] ∧
    esABB (eliminar_tren
      (.nodo 1 (trenDe "Lugo" "T2" 100) (.nodo 2 (trenDe "Cadiz" "T1" 200) .nulo .nulo)
        (.nodo 3 (trenDe "Vigo" "T3" 300) .nulo .nulo)) (cad "Lugo") (cad "T2")) :=
  ⟨by decide,
   (c6_eliminar_tren_es_borrado_de_abb
     (.nodo 1 (trenDe "Lugo" "T2" 100) (.nodo 2 (trenDe "Cadiz" "T1" 200) .nulo .nulo)
       (.nodo 3 (trenDe "Vigo" "T3" 300) .nulo .nulo)) (cad "Lugo") (cad "T2") (by decide)).1⟩

end GestorTrenes

/-! ## Drone manager: three defects of the registry -/

namespace GestorDrones

/-- C3 (the code breaks the claim). Register the three test drones, schedule a
mission for C1 (slot 2) and delete B1 (slot 0, two children, not scheduled): the
struct copy overwrites the links of slot 0, and afterwards the only slot
reachable from the root is 0 while the heap still holds an entry for slot 2. -/
theorem c3_mision_programada_queda_fuera_del_arbol :
    ((ejecutar 5 inicial
        [.registrar d2, .registrar d1, .registrar d3, .programar (cad "C1") (cad "D3"),
         .eliminar (cad "B1") (cad "D2")]).bind fun s =>
      (indicesDesde 5 s.abb s.abb.raiz).map fun l =>
        (l, (entradas s.heap).map (·.indice_dron)))
      = some ([0], [2]) := by
  decide

/-- C5 (the code breaks the claim). On the three test drones (B1 at the root, A1
left, C1 right) and an empty heap, deleting B1 returns 1 and lowers `tamano`
from 3 to 2, but the traversal afterwards shows C1 alone: A1 is lost with the
overwritten left link. -/
theorem c5_eliminar_dos_hijos_pierde_el_subarbol_izquierdo :
    ((cargarDronesPrueba 5 inicial.abb).bind fun abb =>
      (eliminarDronABB 5 abb (cad "B1") (cad "D2") inicial.heap).bind fun r =>
        (recorrerInordenABB 5 r.1).map fun l =>
          (r.2, abb.tamano, r.1.tamano, l.map (·.zona_entrega)))
      = some (1, 3, 2, [cad "C1"]) := by
  decide

/-- C9 (the code breaks the claim). With the three test drones registered,
registering B1 again returns 1 and raises `tamano` and `siguiente_libre` by one,
although the tree reachable from the root is the same. -/
theorem c9_duplicado_cuenta_como_registrado :
    ((cargarDronesPrueba 5 inicial.abb).bind fun abb =>
      (insertarDronABB 5 abb d2).bind fun r =>
        (recorrerInordenABB 5 r.1).map fun l =>
          (r.2, r.1.tamano - abb.tamano, r.1.siguiente_libre - abb.siguiente_libre,
            l.map (·.zona_entrega)))
      = some (1, 1, 1, [cad "A1", cad "B1", cad "C1"]) := by
  decide

end GestorDrones

/-! ## Drone manager: the registry stays a binary search tree -/

namespace GestorDrones

theorem menor_dron_iff (a b : Dron) : menor a b ↔ menorClave (clave a) (clave b) := by
  unfold menor compararDrones menorClave clave
  simp only
  split_ifs with h
  · constructor
    · intro h1; exact Or.inl h1
    · rintro (h1 | ⟨h1, _⟩)
      · exact h1
      · exact absurd h1 h
  · have h0 : strcmp a.zona_entrega b.zona_entrega = 0 := not_not.mp h
    constructor
    · intro h1; exact Or.inr ⟨h0, h1⟩
    · rintro (h1 | ⟨_, h1⟩)
      · omega
      · exact h1

theorem compararDrones_pos_iff (a b : Dron) :
    compararDrones a b > 0 ↔ menorClave (clave b) (clave a) := by
  unfold compararDrones menorClave clave
  have h1 := strcmp_antisim a.zona_entrega b.zona_entrega
  have h2 := strcmp_antisim a.id_dron b.id_dron
  simp only
  split_ifs with h <;> constructor <;> intro h3 <;> omega

theorem menor_dron_trans {a b c : Dron} (h1 : menor a b) (h2 : menor b c) : menor a c :=
  (menor_dron_iff a c).mpr (menorClave_trans ((menor_dron_iff a b).mp h1) ((menor_dron_iff b c).mp h2))

theorem menor_dron_congr {a b a1 b1 : Dron} (ha : clave a1 = clave a) (hb : clave b1 = clave b) :
    menor a1 b1 ↔ menor a b := by
  rw [menor_dron_iff, menor_dron_iff, ha, hb]

theorem ponerIzquierdo_mismo (abb : ABB) (i v : Int) :
    (ponerIzquierdo abb i v).elementos i = { abb.elementos i with izquierdo := v } := by
  simp [ponerIzquierdo]

theorem ponerIzquierdo_otro (abb : ABB) {i k : Int} (v : Int) (h : k ≠ i) :
    (ponerIzquierdo abb i v).elementos k = abb.elementos k := by
  simp [ponerIzquierdo, Function.update_noteq h]

theorem ponerDerecho_mismo (abb : ABB) (i v : Int) :
    (ponerDerecho abb i v).elementos i = { abb.elementos i with derecho := v } := by
  simp [ponerDerecho]

theorem ponerDerecho_otro (abb : ABB) {i k : Int} (v : Int) (h : k ≠ i) :
    (ponerDerecho abb i v).elementos k = abb.elementos k := by
  simp [ponerDerecho, Function.update_noteq h]

theorem clave_ponerIzquierdo (abb : ABB) (i v k : Int) :
    clave ((ponerIzquierdo abb i v).elementos k) = clave (abb.elementos k) := by
  by_cases h : k = i
  · subst h; rw [ponerIzquierdo_mismo]; rfl
  · rw [ponerIzquierdo_otro abb v h]

theorem clave_ponerDerecho (abb : ABB) (i v k : Int) :
    clave ((ponerDerecho abb i v).elementos k) = clave (abb.elementos k) := by
  by_cases h : k = i
  · subst h; rw [ponerDerecho_mismo]; rfl
  · rw [ponerDerecho_otro abb v h]

theorem ponerIzquierdo_igual (abb : ABB) (i : Int) :
    ponerIzquierdo abb i (abb.elementos i).izquierdo = abb := by
  unfold ponerIzquierdo
  rw [Function.update_eq_self]

theorem ponerDerecho_igual (abb : ABB) (i : Int) :
    ponerDerecho abb i (abb.elementos i).derecho = abb := by
  unfold ponerDerecho
  rw [Function.update_eq_self]

theorem representa_congr {e e1 : Int → Dron} {t : Forma} {i : Int}
    (h : ∀ k ∈ t.indices, e1 k = e k) (hr : Representa e i t) : Representa e1 i t := by
  induction t generalizing i with
  | hoja => exact hr
  | nodo j l r ihl ihr =>
    obtain ⟨h1, h2, h3, h4⟩ := hr
    simp only [Forma.indices, List.mem_append, List.mem_cons] at h
    refine ⟨h1, h2, ?_, ?_⟩
    · rw [h j (Or.inr (Or.inl rfl))]
      exact ihl (fun k hk => h k (Or.inl hk)) h3
    · rw [h j (Or.inr (Or.inl rfl))]
      exact ihr (fun k hk => h k (Or.inr (Or.inr hk))) h4

theorem esABB_dron_congr {e e1 : Int → Dron} {t : Forma}
    (h : ∀ k ∈ t.indices, clave (e1 k) = clave (e k)) (hb : esABB e t) : esABB e1 t := by
  induction t with
  | hoja => trivial
  | nodo j l r ihl ihr =>
    obtain ⟨h1, h2, h3, h4⟩ := hb
    simp only [Forma.indices, List.mem_append, List.mem_cons] at h
    refine ⟨ihl (fun k hk => h k (Or.inl hk)) h1, ihr (fun k hk => h k (Or.inr (Or.inr hk))) h2,
      ?_, ?_⟩
    · intro k hk
      exact (menor_dron_congr (h k (Or.inl hk)) (h j (Or.inr (Or.inl rfl)))).mpr (h3 k hk)
    · intro k hk
      exact (menor_dron_congr (h j (Or.inr (Or.inl rfl))) (h k (Or.inr (Or.inr hk)))).mpr (h4 k hk)

theorem nodup_nodo {l r : List Int} {j : Int} :
    (l ++ j :: r).Nodup ↔
      l.Nodup ∧ r.Nodup ∧ j ∉ l ∧ j ∉ r ∧ ∀ k ∈ l, k ∉ r := by
  rw [List.nodup_append, List.nodup_cons]
  constructor
  · rintro ⟨h1, ⟨h2, h3⟩, h4⟩
    refine ⟨h1, h3, ?_, h2, ?_⟩
    · intro hj; exact h4 hj (List.mem_cons_self _ _)
    · intro k hk hkr; exact h4 hk (List.mem_cons_of_mem _ hkr)
  · rintro ⟨h1, h2, h3, h4, h5⟩
    refine ⟨h1, ⟨h4, h2⟩, ?_⟩
    intro k hk hk2
    rcases List.mem_cons.mp hk2 with rfl | hk2
    · exact h3 hk
    · exact h5 k hk hk2

theorem insertarRecursivoABB_spec (nuevo : Int) (hn : nuevo ≠ POS_VACIA) :
    ∀ (t : Forma) (fuel : Nat) (abb : ABB) (i : Int),
      Representa abb.elementos i t → t.altura < fuel → nuevo ∉ t.indices → t.indices.Nodup →
      esABB abb.elementos t →
      (abb.elementos nuevo).izquierdo = POS_VACIA → (abb.elementos nuevo).derecho = POS_VACIA →
      ∃ abb1 r t1, insertarRecursivoABB fuel abb i nuevo = some (abb1, r) ∧
        Representa abb1.elementos r t1 ∧ esABB abb1.elementos t1 ∧ t1.indices.Nodup ∧
        (∀ k ∈ t1.indices, k = nuevo ∨ k ∈ t.indices) ∧
        (∀ k, k ∉ t.indices → abb1.elementos k = abb.elementos k) ∧
        (∀ k, clave (abb1.elementos k) = clave (abb.elementos k)) ∧
        abb1.raiz = abb.raiz ∧ abb1.tamano = abb.tamano ∧
        abb1.siguiente_libre = abb.siguiente_libre ∧
        (i ≠ POS_VACIA → r = i) ∧ (i = POS_VACIA → r = nuevo) := by
  intro t
  induction t with
  | hoja =>
    intro fuel abb i hr hf _ _ _ hiz hde
    cases fuel with
    | zero => simp [Forma.altura] at hf
    | succ n =>
      have hi : i = POS_VACIA := hr
      refine ⟨abb, nuevo, .nodo nuevo .hoja .hoja, by simp [insertarRecursivoABB, hi],
        ⟨rfl, hn, hiz, hde⟩, ?_, by simp [Forma.indices], by simp [Forma.indices],
        fun _ _ => rfl, fun _ => rfl, rfl, rfl, rfl, fun h => absurd hi h, fun _ => rfl⟩
      simp [esABB, Forma.indices]
  | nodo j l r ihl ihr =>
    intro fuel abb i hr hf hnot hnd hbst hiz hde
    obtain ⟨hij, hj, hrl, hrr⟩ := hr
    subst hij
    obtain ⟨hbl, hbr, hml, hmr⟩ := hbst
    simp only [Forma.indices] at hnot hnd
    obtain ⟨hndl, hndr, hil, hir, hdis⟩ := nodup_nodo.mp hnd
    simp only [List.mem_append, List.mem_cons, not_or] at hnot
    obtain ⟨hnl, hni, hnr⟩ := hnot
    cases fuel with
    | zero => omega
    | succ n =>
      simp only [Forma.altura] at hf
      have hfl : l.altura < n := by omega
      have hfr : r.altura < n := by omega
      simp only [insertarRecursivoABB, if_neg hj]
      by_cases hc1 : compararDrones (abb.elementos nuevo) (abb.elementos i) < 0
      · obtain ⟨abb1, r1, l1, heq, hrep1, hbst1, hnd1, hsub1, hframe1, hcl1, hra, hta, hsl, _, _⟩ :=
          ihl n abb (abb.elementos i).izquierdo hrl hfl hnl hndl hbl hiz hde
        have hil1 : i ∉ l1.indices := by
          intro h
          rcases hsub1 i h with h | h
          · exact hni h.symm
          · exact hil h
        have hi1 : abb1.elementos i = abb.elementos i := hframe1 i hil
        refine ⟨ponerIzquierdo abb1 i r1, i, .nodo i l1 r, by simp [if_pos hc1, heq],
          ⟨rfl, hj, ?_, ?_⟩, ⟨?_, ?_, ?_, ?_⟩, ?_, ?_, ?_, ?_, hra, hta, hsl, fun _ => rfl,
          fun h => absurd h hj⟩
        · rw [ponerIzquierdo_mismo]
          refine representa_congr ?_ hrep1
          intro k hk
          exact ponerIzquierdo_otro abb1 r1 (fun h => hil1 (h ▸ hk))
        · rw [ponerIzquierdo_mismo]
          show Representa _ (abb1.elementos i).derecho r
          rw [hi1]
          refine representa_congr ?_ hrr
          intro k hk
          have hki : k ≠ i := fun h => hir (h ▸ hk)
          rw [ponerIzquierdo_otro abb1 r1 hki]
          exact hframe1 k (fun h => hdis k h hk)
        · exact esABB_dron_congr (fun k _ => clave_ponerIzquierdo abb1 i r1 k) hbst1
        · refine esABB_dron_congr (fun k _ => ?_) hbr
          rw [clave_ponerIzquierdo, hcl1]
        · intro k hk
          refine (menor_dron_congr ?_ ?_).mpr (?_ : menor (abb.elementos k) (abb.elementos i))
          · rw [clave_ponerIzquierdo, hcl1]
          · rw [clave_ponerIzquierdo, hcl1]
          · rcases hsub1 k hk with rfl | h
            · exact hc1
            · exact hml k h
        · intro k hk
          refine (menor_dron_congr ?_ ?_).mpr (hmr k hk)
          · rw [clave_ponerIzquierdo, hcl1]
          · rw [clave_ponerIzquierdo, hcl1]
        · simp only [Forma.indices]
          refine nodup_nodo.mpr ⟨hnd1, hndr, hil1, hir, ?_⟩
          intro k hk hkr
          rcases hsub1 k hk with rfl | h
          · exact hnr hkr
          · exact hdis k h hkr
        · intro k hk
          simp only [Forma.indices, List.mem_append, List.mem_cons] at hk ⊢
          rcases hk with hk | hk | hk
          · rcases hsub1 k hk with h | h
            · exact Or.inl h
            · exact Or.inr (Or.inl h)
          · exact Or.inr (Or.inr (Or.inl hk))
          · exact Or.inr (Or.inr (Or.inr hk))
        · intro k hk
          simp only [Forma.indices, List.mem_append, List.mem_cons, not_or] at hk
          rw [ponerIzquierdo_otro abb1 r1 hk.2.1]
          exact hframe1 k hk.1
        · intro k
          rw [clave_ponerIzquierdo, hcl1]
      · by_cases hc2 : compararDrones (abb.elementos nuevo) (abb.elementos i) > 0
        · obtain ⟨abb1, r1, t1, heq, hrep1, hbst1, hnd1, hsub1, hframe1, hcl1, hra, hta, hsl, _, _⟩ :=
            ihr n abb (abb.elementos i).derecho hrr hfr hnr hndr hbr hiz hde
          have hir1 : i ∉ t1.indices := by
            intro h
            rcases hsub1 i h with h | h
            · exact hni h.symm
            · exact hir h
          have hi1 : abb1.elementos i = abb.elementos i := hframe1 i hir
          have hc2' : menor (abb.elementos i) (abb.elementos nuevo) :=
            (menor_dron_iff _ _).mpr ((compararDrones_pos_iff _ _).mp hc2)
          refine ⟨ponerDerecho abb1 i r1, i, .nodo i l t1, by simp [if_neg hc1, if_pos hc2, heq],
            ⟨rfl, hj, ?_, ?_⟩, ⟨?_, ?_, ?_, ?_⟩, ?_, ?_, ?_, ?_, hra, hta, hsl, fun _ => rfl,
            fun h => absurd h hj⟩
          · rw [ponerDerecho_mismo]
            show Representa _ (abb1.elementos i).izquierdo l
            rw [hi1]
            refine representa_congr ?_ hrl
            intro k hk
            have hki : k ≠ i := fun h => hil (h ▸ hk)
            rw [ponerDerecho_otro abb1 r1 hki]
            exact hframe1 k (fun h => hdis k hk h)
          · rw [ponerDerecho_mismo]
            refine representa_congr ?_ hrep1
            intro k hk
            exact ponerDerecho_otro abb1 r1 (fun h => hir1 (h ▸ hk))
          · refine esABB_dron_congr (fun k _ => ?_) hbl
            rw [clave_ponerDerecho, hcl1]
          · exact esABB_dron_congr (fun k _ => clave_ponerDerecho abb1 i r1 k) hbst1
          · intro k hk
            refine (menor_dron_congr ?_ ?_).mpr (hml k hk)
            · rw [clave_ponerDerecho, hcl1]
            · rw [clave_ponerDerecho, hcl1]
          · intro k hk
            refine (menor_dron_congr ?_ ?_).mpr (?_ : menor (abb.elementos i) (abb.elementos k))
            · rw [clave_ponerDerecho, hcl1]
            · rw [clave_ponerDerecho, hcl1]
            · rcases hsub1 k hk with rfl | h
              · exact hc2'
              · exact hmr k h
          · simp only [Forma.indices]
            refine nodup_nodo.mpr ⟨hndl, hnd1, hil, hir1, ?_⟩
            intro k hk hkr
            rcases hsub1 k hkr with rfl | h
            · exact hnl hk
            · exact hdis k hk h
          · intro k hk
            simp only [Forma.indices, List.mem_append, List.mem_cons] at hk ⊢
            rcases hk with hk | hk | hk
            · exact Or.inr (Or.inl hk)
            · exact Or.inr (Or.inr (Or.inl hk))
            · rcases hsub1 k hk with h | h
              · exact Or.inl h
              · exact Or.inr (Or.inr (Or.inr h))
          · intro k hk
            simp only [Forma.indices, List.mem_append, List.mem_cons, not_or] at hk
            rw [ponerDerecho_otro abb1 r1 hk.2.1]
            exact hframe1 k hk.2.2
          · intro k
            rw [clave_ponerDerecho, hcl1]
        · refine ⟨abb, i, .nodo i l r, by simp [if_neg hc1, if_neg hc2],
            ⟨rfl, hj, hrl, hrr⟩, ⟨hbl, hbr, hml, hmr⟩, hnd, ?_, fun _ _ => rfl, fun _ => rfl,
            rfl, rfl, rfl, fun _ => rfl, fun h => absurd h hj⟩
          intro k hk
          exact Or.inr hk

theorem insertarRecursivoABB_mono :
    ∀ (n : Nat) (abb : ABB) (i nuevo : Int) (res : ABB × Int),
      insertarRecursivoABB n abb i nuevo = some res →
      ∀ m, n ≤ m → insertarRecursivoABB m abb i nuevo = some res := by
  intro n
  induction n with
  | zero => intro abb i nuevo res h; simp [insertarRecursivoABB] at h
  | succ n ih =>
    intro abb i nuevo res h m hm
    cases m with
    | zero => omega
    | succ m =>
      simp only [insertarRecursivoABB] at h ⊢
      split_ifs at h ⊢ with h1 h2 h3
      · exact h
      · cases hrec : insertarRecursivoABB n abb (abb.elementos i).izquierdo nuevo with
        | none => simp [hrec] at h
        | some x =>
          rw [ih _ _ _ _ hrec m (by omega)]
          rw [hrec] at h
          exact h
      · cases hrec : insertarRecursivoABB n abb (abb.elementos i).derecho nuevo with
        | none => simp [hrec] at h
        | some x =>
          rw [ih _ _ _ _ hrec m (by omega)]
          rw [hrec] at h
          exact h
      · exact h

theorem insertarDronABB_mono {n : Nat} {abb : ABB} {d : Dron} {res : ABB × Int}
    (h : insertarDronABB n abb d = some res) {m : Nat} (hm : n ≤ m) :
    insertarDronABB m abb d = some res := by
  unfold insertarDronABB at h ⊢
  split_ifs at h ⊢ with h1
  · exact h
  · simp only at h ⊢
    cases hrec : insertarRecursivoABB n
        { abb with elementos := Function.update abb.elementos abb.siguiente_libre d }
        abb.raiz abb.siguiente_libre with
    | none => simp [hrec] at h
    | some x =>
      rw [insertarRecursivoABB_mono _ _ _ _ _ hrec m hm]
      rw [hrec] at h
      exact h

theorem insertarDronABB_invariante (abb : ABB) (d : Dron) (hinv : Invariante abb)
    (hiz : d.izquierdo = POS_VACIA) (hde : d.derecho = POS_VACIA) :
    ∃ fuel0, ∀ fuel, fuel0 ≤ fuel →
      ∃ abb1 r, insertarDronABB fuel abb d = some (abb1, r) ∧ Invariante abb1 := by
  obtain ⟨t, hrep, hnd, hcota, hbst, h0, hmax⟩ := hinv
  by_cases hfull : abb.siguiente_libre ≥ MAX_NODOS
  · refine ⟨0, fun fuel _ => ⟨abb, 0, by simp [insertarDronABB, hfull], t, hrep, hnd, hcota, hbst,
      h0, hmax⟩⟩
  · have hnot : abb.siguiente_libre ∉ t.indices := fun h => by
      have := (hcota _ h).2; omega
    have hne : abb.siguiente_libre ≠ POS_VACIA := by unfold POS_VACIA; omega
    have hfuera : ∀ k ∈ t.indices,
        Function.update abb.elementos abb.siguiente_libre d k = abb.elementos k := by
      intro k hk
      exact Function.update_noteq (fun h : k = abb.siguiente_libre => hnot (h ▸ hk)) _ _
    have hrep0 : Representa (Function.update abb.elementos abb.siguiente_libre d) abb.raiz t :=
      representa_congr hfuera hrep
    have hbst0 : esABB (Function.update abb.elementos abb.siguiente_libre d) t :=
      esABB_dron_congr (fun k hk => by rw [hfuera k hk]) hbst
    refine ⟨t.altura + 1, fun fuel hfuel => ?_⟩
    obtain ⟨abb1, r, t1, heq, hrep1, hbst1, hnd1, hsub1, _, _, hra, _, hsl, hr1, hr2⟩ :=
      insertarRecursivoABB_spec abb.siguiente_libre hne t fuel
        { abb with elementos := Function.update abb.elementos abb.siguiente_libre d }
        abb.raiz hrep0 (by omega) hnot hnd hbst0 (by simpa using hiz) (by simpa using hde)
    simp only at hra hsl hr1 hr2
    have hcond : r = abb.siguiente_libre ∨ (abb1.raiz ≠ POS_VACIA ∧ r = abb1.raiz) ∨
        (abb1.raiz = POS_VACIA ∧ r = abb.siguiente_libre) := by
      by_cases hraiz : abb.raiz = POS_VACIA
      · exact Or.inl (hr2 hraiz)
      · exact Or.inr (Or.inl ⟨by rw [hra]; exact hraiz, by rw [hra]; exact hr1 hraiz⟩)
    refine ⟨({ abb1 with
                raiz := r
                siguiente_libre := abb1.siguiente_libre + 1
                tamano := abb1.tamano + 1 } : ABB), 1, ?_, t1, hrep1, hnd1, ?_, hbst1, ?_, ?_⟩
    · unfold insertarDronABB
      simp only [if_neg hfull, heq, if_pos hcond, hsl, if_true]
    · intro k hk
      simp only [hsl]
      rcases hsub1 k hk with rfl | h
      · omega
      · have := hcota k h; omega
    · simp only [hsl]; omega
    · simp only [hsl]; omega

theorem insertarDronABB_preserva {fuel : Nat} {abb abb1 : ABB} {d : Dron} {r : Int}
    (h : insertarDronABB fuel abb d = some (abb1, r)) (hinv : Invariante abb)
    (hiz : d.izquierdo = POS_VACIA) (hde : d.derecho = POS_VACIA) : Invariante abb1 := by
  obtain ⟨fuel0, hf⟩ := insertarDronABB_invariante abb d hinv hiz hde
  obtain ⟨abb2, r2, heq, hinv2⟩ := hf (max fuel fuel0) (le_max_right _ _)
  have := insertarDronABB_mono h (le_max_left fuel fuel0)
  rw [this] at heq
  cases heq
  exact hinv2

theorem buscarMinimo_spec (abb : ABB) :
    ∀ (t : Forma) (fuel : Nat) (i : Int),
      Representa abb.elementos i t → t ≠ .hoja → t.altura ≤ fuel → t.indices.Nodup →
      esABB abb.elementos t →
      ∃ m sr, buscarMinimo fuel abb i = some m ∧ (abb.elementos m).izquierdo = POS_VACIA ∧
        Representa abb.elementos (abb.elementos m).derecho sr ∧ m ∈ t.indices ∧
        (∀ k ∈ sr.indices, k ∈ t.indices) ∧ m ∉ sr.indices ∧ sr.indices.Nodup ∧
        sr.altura < t.altura ∧ esABB abb.elementos sr ∧
        (∀ k ∈ sr.indices, menor (abb.elementos m) (abb.elementos k)) := by
  intro t
  induction t with
  | hoja => intro fuel i _ h; exact absurd rfl h
  | nodo j l r ihl _ =>
    intro fuel i hr _ hf hnd hbst
    obtain ⟨hij, hj, hrl, hrr⟩ := hr
    subst hij
    obtain ⟨hbl, hbr, hml, hmr⟩ := hbst
    simp only [Forma.indices] at hnd
    obtain ⟨hndl, hndr, hil, hir, hdis⟩ := nodup_nodo.mp hnd
    cases fuel with
    | zero => simp [Forma.altura] at hf
    | succ n =>
      simp only [Forma.altura] at hf
      simp only [buscarMinimo]
      cases l with
      | hoja =>
        have hiz : (abb.elementos i).izquierdo = POS_VACIA := hrl
        refine ⟨i, r, by simp [hiz], hiz, hrr, by simp [Forma.indices], ?_, hir, hndr, ?_, hbr, hmr⟩
        · intro k hk; simp [Forma.indices, hk]
        · simp only [Forma.altura]; omega
      | nodo j2 l2 r2 =>
        have hne : (abb.elementos i).izquierdo ≠ POS_VACIA := by
          rw [hrl.1]; exact hrl.2.1
        obtain ⟨m, sr, h1, h2, h3, h4, h5, h6, h7, h8, h9, h10⟩ :=
          ihl n (abb.elementos i).izquierdo hrl (by simp) (by omega) hndl hbl
        refine ⟨m, sr, by simp [hne, h1], h2, h3, ?_, ?_, h6, h7, ?_, h9, h10⟩
        · simp only [Forma.indices, List.mem_append, List.mem_cons] at h4 ⊢
          exact Or.inl h4
        · intro k hk
          have := h5 k hk
          simp only [Forma.indices, List.mem_append, List.mem_cons] at this ⊢
          exact Or.inl this
        · have : (Forma.nodo i (Forma.nodo j2 l2 r2) r).altura
              = max (Forma.nodo j2 l2 r2).altura r.altura + 1 := rfl
          omega

theorem eliminarRecursivoABB_menor (zona id : CStr) (heap : MaxHeap) (exito : Int) :
    ∀ (t : Forma) (fuel : Nat) (abb : ABB) (i : Int),
      Representa abb.elementos i t → t.altura < fuel →
      (∀ k ∈ t.indices, menorClave (zona, id) (clave (abb.elementos k))) →
      eliminarRecursivoABB fuel abb i zona id heap exito = some (abb, i, exito) := by
  intro t
  induction t with
  | hoja =>
    intro fuel abb i hr hf _
    cases fuel with
    | zero => simp [Forma.altura] at hf
    | succ n =>
      have hi : i = POS_VACIA := hr
      simp [eliminarRecursivoABB, hi]
  | nodo j l r ihl _ =>
    intro fuel abb i hr hf hmen
    obtain ⟨hij, hj, hrl, hrr⟩ := hr
    subst hij
    cases fuel with
    | zero => omega
    | succ n =>
      simp only [Forma.altura] at hf
      simp only [Forma.indices, List.mem_append, List.mem_cons] at hmen
      have hA : strcmp zona (abb.elementos i).zona_entrega < 0 ∨
          (strcmp zona (abb.elementos i).zona_entrega = 0 ∧
            strcmp id (abb.elementos i).id_dron < 0) := hmen i (Or.inr (Or.inl rfl))
      have hrec := ihl n abb (abb.elementos i).izquierdo hrl (by omega)
        (fun k hk => hmen k (Or.inl hk))
      simp only [eliminarRecursivoABB, if_neg hj, if_pos hA, hrec, ponerIzquierdo_igual]

theorem buscarMinimo_mono :
    ∀ (n : Nat) (abb : ABB) (i : Int) (res : Int),
      buscarMinimo n abb i = some res → ∀ m, n ≤ m → buscarMinimo m abb i = some res := by
  intro n
  induction n with
  | zero => intro abb i res h; simp [buscarMinimo] at h
  | succ n ih =>
    intro abb i res h m hm
    cases m with
    | zero => omega
    | succ m =>
      simp only [buscarMinimo] at h ⊢
      split_ifs at h ⊢
      · exact ih _ _ _ h m (by omega)
      · exact h

theorem eliminarRecursivoABB_mono :
    ∀ (n : Nat) (abb : ABB) (i : Int) (zona id : CStr) (heap : MaxHeap) (exito : Int)
      (res : ABB × Int × Int),
      eliminarRecursivoABB n abb i zona id heap exito = some res →
      ∀ m, n ≤ m → eliminarRecursivoABB m abb i zona id heap exito = some res := by
  intro n
  induction n with
  | zero => intro abb i zona id heap exito res h; simp [eliminarRecursivoABB] at h
  | succ n ih =>
    intro abb i zona id heap exito res h m hm
    cases m with
    | zero => omega
    | succ m =>
      simp only [eliminarRecursivoABB] at h ⊢
      split_ifs at h ⊢
      · exact h
      · cases hrec : eliminarRecursivoABB n abb (abb.elementos i).izquierdo zona id heap exito with
        | none => simp [hrec] at h
        | some x =>
          rw [ih _ _ _ _ _ _ _ hrec m (by omega)]
          rw [hrec] at h
          exact h
      · cases hrec : eliminarRecursivoABB n abb (abb.elementos i).derecho zona id heap exito with
        | none => simp [hrec] at h
        | some x =>
          rw [ih _ _ _ _ _ _ _ hrec m (by omega)]
          rw [hrec] at h
          exact h
      · exact h
      · exact h
      · exact h
      · cases hmin : buscarMinimo n abb (abb.elementos i).derecho with
        | none => simp [hmin] at h
        | some md =>
          rw [buscarMinimo_mono _ _ _ _ hmin m (by omega)]
          rw [hmin] at h
          simp only [Function.update_same] at h ⊢
          cases hrec : eliminarRecursivoABB n
              { abb with elementos := Function.update abb.elementos i (abb.elementos md) }
              (abb.elementos md).derecho
              (Function.update abb.elementos i (abb.elementos md) md).zona_entrega
              (Function.update abb.elementos i (abb.elementos md) md).id_dron heap 1 with
          | none => simp [hrec] at h
          | some x =>
            rw [ih _ _ _ _ _ _ _ hrec m (by omega)]
            rw [hrec] at h
            exact h

theorem eliminarDronABB_mono {n : Nat} {abb : ABB} {zona id : CStr} {heap : MaxHeap}
    {res : ABB × Int} (h : eliminarDronABB n abb zona id heap = some res) {m : Nat}
    (hm : n ≤ m) : eliminarDronABB m abb zona id heap = some res := by
  unfold eliminarDronABB at h ⊢
  cases hrec : eliminarRecursivoABB n abb abb.raiz zona id heap 0 with
  | none => simp [hrec] at h
  | some x =>
    rw [eliminarRecursivoABB_mono _ _ _ _ _ _ _ _ hrec m hm]
    rw [hrec] at h
    exact h

theorem eliminarRecursivoABB_spec (heap : MaxHeap) :
    ∀ (t : Forma) (fuel : Nat) (abb : ABB) (i : Int) (zona id : CStr) (exito : Int),
      Representa abb.elementos i t → t.altura < fuel → t.indices.Nodup →
      esABB abb.elementos t →
      ∃ abb1 r ex1 t1, eliminarRecursivoABB fuel abb i zona id heap exito = some (abb1, r, ex1) ∧
        Representa abb1.elementos r t1 ∧ esABB abb1.elementos t1 ∧ t1.indices.Nodup ∧
        (∀ k ∈ t1.indices, k ∈ t.indices) ∧
        (∀ k ∈ t1.indices, ∃ k1 ∈ t.indices,
          clave (abb1.elementos k) = clave (abb.elementos k1)) ∧
        (∀ k, k ∉ t.indices → abb1.elementos k = abb.elementos k) ∧
        abb1.raiz = abb.raiz ∧ abb1.tamano = abb.tamano ∧
        abb1.siguiente_libre = abb.siguiente_libre := by
  intro t
  induction t with
  | hoja =>
    intro fuel abb i zona id exito hr hf _ _
    cases fuel with
    | zero => simp [Forma.altura] at hf
    | succ n =>
      have hi : i = POS_VACIA := hr
      exact ⟨abb, POS_VACIA, exito, .hoja, by simp [eliminarRecursivoABB, hi], rfl, trivial,
        by simp [Forma.indices], fun _ h => h, by simp [Forma.indices], fun _ _ => rfl,
        rfl, rfl, rfl⟩
  | nodo j l r ihl ihr =>
    intro fuel abb i zona id exito hr hf hnd hbst
    have hrep := hr
    have hbst0 := hbst
    have hnd0 := hnd
    obtain ⟨hij, hj, hrl, hrr⟩ := hr
    subst hij
    obtain ⟨hbl, hbr, hml, hmr⟩ := hbst
    simp only [Forma.indices] at hnd
    obtain ⟨hndl, hndr, hil, hir, hdis⟩ := nodup_nodo.mp hnd
    cases fuel with
    | zero => omega
    | succ n =>
      simp only [Forma.altura] at hf
      have hfl : l.altura < n := by omega
      have hfr : r.altura < n := by omega
      simp only [eliminarRecursivoABB, if_neg hj]
      by_cases hA : strcmp zona (abb.elementos i).zona_entrega < 0 ∨
          (strcmp zona (abb.elementos i).zona_entrega = 0 ∧
            strcmp id (abb.elementos i).id_dron < 0)
      · obtain ⟨abb1, r1, ex1, l1, heq, hrep1, hbst1, hnd1, hsub1, hcl1, hframe1, hra, hta, hsl⟩ :=
          ihl n abb (abb.elementos i).izquierdo zona id exito hrl hfl hndl hbl
        have hil1 : i ∉ l1.indices := fun h => hil (hsub1 i h)
        have hi1 : abb1.elementos i = abb.elementos i := hframe1 i hil
        have hcr : ∀ k ∈ r.indices, abb1.elementos k = abb.elementos k :=
          fun k hk => hframe1 k (fun h => hdis k h hk)
        refine ⟨ponerIzquierdo abb1 i r1, i, ex1, .nodo i l1 r, by simp only [if_pos hA, heq],
          ⟨rfl, hj, ?_, ?_⟩, ⟨?_, ?_, ?_, ?_⟩, ?_, ?_, ?_, ?_, hra, hta, hsl⟩
        · rw [ponerIzquierdo_mismo]
          refine representa_congr ?_ hrep1
          intro k hk
          exact ponerIzquierdo_otro abb1 r1 (fun h : k = i => hil1 (h ▸ hk))
        · rw [ponerIzquierdo_mismo]
          show Representa _ (abb1.elementos i).derecho r
          rw [hi1]
          refine representa_congr ?_ hrr
          intro k hk
          have hki : k ≠ i := fun h => hir (h ▸ hk)
          rw [ponerIzquierdo_otro abb1 r1 hki]
          exact hcr k hk
        · exact esABB_dron_congr (fun k _ => clave_ponerIzquierdo abb1 i r1 k) hbst1
        · refine esABB_dron_congr (fun k hk => ?_) hbr
          rw [clave_ponerIzquierdo, hcr k hk]
        · intro k hk
          obtain ⟨k1, hk1, hc⟩ := hcl1 k hk
          refine (menor_dron_congr ?_ ?_).mpr (hml k1 hk1)
          · rw [clave_ponerIzquierdo, hc]
          · rw [clave_ponerIzquierdo, hi1]
        · intro k hk
          refine (menor_dron_congr ?_ ?_).mpr (hmr k hk)
          · rw [clave_ponerIzquierdo, hi1]
          · rw [clave_ponerIzquierdo, hcr k hk]
        · simp only [Forma.indices]
          exact nodup_nodo.mpr ⟨hnd1, hndr, hil1, hir, fun k hk => hdis k (hsub1 k hk)⟩
        · intro k hk
          simp only [Forma.indices, List.mem_append, List.mem_cons] at hk ⊢
          rcases hk with hk | hk | hk
          · exact Or.inl (hsub1 k hk)
          · exact Or.inr (Or.inl hk)
          · exact Or.inr (Or.inr hk)
        · intro k hk
          simp only [Forma.indices, List.mem_append, List.mem_cons] at hk ⊢
          rcases hk with hk | hk | hk
          · obtain ⟨k1, hk1, hc⟩ := hcl1 k hk
            exact ⟨k1, Or.inl hk1, by rw [clave_ponerIzquierdo, hc]⟩
          · subst hk
            exact ⟨k, Or.inr (Or.inl rfl), by rw [clave_ponerIzquierdo, hi1]⟩
          · exact ⟨k, Or.inr (Or.inr hk), by rw [clave_ponerIzquierdo, hcr k hk]⟩
        · intro k hk
          simp only [Forma.indices, List.mem_append, List.mem_cons, not_or] at hk
          rw [ponerIzquierdo_otro abb1 r1 hk.2.1]
          exact hframe1 k hk.1
      · by_cases hB : strcmp zona (abb.elementos i).zona_entrega > 0 ∨
            (strcmp zona (abb.elementos i).zona_entrega = 0 ∧
              strcmp id (abb.elementos i).id_dron > 0)
        · obtain ⟨abb1, r1, ex1, t1, heq, hrep1, hbst1, hnd1, hsub1, hcl1, hframe1, hra, hta,
              hsl⟩ := ihr n abb (abb.elementos i).derecho zona id exito hrr hfr hndr hbr
          have hir1 : i ∉ t1.indices := fun h => hir (hsub1 i h)
          have hi1 : abb1.elementos i = abb.elementos i := hframe1 i hir
          have hcl : ∀ k ∈ l.indices, abb1.elementos k = abb.elementos k :=
            fun k hk => hframe1 k (fun h => hdis k hk h)
          refine ⟨ponerDerecho abb1 i r1, i, ex1, .nodo i l t1,
            by simp only [if_neg hA, if_pos hB, heq],
            ⟨rfl, hj, ?_, ?_⟩, ⟨?_, ?_, ?_, ?_⟩, ?_, ?_, ?_, ?_, hra, hta, hsl⟩
          · rw [ponerDerecho_mismo]
            show Representa _ (abb1.elementos i).izquierdo l
            rw [hi1]
            refine representa_congr ?_ hrl
            intro k hk
            have hki : k ≠ i := fun h => hil (h ▸ hk)
            rw [ponerDerecho_otro abb1 r1 hki]
            exact hcl k hk
          · rw [ponerDerecho_mismo]
            refine representa_congr ?_ hrep1
            intro k hk
            exact ponerDerecho_otro abb1 r1 (fun h : k = i => hir1 (h ▸ hk))
          · refine esABB_dron_congr (fun k hk => ?_) hbl
            rw [clave_ponerDerecho, hcl k hk]
          · exact esABB_dron_congr (fun k _ => clave_ponerDerecho abb1 i r1 k) hbst1
          · intro k hk
            refine (menor_dron_congr ?_ ?_).mpr (hml k hk)
            · rw [clave_ponerDerecho, hcl k hk]
            · rw [clave_ponerDerecho, hi1]
          · intro k hk
            obtain ⟨k1, hk1, hc⟩ := hcl1 k hk
            refine (menor_dron_congr ?_ ?_).mpr (hmr k1 hk1)
            · rw [clave_ponerDerecho, hi1]
            · rw [clave_ponerDerecho, hc]
          · simp only [Forma.indices]
            exact nodup_nodo.mpr ⟨hndl, hnd1, hil, hir1, fun k hk h => hdis k hk (hsub1 k h)⟩
          · intro k hk
            simp only [Forma.indices, List.mem_append, List.mem_cons] at hk ⊢
            rcases hk with hk | hk | hk
            · exact Or.inl hk
            · exact Or.inr (Or.inl hk)
            · exact Or.inr (Or.inr (hsub1 k hk))
          · intro k hk
            simp only [Forma.indices, List.mem_append, List.mem_cons] at hk ⊢
            rcases hk with hk | hk | hk
            · exact ⟨k, Or.inl hk, by rw [clave_ponerDerecho, hcl k hk]⟩
            · subst hk
              exact ⟨k, Or.inr (Or.inl rfl), by rw [clave_ponerDerecho, hi1]⟩
            · obtain ⟨k1, hk1, hc⟩ := hcl1 k hk
              exact ⟨k1, Or.inr (Or.inr hk1), by rw [clave_ponerDerecho, hc]⟩
          · intro k hk
            simp only [Forma.indices, List.mem_append, List.mem_cons, not_or] at hk
            rw [ponerDerecho_otro abb1 r1 hk.2.1]
            exact hframe1 k hk.2.2
        · simp only [if_neg hA, if_neg hB]
          by_cases hheap : dronEnHeap heap i = true
          · exact ⟨abb, i, 0, .nodo i l r, by simp only [if_pos hheap], hrep, hbst0, hnd0,
              fun _ h => h, fun k hk => ⟨k, hk, rfl⟩, fun _ _ => rfl, rfl, rfl, rfl⟩
          · simp only [if_neg hheap]
            by_cases hizq : (abb.elementos i).izquierdo = POS_VACIA
            · refine ⟨abb, (abb.elementos i).derecho, 1, r, by simp only [if_pos hizq], hrr, hbr,
                hndr, ?_, ?_, fun _ _ => rfl, rfl, rfl, rfl⟩
              · intro k hk; simp [Forma.indices, hk]
              · intro k hk; exact ⟨k, by simp [Forma.indices, hk], rfl⟩
            · by_cases hder : (abb.elementos i).derecho = POS_VACIA
              · refine ⟨abb, (abb.elementos i).izquierdo, 1, l,
                  by simp only [if_neg hizq, if_pos hder], hrl, hbl, hndl, ?_, ?_,
                  fun _ _ => rfl, rfl, rfl, rfl⟩
                · intro k hk; simp [Forma.indices, hk]
                · intro k hk; exact ⟨k, by simp [Forma.indices, hk], rfl⟩
              · have hrne : r ≠ .hoja := by
                  rintro rfl
                  exact hder hrr
                obtain ⟨m, sr, hm1, hm2, hm3, hm4, hm5, hm6, hm7, hm8, hm9, hm10⟩ :=
                  buscarMinimo_spec abb r n (abb.elementos i).derecho hrr hrne (by omega) hndr hbr
                have hmi : m ≠ i := fun h => hir (h ▸ hm4)
                have hsri : ∀ k ∈ sr.indices, k ≠ i := fun k hk h => hir (h ▸ hm5 k hk)
                have hup : ∀ k, k ≠ i →
                    Function.update abb.elementos i (abb.elementos m) k = abb.elementos k :=
                  fun k hk => Function.update_noteq hk _ _
                have hrep0 : Representa (Function.update abb.elementos i (abb.elementos m))
                    (abb.elementos m).derecho sr :=
                  representa_congr (fun k hk => hup k (hsri k hk)) hm3
                have hmen : ∀ k ∈ sr.indices,
                    menorClave ((abb.elementos m).zona_entrega, (abb.elementos m).id_dron)
                      (clave (Function.update abb.elementos i (abb.elementos m) k)) := by
                  intro k hk
                  rw [hup k (hsri k hk)]
                  exact (menor_dron_iff _ _).mp (hm10 k hk)
                have hrec := eliminarRecursivoABB_menor (abb.elementos m).zona_entrega
                  (abb.elementos m).id_dron heap 1 sr n
                  { abb with elementos := Function.update abb.elementos i (abb.elementos m) }
                  (abb.elementos m).derecho hrep0 (by omega) hmen
                have hpd : ponerDerecho
                    { abb with elementos := Function.update abb.elementos i (abb.elementos m) }
                    i (abb.elementos m).derecho
                    = { abb with elementos := Function.update abb.elementos i (abb.elementos m) } := by
                  have := ponerDerecho_igual
                    { abb with elementos := Function.update abb.elementos i (abb.elementos m) } i
                  simpa using this
                refine ⟨{ abb with elementos := Function.update abb.elementos i (abb.elementos m) },
                  i, 1, .nodo i .hoja sr, ?_, ⟨rfl, hj, ?_, ?_⟩, ⟨trivial, ?_, ?_, ?_⟩, ?_, ?_, ?_,
                  ?_, rfl, rfl, rfl⟩
                · simp only [if_neg hizq, if_neg hder, hm1, Function.update_same, hup m hmi, hrec,
                    hpd]
                · show (Function.update abb.elementos i (abb.elementos m) i).izquierdo = POS_VACIA
                  rw [Function.update_same]; exact hm2
                · show Representa _ (Function.update abb.elementos i (abb.elementos m) i).derecho sr
                  rw [Function.update_same]; exact hrep0
                · exact esABB_dron_congr (fun k hk => by
                    show clave (Function.update abb.elementos i (abb.elementos m) k) = _
                    rw [hup k (hsri k hk)]) hm9
                · intro k hk; simp [Forma.indices] at hk
                · intro k hk
                  show menor (Function.update abb.elementos i (abb.elementos m) i)
                    (Function.update abb.elementos i (abb.elementos m) k)
                  rw [Function.update_same, hup k (hsri k hk)]
                  exact hm10 k hk
                · simp only [Forma.indices, List.nil_append, List.nodup_cons]
                  exact ⟨fun h => hir (hm5 i h), hm7⟩
                · intro k hk
                  simp only [Forma.indices, List.nil_append, List.mem_cons, List.mem_append] at hk ⊢
                  rcases hk with hk | hk
                  · exact Or.inr (Or.inl hk)
                  · exact Or.inr (Or.inr (hm5 k hk))
                · intro k hk
                  simp only [Forma.indices, List.nil_append, List.mem_cons, List.mem_append] at hk ⊢
                  rcases hk with hk | hk
                  · subst hk
                    exact ⟨m, Or.inr (Or.inr hm4), by
                      show clave (Function.update abb.elementos k (abb.elementos m) k) = _
                      rw [Function.update_same]⟩
                  · exact ⟨k, Or.inr (Or.inr (hm5 k hk)), by
                      show clave (Function.update abb.elementos i (abb.elementos m) k) = _
                      rw [hup k (hsri k hk)]⟩
                · intro k hk
                  simp only [Forma.indices, List.mem_append, List.mem_cons, not_or] at hk
                  exact hup k hk.2.1

theorem eliminarDronABB_invariante (abb : ABB) (zona id : CStr) (heap : MaxHeap)
    (hinv : Invariante abb) :
    ∃ fuel0, ∀ fuel, fuel0 ≤ fuel →
      ∃ abb1 r, eliminarDronABB fuel abb zona id heap = some (abb1, r) ∧ Invariante abb1 := by
  obtain ⟨t, hrep, hnd, hcota, hbst, h0, hmax⟩ := hinv
  refine ⟨t.altura + 1, fun fuel hfuel => ?_⟩
  obtain ⟨abb1, r1, ex1, t1, heq, hrep1, hbst1, hnd1, hsub1, _, _, _, _, hsl⟩ :=
    eliminarRecursivoABB_spec heap t fuel abb abb.raiz zona id 0 hrep (by omega) hnd hbst
  have hcota1 : ∀ k ∈ t1.indices, 0 ≤ k ∧ k < abb1.siguiente_libre := by
    intro k hk
    rw [hsl]
    exact hcota k (hsub1 k hk)
  by_cases hex : ex1 ≠ 0
  · exact ⟨({ abb1 with raiz := r1, tamano := abb1.tamano - 1 } : ABB), 1,
      by simp only [eliminarDronABB, heq, if_pos hex],
      t1, hrep1, hnd1, hcota1, hbst1, by rw [hsl]; exact h0, by rw [hsl]; exact hmax⟩
  · exact ⟨({ abb1 with raiz := r1 } : ABB), 0,
      by simp only [eliminarDronABB, heq, if_neg hex],
      t1, hrep1, hnd1, hcota1, hbst1, by rw [hsl]; exact h0, by rw [hsl]; exact hmax⟩

theorem eliminarDronABB_preserva {fuel : Nat} {abb abb1 : ABB} {zona id : CStr}
    {heap : MaxHeap} {r : Int}
    (h : eliminarDronABB fuel abb zona id heap = some (abb1, r)) (hinv : Invariante abb) :
    Invariante abb1 := by
  obtain ⟨fuel0, hf⟩ := eliminarDronABB_invariante abb zona id heap hinv
  obtain ⟨abb2, r2, heq, hinv2⟩ := hf (max fuel fuel0) (le_max_right _ _)
  have := eliminarDronABB_mono h (le_max_left fuel fuel0)
  rw [this] at heq
  cases heq
  exact hinv2

theorem invariante_inicial (basura : Int → Dron) : Invariante (inicializarABB basura) :=
  ⟨.hoja, rfl, by simp [Forma.indices], by simp [Forma.indices], trivial,
    by simp [inicializarABB], by simp [inicializarABB, MAX_NODOS]⟩

theorem alcanzable_invariante {abb : ABB} (h : Alcanzable abb) : Invariante abb := by
  induction h with
  | inicio basura => exact invariante_inicial basura
  | insertar _ hiz hde heq ih => exact insertarDronABB_preserva heq ih hiz hde
  | eliminar _ heq ih => exact eliminarDronABB_preserva heq ih

theorem recorrerInordenRecursivo_spec (abb : ABB) :
    ∀ (t : Forma) (fuel : Nat) (i : Int), Representa abb.elementos i t → t.altura < fuel →
      recorrerInordenRecursivo fuel abb i = some (t.indices.map abb.elementos) := by
  intro t
  induction t with
  | hoja =>
    intro fuel i hr hf
    cases fuel with
    | zero => simp [Forma.altura] at hf
    | succ n =>
      have hi : i = POS_VACIA := hr
      simp [recorrerInordenRecursivo, hi, Forma.indices]
  | nodo j l r ihl ihr =>
    intro fuel i hr hf
    obtain ⟨hij, hj, hrl, hrr⟩ := hr
    subst hij
    cases fuel with
    | zero => omega
    | succ n =>
      simp only [Forma.altura] at hf
      simp only [recorrerInordenRecursivo, if_neg hj,
        ihl n (abb.elementos i).izquierdo hrl (by omega),
        ihr n (abb.elementos i).derecho hrr (by omega), Forma.indices, List.map_append,
        List.map_cons]

theorem recorrerInordenRecursivo_mono :
    ∀ (n : Nat) (abb : ABB) (i : Int) (res : List Dron),
      recorrerInordenRecursivo n abb i = some res →
      ∀ m, n ≤ m → recorrerInordenRecursivo m abb i = some res := by
  intro n
  induction n with
  | zero => intro abb i res h; simp [recorrerInordenRecursivo] at h
  | succ n ih =>
    intro abb i res h m hm
    cases m with
    | zero => omega
    | succ m =>
      simp only [recorrerInordenRecursivo] at h ⊢
      split_ifs at h ⊢
      · exact h
      · cases h1 : recorrerInordenRecursivo n abb (abb.elementos i).izquierdo with
        | none => simp [h1] at h
        | some x =>
          cases h2 : recorrerInordenRecursivo n abb (abb.elementos i).derecho with
          | none => simp [h1, h2] at h
          | some y =>
            rw [ih _ _ _ h1 m (by omega), ih _ _ _ h2 m (by omega)]
            rw [h1, h2] at h
            exact h

theorem esABB_dron_ordenado {e : Int → Dron} {t : Forma} (h : esABB e t) :
    (t.indices.map e).Pairwise menor := by
  induction t with
  | hoja => simp [Forma.indices]
  | nodo j l r ihl ihr =>
    obtain ⟨hl, hr, hml, hmr⟩ := h
    simp only [Forma.indices, List.map_append, List.map_cons, List.pairwise_append,
      List.pairwise_cons, List.mem_map, List.mem_cons]
    refine ⟨ihl hl, ⟨?_, ihr hr⟩, ?_⟩
    · rintro a ⟨k, hk, rfl⟩
      exact hmr k hk
    · rintro a ⟨k, hk, rfl⟩ b (rfl | ⟨k2, hk2, rfl⟩)
      · exact hml k hk
      · exact menor_dron_trans (hml k hk) (hmr k2 hk2)

/-- C10. Every registry reachable from `inicializarABB` by calls of
`insertarDronABB` (new drones with both links `POS_VACIA`) and of
`eliminarDronABB` (against any heap) is a binary search tree under
`compararDrones`: the links from `raiz` spell out a tree in which every drone
of a node's left subtree is smaller and every drone of its right subtree is
greater, `recorrerInordenABB` returns its drones, and whatever it returns is
strictly ascending. In such a registry both operations return. -/
theorem c10_registro_drones_es_abb (abb : ABB) (h : Alcanzable abb) :
    (∃ t : Forma, Representa abb.elementos abb.raiz t ∧ esABB abb.elementos t ∧
      ∃ fuel, recorrerInordenABB fuel abb = some (t.indices.map abb.elementos)) ∧
    (∀ fuel l, recorrerInordenABB fuel abb = some l → l.Pairwise menor) ∧
    (∀ d : Dron, d.izquierdo = POS_VACIA → d.derecho = POS_VACIA →
      ∃ fuel res, insertarDronABB fuel abb d = some res) ∧
    (∀ (zona id : CStr) (heap : MaxHeap),
      ∃ fuel res, eliminarDronABB fuel abb zona id heap = some res) := by
  have hinv := alcanzable_invariante h
  obtain ⟨t, hrep, _, _, hbst, _, _⟩ := alcanzable_invariante h
  have hrec := recorrerInordenRecursivo_spec abb t (t.altura + 1) abb.raiz hrep (by omega)
  refine ⟨⟨t, hrep, hbst, t.altura + 1, hrec⟩, ?_, ?_, ?_⟩
  · intro fuel l hl
    have h1 := recorrerInordenRecursivo_mono _ _ _ _ hl (max fuel (t.altura + 1))
      (le_max_left _ _)
    have h2 := recorrerInordenRecursivo_mono _ _ _ _ hrec (max fuel (t.altura + 1))
      (le_max_right _ _)
    rw [h1] at h2
    cases h2
    exact esABB_dron_ordenado hbst
  · intro d hiz hde
    obtain ⟨fuel0, hf⟩ := insertarDronABB_invariante abb d hinv hiz hde
    obtain ⟨abb1, r, heq, _⟩ := hf fuel0 le_rfl
    exact ⟨fuel0, (abb1, r), heq⟩
  · intro zona id heap
    obtain ⟨fuel0, hf⟩ := eliminarDronABB_invariante abb zona id heap hinv
    obtain ⟨abb1, r, heq, _⟩ := hf fuel0 le_rfl
    exact ⟨fuel0, (abb1, r), heq⟩

/-- C10 at the registry obtained by registering the test drone B1 in a fresh
registry. -/
theorem c10_registro_drones_es_abb_testigo :
    ∃ t : Forma,
      Representa ((insertarDronABB 5 inicial.abb d2).get (by decide)).1.elementos
        ((insertarDronABB 5 inicial.abb d2).get (by decide)).1.raiz t ∧
      esABB ((insertarDronABB 5 inicial.abb d2).get (by decide)).1.elementos t ∧
      ∃ fuel, recorrerInordenABB fuel ((insertarDronABB 5 inicial.abb d2).get (by decide)).1
        = some (t.indices.map ((insertarDronABB 5 inicial.abb d2).get (by decide)).1.elementos) :=
  (c10_registro_drones_es_abb ((insertarDronABB 5 inicial.abb d2).get (by decide)).1
    (@Alcanzable.insertar inicial.abb ((insertarDronABB 5 inicial.abb d2).get (by decide)).1 5 d2
      ((insertarDronABB 5 inicial.abb d2).get (by decide)).2
      (Alcanzable.inicio _) rfl rfl
      (Option.some_get (by decide : (insertarDronABB 5 inicial.abb d2).isSome = true)).symm)).1

end GestorDrones

/-! ## Flight manager: deletion of a flight that is not scheduled -/

namespace GestorVuelo

theorem buscar_vuelo_ausente (t : Vuelo) (x : CStr) (h : x ∉ codigos t) :
    buscar_vuelo t x = .nulo := by
  induction t with
  | nulo => rfl
  | nodo p d izq der ihi ihd =>
    simp only [codigos, recorrer_inorden, List.map_append, List.map_cons, List.mem_append,
      List.mem_cons, not_or] at h
    obtain ⟨h1, h2, h3⟩ := h
    have hne : strcmp x d.codigo_vuelo ≠ 0 := fun h0 => h2 (strcmp_eq_zero.mp h0)
    simp only [buscar_vuelo, if_neg hne]
    split_ifs
    · exact ihi h1
    · exact ihd h3

theorem buscar_vuelo_presente (t : Vuelo) (x : CStr) (hb : esABBdebil t) (h : x ∈ codigos t) :
    codigoDe (buscar_vuelo t x) = some x := by
  induction t with
  | nulo => simp [codigos, recorrer_inorden] at h
  | nodo p d izq der ihi ihd =>
    obtain ⟨hi, hd, hmi, hmd⟩ := hb
    simp only [codigos, recorrer_inorden, List.map_append, List.map_cons, List.mem_append,
      List.mem_cons, List.mem_map] at h
    simp only [buscar_vuelo]
    by_cases h0 : strcmp x d.codigo_vuelo = 0
    · rw [if_pos h0]
      simp [codigoDe, strcmp_eq_zero.mp h0]
    · rw [if_neg h0]
      have hanti := strcmp_antisim x d.codigo_vuelo
      split_ifs with h1
      · apply ihi hi
        rcases h with ⟨y, hy, rfl⟩ | h | ⟨y, hy, rfl⟩
        · exact List.mem_map.mpr ⟨y, hy, rfl⟩
        · rw [h, strcmp_self] at h0; exact absurd rfl h0
        · have := hmd y hy; omega
      · apply ihd hd
        rcases h with ⟨y, hy, rfl⟩ | h | ⟨y, hy, rfl⟩
        · have := hmi y hy; omega
        · rw [h, strcmp_self] at h0; exact absurd rfl h0
        · exact List.mem_map.mpr ⟨y, hy, rfl⟩

theorem esABBdebil_of_esABB {t : Vuelo} (h : esABB t) : esABBdebil t := by
  induction t with
  | nulo => trivial
  | nodo p d izq der ihi ihd =>
    obtain ⟨hi, hd, hmi, hmd⟩ := h
    exact ⟨ihi hi, ihd hd, hmi, fun x hx => le_of_lt (hmd x hx)⟩

theorem encontrar_min_vuelo_eq_head (t : Vuelo) :
    encontrar_min t = (recorrer_inorden t).head? := by
  induction t with
  | nulo => rfl
  | nodo p e izq der ihi _ =>
    cases izq with
    | nulo => simp [encontrar_min, recorrer_inorden]
    | nodo q f i r =>
      rw [encontrar_min, ihi]
      simp only [recorrer_inorden]
      cases h : recorrer_inorden i <;> simp

theorem eliminar_vuelo_menor {mem : Nat → Option DatosVuelo} {p : Nat} {d : DatosVuelo}
    {izq der : Vuelo} {k : CStr} {heap : Heap} (hg : vuelo_en_heap mem heap k = false)
    (h : strcmp k d.codigo_vuelo < 0) :
    eliminar_vuelo mem (.nodo p d izq der) k heap
      = .nodo p d (eliminar_vuelo mem izq k heap) der := by
  rw [eliminar_vuelo.eq_def]
  simp only [hg, Bool.false_eq_true, if_false, if_pos h]

theorem eliminar_vuelo_mayor {mem : Nat → Option DatosVuelo} {p : Nat} {d : DatosVuelo}
    {izq der : Vuelo} {k : CStr} {heap : Heap} (hg : vuelo_en_heap mem heap k = false)
    (h : strcmp k d.codigo_vuelo > 0) :
    eliminar_vuelo mem (.nodo p d izq der) k heap
      = .nodo p d izq (eliminar_vuelo mem der k heap) := by
  rw [eliminar_vuelo.eq_def]
  have h' : ¬ strcmp k d.codigo_vuelo < 0 := by omega
  simp only [hg, Bool.false_eq_true, if_false, if_neg h', if_pos h]

theorem eliminar_vuelo_dos_hijos {mem : Nat → Option DatosVuelo} {p : Nat} {d : DatosVuelo}
    {q : Nat} {f : DatosVuelo} {i r : Vuelo} {q2 : Nat} {f2 : DatosVuelo} {i2 r2 : Vuelo}
    {heap : Heap} {temp : DatosVuelo} (hg : vuelo_en_heap mem heap d.codigo_vuelo = false)
    (hmin : encontrar_min (.nodo q2 f2 i2 r2) = some temp) :
    eliminar_vuelo mem (.nodo p d (.nodo q f i r) (.nodo q2 f2 i2 r2)) d.codigo_vuelo heap
      = .nodo p temp (.nodo q f i r)
          (eliminar_vuelo (Function.update mem p (some temp)) (.nodo q2 f2 i2 r2)
            temp.codigo_vuelo heap) := by
  rw [eliminar_vuelo]
  · simp only [hg, Bool.false_eq_true, if_false, strcmp_self, lt_self_iff_false, gt_iff_lt, hmin]
  all_goals simp

end GestorVuelo

namespace GestorVuelo

theorem eliminar_vuelo_spec (heap : Heap) :
    ∀ (t : Vuelo) (mem : Nat → Option DatosVuelo) (k : CStr), esABB t →
      esABBdebil (eliminar_vuelo mem t k heap) ∧
      (∀ x ∈ recorrer_inorden (eliminar_vuelo mem t k heap), x ∈ recorrer_inorden t) ∧
      (∀ x ∈ recorrer_inorden t, x.codigo_vuelo ≠ k →
        x ∈ recorrer_inorden (eliminar_vuelo mem t k heap)) ∧
      (vuelo_en_heap mem heap k = false →
        ∀ x ∈ recorrer_inorden (eliminar_vuelo mem t k heap), x.codigo_vuelo ≠ k) := by
  intro t
  induction t with
  | nulo =>
    intro mem k _
    simp [eliminar_vuelo, esABBdebil, recorrer_inorden]
  | nodo p d izq der ihi ihd =>
    intro mem k hab
    obtain ⟨hi, hd, hmi, hmd⟩ := hab
    by_cases hg : vuelo_en_heap mem heap k = true
    · rw [eliminar_vuelo_programado mem _ k heap hg]
      exact ⟨esABBdebil_of_esABB ⟨hi, hd, hmi, hmd⟩, fun _ h => h, fun _ h _ => h,
        fun h => by rw [hg] at h; cases h⟩
    · have hg' : vuelo_en_heap mem heap k = false := by simpa using hg
      have hanti := strcmp_antisim k d.codigo_vuelo
      rcases lt_trichotomy (strcmp k d.codigo_vuelo) 0 with hlt | heq | hgt
      · rw [eliminar_vuelo_menor hg' hlt]
        obtain ⟨i1, i2, i3, i4⟩ := ihi mem k hi
        refine ⟨⟨i1, esABBdebil_of_esABB hd, fun x hx => hmi x (i2 x hx),
          fun x hx => le_of_lt (hmd x hx)⟩, ?_, ?_, ?_⟩
        · intro x hx
          simp only [recorrer_inorden, List.mem_append, List.mem_cons] at hx ⊢
          rcases hx with hx | hx | hx
          · exact Or.inl (i2 x hx)
          · exact Or.inr (Or.inl hx)
          · exact Or.inr (Or.inr hx)
        · intro x hx hne
          simp only [recorrer_inorden, List.mem_append, List.mem_cons] at hx ⊢
          rcases hx with hx | hx | hx
          · exact Or.inl (i3 x hx hne)
          · exact Or.inr (Or.inl hx)
          · exact Or.inr (Or.inr hx)
        · intro _ x hx
          simp only [recorrer_inorden, List.mem_append, List.mem_cons] at hx
          rcases hx with hx | hx | hx
          · exact i4 hg' x hx
          · rw [hx]; exact (strcmp_ne_of_lt hlt).symm
          · exact (strcmp_ne_of_lt (strcmp_trans hlt (hmd x hx))).symm
      · have hk : k = d.codigo_vuelo := strcmp_eq_zero.mp heq
        subst hk
        have hizq : ∀ x ∈ recorrer_inorden izq, x.codigo_vuelo ≠ d.codigo_vuelo :=
          fun x hx => strcmp_ne_of_lt (hmi x hx)
        have hder : ∀ x ∈ recorrer_inorden der, x.codigo_vuelo ≠ d.codigo_vuelo :=
          fun x hx => (strcmp_ne_of_lt (hmd x hx)).symm
        cases izq with
        | nulo =>
          have he : eliminar_vuelo mem (.nodo p d .nulo der) d.codigo_vuelo heap = der := by
            rw [eliminar_vuelo.eq_def]
            simp only [hg', Bool.false_eq_true, if_false, strcmp_self, lt_self_iff_false,
              gt_iff_lt]
          rw [he]
          refine ⟨esABBdebil_of_esABB hd, ?_, ?_, fun _ => hder⟩
          · intro x hx; simp [recorrer_inorden, hx]
          · intro x hx hne
            simp only [recorrer_inorden, List.nil_append, List.mem_cons] at hx
            rcases hx with hx | hx
            · exact absurd (by rw [hx]) hne
            · exact hx
        | nodo q f i r =>
          cases der with
          | nulo =>
            have he : eliminar_vuelo mem (.nodo p d (.nodo q f i r) .nulo) d.codigo_vuelo heap
                = .nodo q f i r := by
              rw [eliminar_vuelo.eq_def]
              simp only [hg', Bool.false_eq_true, if_false, strcmp_self, lt_self_iff_false,
                gt_iff_lt]
            rw [he]
            refine ⟨esABBdebil_of_esABB hi, ?_, ?_, fun _ => hizq⟩
            · intro x hx
              rw [recorrer_inorden]
              exact List.mem_append_left _ hx
            · intro x hx hne
              rw [recorrer_inorden] at hx
              simp only [recorrer_inorden, List.mem_append, List.mem_cons, List.not_mem_nil,
                or_false] at hx
              rcases hx with hx | hx
              · simpa [recorrer_inorden] using hx
              · exact absurd (by rw [hx]) hne
          | nodo q2 f2 i2 r2 =>
            have hord := inorden_vuelos_ordenado hd
            have hmin := encontrar_min_vuelo_eq_head (.nodo q2 f2 i2 r2)
            cases hl : recorrer_inorden (.nodo q2 f2 i2 r2) with
            | nil => simp [recorrer_inorden] at hl
            | cons temp tl =>
              rw [hl] at hord hmin hmd hder
              simp only [List.head?_cons] at hmin
              rw [eliminar_vuelo_dos_hijos hg' hmin]
              obtain ⟨d1, d2, d3, _⟩ :=
                ihd (Function.update mem p (some temp)) temp.codigo_vuelo hd
              rw [hl] at d2 d3
              have htl : ∀ x ∈ tl, strcmp temp.codigo_vuelo x.codigo_vuelo < 0 :=
                (List.pairwise_cons.mp hord).1
              have hdt := hmd temp (List.mem_cons_self _ _)
              refine ⟨⟨esABBdebil_of_esABB hi, d1, fun x hx => strcmp_trans (hmi x hx) hdt, ?_⟩,
                ?_, ?_, ?_⟩
              · intro x hx
                rcases List.mem_cons.mp (d2 x hx) with rfl | hx
                · rw [strcmp_self]
                · exact le_of_lt (htl x hx)
              · intro x hx
                rw [recorrer_inorden] at hx ⊢
                simp only [List.mem_append, List.mem_cons] at hx ⊢
                rcases hx with hx | hx | hx
                · exact Or.inl hx
                · exact Or.inr (Or.inr (by rw [hl, hx]; exact List.mem_cons_self _ _))
                · exact Or.inr (Or.inr (by rw [hl]; exact d2 x hx))
              · intro x hx hne
                rw [recorrer_inorden] at hx ⊢
                simp only [List.mem_append, List.mem_cons] at hx ⊢
                rcases hx with hx | hx | hx
                · exact Or.inl hx
                · exact absurd (by rw [hx]) hne
                · rw [hl] at hx
                  by_cases hxt : x.codigo_vuelo = temp.codigo_vuelo
                  · rcases List.mem_cons.mp hx with hx | hx
                    · exact Or.inr (Or.inl hx)
                    · exact absurd hxt.symm (strcmp_ne_of_lt (htl x hx))
                  · exact Or.inr (Or.inr (d3 x hx hxt))
              · intro _ x hx
                rw [recorrer_inorden] at hx
                simp only [List.mem_append, List.mem_cons] at hx
                rcases hx with hx | hx | hx
                · exact hizq x hx
                · rw [hx]; exact hder temp (List.mem_cons_self _ _)
                · exact hder x (d2 x hx)
      · have hgt' : strcmp k d.codigo_vuelo > 0 := hgt
        have hdk : strcmp d.codigo_vuelo k < 0 := by omega
        rw [eliminar_vuelo_mayor hg' hgt']
        obtain ⟨i1, i2, i3, i4⟩ := ihd mem k hd
        refine ⟨⟨esABBdebil_of_esABB hi, i1, hmi,
          fun x hx => le_of_lt (hmd x (i2 x hx))⟩, ?_, ?_, ?_⟩
        · intro x hx
          simp only [recorrer_inorden, List.mem_append, List.mem_cons] at hx ⊢
          rcases hx with hx | hx | hx
          · exact Or.inl hx
          · exact Or.inr (Or.inl hx)
          · exact Or.inr (Or.inr (i2 x hx))
        · intro x hx hne
          simp only [recorrer_inorden, List.mem_append, List.mem_cons] at hx ⊢
          rcases hx with hx | hx | hx
          · exact Or.inl hx
          · exact Or.inr (Or.inl hx)
          · exact Or.inr (Or.inr (i3 x hx hne))
        · intro _ x hx
          simp only [recorrer_inorden, List.mem_append, List.mem_cons] at hx
          rcases hx with hx | hx | hx
          · exact strcmp_ne_of_lt (strcmp_trans (hmi x hx) hdk)
          · rw [hx]; exact strcmp_ne_of_lt hdk
          · exact i4 hg' x hx

/-- C11. On a search tree of flights, if no heap entry points to a flight with
code `k` (for instance once `extraer_min_heap` has removed its only entry),
then after `eliminar_vuelo` the search `buscar_vuelo` finds no flight with code
`k` and still finds a flight for every other code that was in the tree. -/
theorem c11_eliminar_tras_despegar (raiz : Vuelo) (heap : Heap) (k : CStr) (hab : esABB raiz)
    (hno : ¬ ∃ i : Nat, (i : Int) < heap.tamano ∧ ∃ p d, (heap.elementos i).vuelo = some p ∧
      memoria raiz p = some d ∧ d.codigo_vuelo = k) :
    buscar_vuelo (eliminar_vuelo (memoria raiz) raiz k heap) k = .nulo ∧
    ∀ x ∈ codigos raiz, x ≠ k →
      codigoDe (buscar_vuelo (eliminar_vuelo (memoria raiz) raiz k heap) x) = some x := by
  have hg : vuelo_en_heap (memoria raiz) heap k = false := by
    cases h : vuelo_en_heap (memoria raiz) heap k with
    | false => rfl
    | true => exact absurd ((vuelo_en_heap_iff _ _ _).mp h) hno
  obtain ⟨h1, _, h3, h4⟩ := eliminar_vuelo_spec heap raiz (memoria raiz) k hab
  constructor
  · apply buscar_vuelo_ausente
    intro hk
    obtain ⟨x, hx, hxk⟩ := List.mem_map.mp hk
    exact h4 hg x hx hxk
  · intro x hx hne
    apply buscar_vuelo_presente _ _ h1
    obtain ⟨y, hy, hyx⟩ := List.mem_map.mp hx
    exact List.mem_map.mpr ⟨y, h3 y hy (by rw [hyx]; exact hne), hyx⟩

/-- C11 on the scenario of the specification: X is registered and scheduled,
so deleting it is refused; after the departure is dispatched the deletion goes
through and X is no longer found. -/
theorem c11_eliminar_tras_despegar_testigo :
    codigos (ejecutar inicial
      [.registrar 1 (vueloDe "X"), .programar (cad "X") 20251204 1000,
       .eliminar (cad "X")]).arbol_vuelos = [cad "X"] ∧
    codigos (ejecutar inicial
      [.registrar 1 (vueloDe "X"), .programar (cad "X") 20251204 1000,
       .eliminar (cad "X"), .despegar, .eliminar (cad "X")]).arbol_vuelos = [] ∧
    buscar_vuelo (eliminar_vuelo (memoria (.nodo 1 (vueloDe "X") .nulo .nulo))
      (.nodo 1 (vueloDe "X") .nulo .nulo) (cad "X")
      (extraer_min_heap (insertar_heap inicial.monticulo_salidas
        { vuelo := some 1, clave_salida := 5 })).1) (cad "X") = .nulo :=
  ⟨by decide, by decide,
   (c11_eliminar_tras_despegar (.nodo 1 (vueloDe "X") .nulo .nulo)
     (extraer_min_heap (insertar_heap inicial.monticulo_salidas
        { vuelo := some 1, clave_salida := 5 })).1 (cad "X") (by decide)
     (by
       rintro ⟨i, hi, _⟩
       have : (extraer_min_heap (insertar_heap inicial.monticulo_salidas
         { vuelo := some 1, clave_salida := 5 })).1.tamano = 0 := by decide
       rw [this] at hi
       omega)).1⟩

end GestorVuelo

/-! ## Binary heaps in an array -/

theorem intercambiar_der {α : Type} (e : Nat → α) (i j : Nat) : intercambiar e i j j = e i := by
  simp [intercambiar]

theorem intercambiar_izq {α : Type} (e : Nat → α) {i j : Nat} (h : i ≠ j) :
    intercambiar e i j i = e j := by
  simp [intercambiar, Function.update_noteq h]

theorem intercambiar_otro {α : Type} (e : Nat → α) {i j x : Nat} (hi : x ≠ i) (hj : x ≠ j) :
    intercambiar e i j x = e x := by
  simp [intercambiar, Function.update_noteq hi, Function.update_noteq hj]

theorem ordenHijos_iff {α : Type} (k : α → Int) (e : Nat → α) (tam : Nat) :
    ordenHijos k e tam ↔ esMonticulo k e tam := by
  constructor
  · intro h j hj0 hjt
    have hp : (j - 1) / 2 < tam := by omega
    rcases Nat.even_or_odd j with hev | hod
    · obtain ⟨c, hc⟩ := hev
      have : j = 2 * ((j - 1) / 2) + 2 := by omega
      have := (h _ hp).2 (by omega)
      rwa [← ‹j = 2 * ((j - 1) / 2) + 2›] at this
    · obtain ⟨c, hc⟩ := hod
      have : j = 2 * ((j - 1) / 2) + 1 := by omega
      have := (h _ hp).1 (by omega)
      rwa [← ‹j = 2 * ((j - 1) / 2) + 1›] at this
  · intro h i _
    constructor
    · intro hl
      have := h (2 * i + 1) (by omega) hl
      have e1 : (2 * i + 1 - 1) / 2 = i := by omega
      rwa [e1] at this
    · intro hr
      have := h (2 * i + 2) (by omega) hr
      have e1 : (2 * i + 2 - 1) / 2 = i := by omega
      rwa [e1] at this

theorem subirG_monticulo {α : Type} (k : α → Int) (tam : Nat) :
    ∀ (fuel : Nat) (e : Nat → α) (i : Nat), i ≤ fuel → i < tam →
      (∀ j, 0 < j → j < tam → j ≠ i → k (e ((j - 1) / 2)) ≤ k (e j)) →
      (∀ j, 0 < j → j < tam → (j - 1) / 2 = i → 0 < i → k (e ((i - 1) / 2)) ≤ k (e j)) →
      esMonticulo k (subirG k fuel e i) tam := by
  intro fuel
  induction fuel with
  | zero =>
    intro e i hi _ h1 _ j hj0 hjt
    exact h1 j hj0 hjt (by omega)
  | succ n ih =>
    intro e i hi hit h1 h2
    simp only [subirG]
    by_cases hc : i ≠ 0 ∧ k (e i) < k (e ((i - 1) / 2))
    · rw [if_pos hc]
      obtain ⟨hi0, hlt⟩ := hc
      have hpi : (i - 1) / 2 ≠ i := by omega
      apply ih _ _ (by omega) (by omega)
      · intro j hj0 hjt hjp
        by_cases hji : j = i
        · subst hji
          rw [intercambiar_der, intercambiar_izq e (Ne.symm hpi)]
          exact le_of_lt hlt
        · rw [intercambiar_otro e hji hjp]
          by_cases hq1 : (j - 1) / 2 = i
          · rw [hq1, intercambiar_izq e (Ne.symm hpi)]
            exact h2 j hj0 hjt hq1 (by omega)
          · by_cases hq2 : (j - 1) / 2 = (i - 1) / 2
            · rw [hq2, intercambiar_der]
              have := h1 j hj0 hjt hji
              rw [hq2] at this
              omega
            · rw [intercambiar_otro e hq1 hq2]
              exact h1 j hj0 hjt hji
      · intro j hj0 hjt hjp hp0
        have hpp1 : ((i - 1) / 2 - 1) / 2 ≠ i := by omega
        have hpp2 : ((i - 1) / 2 - 1) / 2 ≠ (i - 1) / 2 := by omega
        rw [intercambiar_otro e hpp1 hpp2]
        have hp := h1 ((i - 1) / 2) hp0 (by omega) hpi
        by_cases hji : j = i
        · subst hji
          rw [intercambiar_izq e (Ne.symm hpi)]
          exact hp
        · have hjp' : j ≠ (i - 1) / 2 := by omega
          rw [intercambiar_otro e hji hjp']
          have := h1 j hj0 hjt hji
          rw [hjp] at this
          omega
    · rw [if_neg hc]
      intro j hj0 hjt
      by_cases hji : j = i
      · subst hji
        have : ¬ k (e j) < k (e ((j - 1) / 2)) := fun h => hc ⟨by omega, h⟩
        omega
      · exact h1 j hj0 hjt hji

theorem bajarG_paso {α : Type} (k : α → Int) (tam : Nat) (e : Nat → α) (i m : Nat)
    (hm0 : 0 < m) (hmp : (m - 1) / 2 = i) (hlt : k (e m) < k (e i))
    (hmin : ∀ j, 0 < j → j < tam → (j - 1) / 2 = i → k (e m) ≤ k (e j))
    (h1 : ∀ j, 0 < j → j < tam → (j - 1) / 2 ≠ i → k (e ((j - 1) / 2)) ≤ k (e j))
    (h2 : ∀ j, 0 < j → j < tam → (j - 1) / 2 = i → 0 < i → k (e ((i - 1) / 2)) ≤ k (e j))
    (hmt : m < tam) :
    (∀ j, 0 < j → j < tam → (j - 1) / 2 ≠ m →
      k (intercambiar e i m ((j - 1) / 2)) ≤ k (intercambiar e i m j)) ∧
    (∀ j, 0 < j → j < tam → (j - 1) / 2 = m → 0 < m →
      k (intercambiar e i m ((m - 1) / 2)) ≤ k (intercambiar e i m j)) := by
  have him : i ≠ m := by omega
  constructor
  · intro j hj0 hjt hjm
    by_cases hj1 : j = m
    · subst hj1
      rw [hmp, intercambiar_der, intercambiar_izq e him]
      exact le_of_lt hlt
    · by_cases hj2 : j = i
      · subst hj2
        have hq1 : (j - 1) / 2 ≠ j := by omega
        rw [intercambiar_izq e him, intercambiar_otro e hq1 hjm]
        exact h2 m hm0 hmt hmp hj0
      · rw [intercambiar_otro e hj2 hj1]
        by_cases hq : (j - 1) / 2 = i
        · rw [hq, intercambiar_izq e him]
          exact hmin j hj0 hjt hq
        · rw [intercambiar_otro e hq hjm]
          exact h1 j hj0 hjt hq
  · intro j hj0 hjt hjm _
    have hji : j ≠ i := by omega
    have hjm' : j ≠ m := by omega
    rw [hmp, intercambiar_izq e him, intercambiar_otro e hji hjm']
    have := h1 j hj0 hjt (by omega)
    rwa [hjm] at this

theorem bajarG_monticulo {α : Type} (k : α → Int) (tam : Nat) :
    ∀ (fuel : Nat) (e : Nat → α) (i : Nat), tam ≤ i + fuel →
      (∀ j, 0 < j → j < tam → (j - 1) / 2 ≠ i → k (e ((j - 1) / 2)) ≤ k (e j)) →
      (∀ j, 0 < j → j < tam → (j - 1) / 2 = i → 0 < i → k (e ((i - 1) / 2)) ≤ k (e j)) →
      esMonticulo k (bajarG k fuel e tam i) tam := by
  intro fuel
  induction fuel with
  | zero =>
    intro e i hi h1 _ j hj0 hjt
    exact h1 j hj0 hjt (by omega)
  | succ n ih =>
    intro e i hi h1 h2
    have hijos : ∀ j, 0 < j → (j - 1) / 2 = i → j = 2 * i + 1 ∨ j = 2 * i + 2 := by
      intro j _ _; omega
    simp only [bajarG]
    by_cases c1 : 2 * i + 1 < tam ∧ k (e (2 * i + 1)) < k (e i)
    · rw [if_pos c1]
      by_cases c2 : 2 * i + 2 < tam ∧ k (e (2 * i + 2)) < k (e (2 * i + 1))
      · rw [if_pos c2, if_pos (by omega)]
        obtain ⟨p1, p2⟩ := bajarG_paso k tam e i (2 * i + 2) (by omega) (by omega) (by omega)
          (by
            intro j hj0 _ hjp
            rcases hijos j hj0 hjp with rfl | rfl
            · omega
            · exact le_refl _) h1 h2 c2.1
        exact ih _ _ (by omega) p1 p2
      · rw [if_neg c2, if_pos (by omega)]
        obtain ⟨p1, p2⟩ := bajarG_paso k tam e i (2 * i + 1) (by omega) (by omega) c1.2
          (by
            intro j hj0 hjt hjp
            rcases hijos j hj0 hjp with rfl | rfl
            · exact le_refl _
            · have : ¬ k (e (2 * i + 2)) < k (e (2 * i + 1)) := fun h => c2 ⟨hjt, h⟩
              omega) h1 h2 c1.1
        exact ih _ _ (by omega) p1 p2
    · rw [if_neg c1]
      by_cases c2 : 2 * i + 2 < tam ∧ k (e (2 * i + 2)) < k (e i)
      · rw [if_pos c2, if_pos (by omega)]
        obtain ⟨p1, p2⟩ := bajarG_paso k tam e i (2 * i + 2) (by omega) (by omega) c2.2
          (by
            intro j hj0 hjt hjp
            rcases hijos j hj0 hjp with rfl | rfl
            · have : ¬ k (e (2 * i + 1)) < k (e i) := fun h => c1 ⟨hjt, h⟩
              omega
            · exact le_refl _) h1 h2 c2.1
        exact ih _ _ (by omega) p1 p2
      · rw [if_neg c2]
        simp only [ne_eq, not_true_eq_false, if_false]
        intro j hj0 hjt
        by_cases hq : (j - 1) / 2 = i
        · rw [hq]
          rcases hijos j hj0 hq with rfl | rfl
          · have : ¬ k (e (2 * i + 1)) < k (e i) := fun h => c1 ⟨hjt, h⟩
            omega
          · have : ¬ k (e (2 * i + 2)) < k (e i) := fun h => c2 ⟨hjt, h⟩
            omega
        · exact h1 j hj0 hjt hq

theorem intercambiar_eq_swap {α : Type} (e : Nat → α) (i j : Nat) :
    intercambiar e i j = e ∘ (Equiv.swap i j) := by
  funext x
  by_cases hj : x = j
  · subst hj
    simp [intercambiar_der]
  · by_cases hi : x = i
    · subst hi
      rw [intercambiar_izq e (by simpa using hj)]
      simp
    · rw [intercambiar_otro e hi hj]
      simp [Equiv.swap_apply_of_ne_of_ne hi hj]

theorem prefijo_intercambiar {α : Type} (e : Nat → α) {i j tam : Nat} (hi : i < tam)
    (hj : j < tam) : (prefijo (intercambiar e i j) tam).Perm (prefijo e tam) := by
  unfold prefijo
  rw [intercambiar_eq_swap, ← List.map_map]
  apply List.Perm.map
  rw [List.perm_ext_iff_of_nodup ((List.nodup_range tam).map (Equiv.swap i j).injective)
    (List.nodup_range tam)]
  intro a
  simp only [List.mem_map, List.mem_range]
  constructor
  · rintro ⟨b, hb, rfl⟩
    by_cases h1 : b = i
    · subst h1; simpa using hj
    · by_cases h2 : b = j
      · subst h2; simpa using hi
      · rw [Equiv.swap_apply_of_ne_of_ne h1 h2]; exact hb
  · intro ha
    refine ⟨Equiv.swap i j a, ?_, by simp⟩
    by_cases h1 : a = i
    · subst h1; simpa using hj
    · by_cases h2 : a = j
      · subst h2; simpa using hi
      · rw [Equiv.swap_apply_of_ne_of_ne h1 h2]; exact ha

theorem prefijo_congr {α : Type} {e1 e2 : Nat → α} {tam : Nat} (h : ∀ j, j < tam → e1 j = e2 j) :
    prefijo e1 tam = prefijo e2 tam := by
  unfold prefijo
  apply List.map_congr_left
  intro j hj
  exact h j (List.mem_range.mp hj)

theorem prefijo_succ {α : Type} (e : Nat → α) (tam : Nat) :
    prefijo e (tam + 1) = prefijo e tam ++ [e tam] := by
  simp [prefijo, List.range_succ]

theorem mem_prefijo {α : Type} {e : Nat → α} {tam : Nat} {x : α} :
    x ∈ prefijo e tam ↔ ∃ j, j < tam ∧ e j = x := by
  simp [prefijo]

theorem subirG_perm {α : Type} (k : α → Int) (tam : Nat) :
    ∀ (fuel : Nat) (e : Nat → α) (i : Nat), i < tam →
      (prefijo (subirG k fuel e i) tam).Perm (prefijo e tam) := by
  intro fuel
  induction fuel with
  | zero => intro e i _; exact List.Perm.refl _
  | succ n ih =>
    intro e i hi
    simp only [subirG]
    split_ifs with hc
    · exact (ih _ _ (by omega)).trans (prefijo_intercambiar e hi (by omega))
    · exact List.Perm.refl _

theorem subirG_fuera {α : Type} (k : α → Int) :
    ∀ (fuel : Nat) (e : Nat → α) (i j : Nat), i < j → subirG k fuel e i j = e j := by
  intro fuel
  induction fuel with
  | zero => intro e i j _; rfl
  | succ n ih =>
    intro e i j hij
    simp only [subirG]
    split_ifs with hc
    · rw [ih _ _ _ (by omega), intercambiar_otro e (by omega) (by omega)]
    · rfl

theorem bajarG_perm {α : Type} (k : α → Int) (tam : Nat) :
    ∀ (fuel : Nat) (e : Nat → α) (i : Nat),
      (prefijo (bajarG k fuel e tam i) tam).Perm (prefijo e tam) := by
  intro fuel
  induction fuel with
  | zero => intro e i; exact List.Perm.refl _
  | succ n ih =>
    intro e i
    simp only [bajarG]
    split_ifs with c1 c2 c3 c4 c5 c6
    all_goals first
      | exact List.Perm.refl _
      | exact (ih _ _).trans (prefijo_intercambiar e (by omega) (by omega))

theorem bajarG_fuera {α : Type} (k : α → Int) (tam : Nat) :
    ∀ (fuel : Nat) (e : Nat → α) (i j : Nat), tam ≤ j → bajarG k fuel e tam i j = e j := by
  intro fuel
  induction fuel with
  | zero => intro e i j _; rfl
  | succ n ih =>
    intro e i j hj
    simp only [bajarG]
    split_ifs with c1 c2 c3 c4 c5 c6
    all_goals first
      | rfl
      | (rw [ih _ _ _ hj, intercambiar_otro e (by omega) (by omega)])

theorem monticulo_raiz_minima {α : Type} (k : α → Int) (e : Nat → α) (tam : Nat)
    (h : esMonticulo k e tam) : ∀ j, j < tam → k (e 0) ≤ k (e j) := by
  intro j
  induction j using Nat.strong_induction_on with
  | _ j ih =>
    intro hj
    by_cases h0 : j = 0
    · subst h0; exact le_refl _
    · have h1 := ih ((j - 1) / 2) (by omega) (by omega)
      have h2 := h j (by omega) hj
      omega

theorem bajarG_congr {α : Type} (k : α → Int) (tam : Nat) :
    ∀ (fuel : Nat) (e1 e2 : Nat → α) (i : Nat), (∀ j, j < tam → e1 j = e2 j) →
      ∀ j, j < tam → bajarG k fuel e1 tam i j = bajarG k fuel e2 tam i j := by
  intro fuel
  induction fuel with
  | zero => intro e1 e2 i h j hj; exact h j hj
  | succ n ih =>
    intro e1 e2 i h j hj
    have hsw : ∀ m, m < tam → i < tam →
        ∀ x, x < tam → intercambiar e1 i m x = intercambiar e2 i m x := by
      intro m hm hi x hx
      rw [intercambiar_eq_swap, intercambiar_eq_swap]
      simp only [Function.comp]
      apply h
      by_cases h1 : x = i
      · subst h1; simpa using hm
      · by_cases h2 : x = m
        · subst h2; simpa using hi
        · rw [Equiv.swap_apply_of_ne_of_ne h1 h2]; exact hx
    have hc1 : (2 * i + 1 < tam ∧ k (e1 (2 * i + 1)) < k (e1 i)) ↔
        (2 * i + 1 < tam ∧ k (e2 (2 * i + 1)) < k (e2 i)) :=
      and_congr_right (fun a => by rw [h _ a, h i (by omega)])
    simp only [bajarG]
    by_cases c1 : 2 * i + 1 < tam ∧ k (e1 (2 * i + 1)) < k (e1 i)
    · rw [if_pos c1, if_pos (hc1.mp c1)]
      have hc2 : (2 * i + 2 < tam ∧ k (e1 (2 * i + 2)) < k (e1 (2 * i + 1))) ↔
          (2 * i + 2 < tam ∧ k (e2 (2 * i + 2)) < k (e2 (2 * i + 1))) :=
        and_congr_right (fun a => by rw [h _ a, h _ c1.1])
      by_cases c2 : 2 * i + 2 < tam ∧ k (e1 (2 * i + 2)) < k (e1 (2 * i + 1))
      · rw [if_pos c2, if_pos (hc2.mp c2), if_pos (by omega), if_pos (by omega)]
        exact ih _ _ _ (hsw _ c2.1 (by omega)) j hj
      · rw [if_neg c2, if_neg (fun a => c2 (hc2.mpr a)), if_pos (by omega), if_pos (by omega)]
        exact ih _ _ _ (hsw _ c1.1 (by omega)) j hj
    · rw [if_neg c1, if_neg (fun a => c1 (hc1.mpr a))]
      have hc2 : (2 * i + 2 < tam ∧ k (e1 (2 * i + 2)) < k (e1 i)) ↔
          (2 * i + 2 < tam ∧ k (e2 (2 * i + 2)) < k (e2 i)) :=
        and_congr_right (fun a => by rw [h _ a, h i (by omega)])
      by_cases c2 : 2 * i + 2 < tam ∧ k (e1 (2 * i + 2)) < k (e1 i)
      · rw [if_pos c2, if_pos (hc2.mp c2), if_pos (by omega), if_pos (by omega)]
        exact ih _ _ _ (hsw _ c2.1 (by omega)) j hj
      · rw [if_neg c2, if_neg (fun a => c2 (hc2.mpr a))]
        simp only [ne_eq, not_true_eq_false, if_false]
        exact h j hj

theorem extraerG_monticulo {α : Type} (k : α → Int) (e : Nat → α) (tam : Nat)
    (h : esMonticulo k e tam) : esMonticulo k (extraerG k e tam) (tam - 1) := by
  unfold extraerG
  apply bajarG_monticulo k (tam - 1) (tam - 1) _ 0 (by omega)
  · intro j hj0 hjt hjp
    rw [Function.update_noteq (by omega), Function.update_noteq (by omega)]
    exact h j hj0 (by omega)
  · intro j _ _ _ h0
    omega

theorem extraerG_perm {α : Type} (k : α → Int) (e : Nat → α) (tam : Nat) (ht : 0 < tam) :
    (e 0 :: prefijo (extraerG k e tam) (tam - 1)).Perm (prefijo e tam) := by
  obtain ⟨n, rfl⟩ : ∃ n, tam = n + 1 := ⟨tam - 1, by omega⟩
  unfold extraerG
  simp only [Nat.add_sub_cancel]
  have h1 := bajarG_perm k n n (Function.update e 0 (e n)) 0
  have h2 : prefijo (Function.update e 0 (e n)) n = prefijo (intercambiar e 0 n) n := by
    apply prefijo_congr
    intro j hj
    by_cases hj0 : j = 0
    · subst hj0
      rw [Function.update_same, intercambiar_izq e (by omega)]
    · rw [Function.update_noteq hj0, intercambiar_otro e hj0 (by omega)]
  have h3 : prefijo (intercambiar e 0 n) (n + 1) = prefijo (intercambiar e 0 n) n ++ [e 0] := by
    rw [prefijo_succ, intercambiar_der]
  have h4 := prefijo_intercambiar e ht (by omega : n < n + 1)
  rw [h3] at h4
  refine (List.Perm.cons _ (h1.trans (by rw [h2]))).trans ?_
  exact (List.perm_append_singleton _ _).symm.trans h4

theorem extraerG_congr {α : Type} (k : α → Int) (e1 e2 : Nat → α) (tam : Nat)
    (h : ∀ j, j < tam → e1 j = e2 j) :
    ∀ j, j < tam - 1 → extraerG k e1 tam j = extraerG k e2 tam j := by
  intro j hj
  unfold extraerG
  apply bajarG_congr k (tam - 1) _ _ _ _ _ j hj
  intro x hx
  by_cases hx0 : x = 0
  · subst hx0
    rw [Function.update_same, Function.update_same]
    exact h _ (by omega)
  · rw [Function.update_noteq hx0, Function.update_noteq hx0]
    exact h x (by omega)

theorem drenarG_congr {α : Type} (k : α → Int) :
    ∀ (n : Nat) (e1 e2 : Nat → α) (tam : Nat), n ≤ tam → (∀ j, j < tam → e1 j = e2 j) →
      drenarG k n e1 tam = drenarG k n e2 tam := by
  intro n
  induction n with
  | zero => intro e1 e2 tam _ _; rfl
  | succ n ih =>
    intro e1 e2 tam hn h
    simp only [drenarG]
    rw [h 0 (by omega), ih _ _ (tam - 1) (by omega) (extraerG_congr k e1 e2 tam h)]

theorem drenarG_ordenado {α : Type} (k : α → Int) :
    ∀ (tam : Nat) (e : Nat → α), esMonticulo k e tam →
      (drenarG k tam e tam).Pairwise (fun a b => k a ≤ k b) ∧
      (drenarG k tam e tam).Perm (prefijo e tam) := by
  intro tam
  induction tam with
  | zero => intro e _; simp [drenarG, prefijo]
  | succ n ih =>
    intro e h
    simp only [drenarG, Nat.add_sub_cancel]
    have hm := extraerG_monticulo k e (n + 1) h
    simp only [Nat.add_sub_cancel] at hm
    obtain ⟨i1, i2⟩ := ih _ hm
    have hp := extraerG_perm k e (n + 1) (by omega)
    simp only [Nat.add_sub_cancel] at hp
    refine ⟨List.pairwise_cons.mpr ⟨?_, i1⟩, (List.Perm.cons _ i2).trans hp⟩
    intro a ha
    have ha2 : a ∈ prefijo e (n + 1) := hp.subset (List.mem_cons_of_mem _ (i2.subset ha))
    obtain ⟨j, hj, rfl⟩ := mem_prefijo.mp ha2
    exact monticulo_raiz_minima k e (n + 1) h j hj

theorem insertarG_monticulo {α : Type} (k : α → Int) (e : Nat → α) (tam : Nat) (x : α)
    (h : esMonticulo k e tam) : esMonticulo k (insertarG k e tam x) (tam + 1) := by
  unfold insertarG
  apply subirG_monticulo k (tam + 1) tam _ tam (le_refl _) (by omega)
  · intro j hj0 hjt hjn
    rw [Function.update_noteq (by omega), Function.update_noteq hjn]
    exact h j hj0 (by omega)
  · intro j _ _ _ _
    omega

theorem insertarG_perm {α : Type} (k : α → Int) (e : Nat → α) (tam : Nat) (x : α) :
    (prefijo (insertarG k e tam x) (tam + 1)).Perm (x :: prefijo e tam) := by
  unfold insertarG
  refine (subirG_perm k (tam + 1) tam _ tam (by omega)).trans ?_
  rw [prefijo_succ, Function.update_same]
  have : prefijo (Function.update e tam x) tam = prefijo e tam :=
    prefijo_congr (fun j hj => Function.update_noteq (by omega) _ _)
  rw [this]
  exact List.perm_append_singleton _ _

theorem insertarG_fuera {α : Type} (k : α → Int) (e : Nat → α) (tam : Nat) (x : α) (j : Nat)
    (hj : tam < j) : insertarG k e tam x j = e j := by
  unfold insertarG
  rw [subirG_fuera k _ _ _ _ hj, Function.update_noteq (by omega)]

/-! ## Flight manager: the heap of departures -/

namespace GestorVuelo

theorem subir_eq_subirG :
    ∀ (n : Nat) (e : Nat → Salida) (i : Nat),
      subir n e i = subirG (fun s => s.clave_salida) n e i := by
  intro n
  induction n with
  | zero => intro e i; rfl
  | succ n ih =>
    intro e i
    simp only [subir, subirG, gt_iff_lt, ih]

theorem min_heapify_aux_eq_bajarG :
    ∀ (n : Nat) (e : Nat → Salida) (tamano : Int) (i : Nat),
      min_heapify_aux n e tamano i = bajarG (fun s => s.clave_salida) n e tamano.toNat i := by
  intro n
  induction n with
  | zero => intro e tamano i; rfl
  | succ n ih =>
    intro e tamano i
    simp only [min_heapify_aux, bajarG, ih, Int.lt_toNat]

theorem insertar_heap_tamano (heap : Heap) (s : Salida) :
    (insertar_heap heap s).tamano = heap.tamano + 1 := by
  unfold insertar_heap redimensionar_heap
  split_ifs <;> rfl

theorem insertar_heap_capacidad (heap : Heap) (s : Salida) :
    (insertar_heap heap s).capacidad
      = if heap.tamano < heap.capacidad then heap.capacidad else heap.capacidad * 2 := by
  unfold insertar_heap redimensionar_heap REDIMENSION_FACTOR
  split_ifs <;> rfl

theorem insertar_heap_elementos (heap : Heap) (s : Salida) :
    (insertar_heap heap s).elementos
      = insertarG (fun s => s.clave_salida) heap.elementos heap.tamano.toNat s := by
  unfold insertar_heap redimensionar_heap insertarG
  split_ifs <;> simp only [add_sub_cancel_right, subir_eq_subirG]

theorem extraer_min_heap_vacio (heap : Heap) (h : heap.tamano ≤ 0) :
    extraer_min_heap heap = (heap, { vuelo := none, clave_salida := 0 }) := by
  unfold extraer_min_heap
  rw [if_pos h]

theorem extraer_min_heap_no_vacio (heap : Heap) (h : 0 < heap.tamano) :
    (extraer_min_heap heap).2 = heap.elementos 0 ∧
    (extraer_min_heap heap).1.tamano = heap.tamano - 1 ∧
    (extraer_min_heap heap).1.capacidad = heap.capacidad ∧
    (extraer_min_heap heap).1.elementos
      = extraerG (fun s => s.clave_salida) heap.elementos heap.tamano.toNat := by
  unfold extraer_min_heap
  rw [if_neg (by omega)]
  refine ⟨rfl, rfl, rfl, ?_⟩
  simp only [min_heapify, min_heapify_aux_eq_bajarG, extraerG]
  have : (heap.tamano - 1).toNat = heap.tamano.toNat - 1 := by omega
  rw [this]

theorem esMinHeap_iff (heap : Heap) :
    esMinHeap heap ↔ esMonticulo (fun s => s.clave_salida) heap.elementos heap.tamano.toNat := by
  rw [← ordenHijos_iff]
  unfold esMinHeap ordenHijos
  constructor
  · intro h i hi
    have := h i (by omega)
    exact ⟨fun a => this.1 (by omega), fun a => this.2 (by omega)⟩
  · intro h i hi
    have := h i (by omega)
    exact ⟨fun a => this.1 (by omega), fun a => this.2 (by omega)⟩

theorem heapAlcanzable_invariante {heap : Heap} (h : HeapAlcanzable heap) :
    0 ≤ heap.tamano ∧ heap.tamano ≤ heap.capacidad ∧ 1 ≤ heap.capacidad ∧
      esMonticulo (fun s => s.clave_salida) heap.elementos heap.tamano.toNat := by
  induction h with
  | vacio e c hc =>
    refine ⟨le_refl _, by simp only; omega, hc, ?_⟩
    intro j hj0 hjt
    simp at hjt
  | @insertar heap s _ ih =>
    obtain ⟨h0, h1, h2, h3⟩ := ih
    rw [insertar_heap_tamano, insertar_heap_capacidad, insertar_heap_elementos]
    have ht : (heap.tamano + 1).toNat = heap.tamano.toNat + 1 := by omega
    rw [ht]
    refine ⟨by omega, ?_, ?_, insertarG_monticulo _ _ _ _ h3⟩
    · split_ifs <;> omega
    · split_ifs <;> omega
  | @extraer heap _ ih =>
    obtain ⟨h0, h1, h2, h3⟩ := ih
    by_cases hv : heap.tamano ≤ 0
    · rw [extraer_min_heap_vacio heap hv]
      exact ⟨h0, h1, h2, h3⟩
    · obtain ⟨_, e2, e3, e4⟩ := extraer_min_heap_no_vacio heap (by omega)
      rw [e2, e3, e4]
      have ht : (heap.tamano - 1).toNat = heap.tamano.toNat - 1 := by omega
      rw [ht]
      exact ⟨by omega, by omega, h2, extraerG_monticulo _ _ _ h3⟩

/-- C12. Every heap reachable from an empty heap (`tamano = 0`, `capacidad ≥ 1`)
by calls of `insertar_heap` and `extraer_min_heap` is in min-heap order: each
entry at a position `i` below `tamano` has a key less than or equal to the keys
at `2i+1` and `2i+2` whenever those positions are below `tamano`. -/
theorem c12_monticulo_de_minimos (heap : Heap) (h : HeapAlcanzable heap) : esMinHeap heap :=
  (esMinHeap_iff heap).mpr (heapAlcanzable_invariante h).2.2.2

/-- C12 on the heap obtained by inserting the keys 50, 20, 80, 10 and
extracting once. -/
theorem c12_monticulo_de_minimos_testigo :
    esMinHeap (extraer_min_heap (insertar_heap (insertar_heap (insertar_heap (insertar_heap
      inicial.monticulo_salidas (salidaDe 50)) (salidaDe 20)) (salidaDe 80)) (salidaDe 10))).1 :=
  c12_monticulo_de_minimos _
    (HeapAlcanzable.extraer (HeapAlcanzable.insertar _ (HeapAlcanzable.insertar _
      (HeapAlcanzable.insertar _ (HeapAlcanzable.insertar _
        (HeapAlcanzable.vacio _ MAX_NODOS (by decide)))))))

end GestorVuelo

namespace GestorVuelo

theorem entradas_insertar_heap (heap : Heap) (s : Salida) (h0 : 0 ≤ heap.tamano) :
    (entradas (insertar_heap heap s)).Perm (s :: entradas heap) := by
  unfold entradas
  rw [insertar_heap_tamano, insertar_heap_elementos]
  have ht : (heap.tamano + 1).toNat = heap.tamano.toNat + 1 := by omega
  rw [ht]
  exact insertarG_perm _ _ _ _

theorem insertar_todas_spec (l : List Salida) :
    ∀ heap : Heap, HeapAlcanzable heap →
      HeapAlcanzable (insertar_todas heap l) ∧
      (insertar_todas heap l).tamano = heap.tamano + l.length ∧
      (entradas (insertar_todas heap l)).Perm (l ++ entradas heap) := by
  induction l with
  | nil => intro heap h; exact ⟨h, by simp [insertar_todas], by simp [insertar_todas]⟩
  | cons x l ih =>
    intro heap h
    obtain ⟨i1, i2, i3⟩ := ih (insertar_heap heap x) (HeapAlcanzable.insertar x h)
    have h0 := (heapAlcanzable_invariante h).1
    refine ⟨i1, ?_, ?_⟩
    · show (insertar_todas (insertar_heap heap x) l).tamano = _
      rw [i2, insertar_heap_tamano, List.length_cons]
      push_cast
      omega
    · show (entradas (insertar_todas (insertar_heap heap x) l)).Perm _
      refine i3.trans ?_
      refine (List.Perm.append_left l (entradas_insertar_heap heap x h0)).trans ?_
      simp only [List.cons_append]
      exact List.perm_middle

theorem extraer_varias_spec :
    ∀ (n : Nat) (heap : Heap), (n : Int) ≤ heap.tamano →
      (extraer_varias n heap).2
        = drenarG (fun s => s.clave_salida) n heap.elementos heap.tamano.toNat ∧
      (extraer_varias n heap).1.tamano = heap.tamano - n := by
  intro n
  induction n with
  | zero => intro heap _; simp [extraer_varias, drenarG]
  | succ n ih =>
    intro heap hn
    obtain ⟨e1, e2, _, e4⟩ := extraer_min_heap_no_vacio heap (by omega)
    obtain ⟨i1, i2⟩ := ih (extraer_min_heap heap).1 (by rw [e2]; omega)
    have ht : (heap.tamano - 1).toNat = heap.tamano.toNat - 1 := by omega
    constructor
    · simp only [extraer_varias, drenarG, i1, e1, e2, e4, ht]
    · simp only [extraer_varias, i2, e2]
      push_cast
      omega

theorem heapsort_bucle_eq :
    ∀ (n : Nat) (heap : Heap), heapsort_bucle n heap = (extraer_varias n heap).2 := by
  intro n
  induction n with
  | zero => intro heap; rfl
  | succ n ih => intro heap; simp only [heapsort_bucle, extraer_varias, ih]

/-- C13. Inserting the entries of any list into an empty heap with
`insertar_heap` and then calling `extraer_min_heap` once per entry returns the
entries in non-decreasing key order, the returned entries are a permutation of
the inserted ones, and the heap is empty afterwards. -/
theorem c13_extraccion_en_orden (elementos : Nat → Salida) (capacidad : Int)
    (hc : 1 ≤ capacidad) (l : List Salida) :
    (extraer_varias l.length (insertar_todas
      { elementos := elementos, capacidad := capacidad, tamano := 0 } l)).2.Pairwise
        (fun a b => a.clave_salida ≤ b.clave_salida) ∧
    (extraer_varias l.length (insertar_todas
      { elementos := elementos, capacidad := capacidad, tamano := 0 } l)).2.Perm l ∧
    (extraer_varias l.length (insertar_todas
      { elementos := elementos, capacidad := capacidad, tamano := 0 } l)).1.tamano = 0 := by
  obtain ⟨h1, h2, h3⟩ := insertar_todas_spec l _ (HeapAlcanzable.vacio elementos capacidad hc)
  simp only [zero_add] at h2
  obtain ⟨e1, e2⟩ := extraer_varias_spec l.length _ (le_of_eq h2.symm)
  have hm := (heapAlcanzable_invariante h1).2.2.2
  have ht : (insertar_todas { elementos := elementos, capacidad := capacidad, tamano := 0 }
      l).tamano.toNat = l.length := by rw [h2]; simp
  rw [ht] at e1 hm
  obtain ⟨d1, d2⟩ := drenarG_ordenado (fun s : Salida => s.clave_salida) l.length _ hm
  rw [e1]
  refine ⟨d1, ?_, by rw [e2, h2]; simp⟩
  refine d2.trans ?_
  unfold entradas at h3
  rw [ht] at h3
  simpa [prefijo] using h3

/-- C13 on the example of the specification: the keys 50, 20, 80, 10 come out
as 10, 20, 50, 80 and the heap is left empty. -/
theorem c13_extraccion_en_orden_testigo :
    (extraer_varias 4 (insertar_todas inicial.monticulo_salidas
      [salidaDe 50, salidaDe 20, salidaDe 80, salidaDe 10])).2
      = [salidaDe 10, salidaDe 20, salidaDe 50, salidaDe 80] ∧
    (extraer_varias 4 (insertar_todas inicial.monticulo_salidas
      [salidaDe 50, salidaDe 20, salidaDe 80, salidaDe 10])).1.tamano = 0 :=
  ⟨by decide,
   (c13_extraccion_en_orden (fun _ => { vuelo := none, clave_salida := 0 }) MAX_NODOS
     (by decide) [salidaDe 50, salidaDe 20, salidaDe 80, salidaDe 10]).2.2⟩

/-- C15. The function `heapsort_y_mostrar` leaves the live heap as it was:
`tamano`, `capacidad` and every stored entry are the same after the call, so
any later sequence of `extraer_min_heap` calls returns what it would have
returned without it. What it prints is exactly what the next `tamano` calls of
`extraer_min_heap` on the live heap return. -/
theorem c15_heapsort_no_altera_el_heap (basura : Nat → Salida) (heap : Heap) :
    (heapsort_y_mostrar basura heap).1.tamano = heap.tamano ∧
    (heapsort_y_mostrar basura heap).1.capacidad = heap.capacidad ∧
    (∀ i, (heapsort_y_mostrar basura heap).1.elementos i = heap.elementos i) ∧
    (∀ n, (extraer_varias n (heapsort_y_mostrar basura heap).1).2 = (extraer_varias n heap).2) ∧
    (heapsort_y_mostrar basura heap).2 = (extraer_varias heap.tamano.toNat heap).2 := by
  have h1 : (heapsort_y_mostrar basura heap).1 = heap := by
    unfold heapsort_y_mostrar
    split_ifs <;> rfl
  refine ⟨by rw [h1], by rw [h1], fun i => by rw [h1], fun n => by rw [h1], ?_⟩
  unfold heapsort_y_mostrar
  split_ifs with h0
  · rw [h0]; rfl
  · simp only
    by_cases hneg : heap.tamano < 0
    · have : heap.tamano.toNat = 0 := by omega
      rw [this]; rfl
    · rw [heapsort_bucle_eq]
      have hle : ((heap.tamano.toNat : Nat) : Int) ≤ heap.tamano := by omega
      have hT := (extraer_varias_spec heap.tamano.toNat
        { elementos := fun i => if (i : Int) < heap.tamano then heap.elementos i else basura i
          capacidad := heap.tamano
          tamano := heap.tamano } hle).1
      rw [(extraer_varias_spec heap.tamano.toNat heap hle).1, hT]
      apply drenarG_congr _ _ _ _ _ (le_refl _)
      intro j hj
      have : (j : Int) < heap.tamano := by omega
      simp only [this, if_true]

/-- C18. In every heap reachable from `tamano = 0`, `capacidad ≥ 1` by calls of
`insertar_heap` and `extraer_min_heap`, `0 ≤ tamano ≤ capacidad`; a further
`insertar_heap` raises `tamano` by exactly one, doubles `capacidad` exactly
when `tamano` equalled `capacidad`, and keeps all entries: the entries
afterwards are the previous ones plus the new one. -/
theorem c18_tamano_y_capacidad (heap : Heap) (h : HeapAlcanzable heap) :
    0 ≤ heap.tamano ∧ heap.tamano ≤ heap.capacidad ∧
    ∀ s : Salida,
      (insertar_heap heap s).tamano = heap.tamano + 1 ∧
      ((insertar_heap heap s).capacidad = 2 * heap.capacidad ↔ heap.tamano = heap.capacidad) ∧
      (heap.tamano ≠ heap.capacidad → (insertar_heap heap s).capacidad = heap.capacidad) ∧
      (entradas (insertar_heap heap s)).Perm (s :: entradas heap) := by
  obtain ⟨h0, h1, h2, _⟩ := heapAlcanzable_invariante h
  refine ⟨h0, h1, fun s => ⟨insertar_heap_tamano heap s, ?_, ?_, entradas_insertar_heap heap s h0⟩⟩
  · rw [insertar_heap_capacidad]
    split_ifs <;> constructor <;> intro <;> omega
  · intro hne
    rw [insertar_heap_capacidad, if_pos (by omega)]

/-- C18 on the heap of `main` after one insertion. -/
theorem c18_tamano_y_capacidad_testigo :
    0 ≤ (insertar_heap inicial.monticulo_salidas (salidaDe 50)).tamano ∧
    (insertar_heap inicial.monticulo_salidas (salidaDe 50)).tamano
      ≤ (insertar_heap inicial.monticulo_salidas (salidaDe 50)).capacidad :=
  have h := c18_tamano_y_capacidad (insertar_heap inicial.monticulo_salidas (salidaDe 50))
    (HeapAlcanzable.insertar _ (HeapAlcanzable.vacio _ MAX_NODOS (by decide)))
  ⟨h.1, h.2.1⟩

/-- C19. On a heap with `tamano ≤ 0`, `extraer_min_heap` returns the empty
entry (`vuelo = NULL`, `clave_salida = 0`) and leaves `tamano`, `capacidad` and
the stored entries as they were. -/
theorem c19_extraer_de_heap_vacio (heap : Heap) (h : heap.tamano ≤ 0) :
    (extraer_min_heap heap).2 = { vuelo := none, clave_salida := 0 } ∧
    (extraer_min_heap heap).1.tamano = heap.tamano ∧
    (extraer_min_heap heap).1.capacidad = heap.capacidad ∧
    (extraer_min_heap heap).1.elementos = heap.elementos := by
  rw [extraer_min_heap_vacio heap h]
  exact ⟨rfl, rfl, rfl, rfl⟩

/-- C19 on the heap of `main` before any insertion. -/
theorem c19_extraer_de_heap_vacio_testigo :
    (extraer_min_heap inicial.monticulo_salidas).2 = { vuelo := none, clave_salida := 0 } ∧
    (extraer_min_heap inicial.monticulo_salidas).1.tamano = 0 :=
  have h := c19_extraer_de_heap_vacio inicial.monticulo_salidas (by decide)
  ⟨h.1, h.2.1⟩

end GestorVuelo

/-! ## Drone manager: the heap of missions -/

namespace GestorDrones

theorem heapifyUpDesde_eq_subirG :
    ∀ (n : Nat) (e : Nat → ElementoHeap) (i : Nat),
      heapifyUpDesde n e i = subirG (fun x => - x.prioridad) n e i := by
  intro n
  induction n with
  | zero => intro e i; rfl
  | succ n ih =>
    intro e i
    simp only [heapifyUpDesde, subirG, ih, neg_lt_neg_iff, gt_iff_lt]
    by_cases h1 : 0 < i
    · by_cases h2 : (e ((i - 1) / 2)).prioridad < (e i).prioridad
      · rw [if_pos h1, if_pos h2, if_pos ⟨by omega, h2⟩]
      · rw [if_pos h1, if_neg h2, if_neg (fun h => h2 h.2)]
    · rw [if_neg h1, if_neg (fun h => h1 (by omega))]

theorem heapifyDownDesde_eq_bajarG :
    ∀ (n : Nat) (e : Nat → ElementoHeap) (tamano : Int) (i : Nat),
      heapifyDownDesde n e tamano i = bajarG (fun x => - x.prioridad) n e tamano.toNat i := by
  intro n
  induction n with
  | zero => intro e tamano i; rfl
  | succ n ih =>
    intro e tamano i
    simp only [heapifyDownDesde, bajarG, ih, Int.lt_toNat, neg_lt_neg_iff, gt_iff_lt, ne_eq,
      ite_not]

theorem insertarHeap_spec (heap : MaxHeap) (x : ElementoHeap) :
    (insertarHeap heap x).tamano = heap.tamano + 1 ∧
    (insertarHeap heap x).elementos
      = insertarG (fun x => - x.prioridad) heap.elementos heap.tamano.toNat x := by
  unfold insertarHeap heapifyUp redimensionarHeap insertarG
  split_ifs <;> simp only [heapifyUpDesde_eq_subirG, and_self]

theorem extraerMaxHeap_vacio (heap : MaxHeap) (h : heap.tamano = 0) :
    extraerMaxHeap heap = (heap, { indice_dron := POS_VACIA, prioridad := POS_VACIA }) := by
  unfold extraerMaxHeap
  rw [if_pos h]

theorem extraerMaxHeap_no_vacio (heap : MaxHeap) (h : 0 < heap.tamano) :
    (extraerMaxHeap heap).2 = heap.elementos 0 ∧
    (extraerMaxHeap heap).1.tamano = heap.tamano - 1 ∧
    (extraerMaxHeap heap).1.capacidad = heap.capacidad ∧
    (extraerMaxHeap heap).1.elementos
      = extraerG (fun x => - x.prioridad) heap.elementos heap.tamano.toNat := by
  unfold extraerMaxHeap
  rw [if_neg (by omega)]
  simp only
  by_cases h1 : heap.tamano - 1 > 0
  · rw [if_pos h1]
    refine ⟨rfl, rfl, rfl, ?_⟩
    simp only [heapifyDown, heapifyDownDesde_eq_bajarG, extraerG]
    have : (heap.tamano - 1).toNat = heap.tamano.toNat - 1 := by omega
    rw [this]
  · rw [if_neg h1]
    refine ⟨rfl, rfl, rfl, ?_⟩
    have : heap.tamano.toNat = 1 := by omega
    simp only [extraerG, this, Nat.sub_self, bajarG, Function.update_eq_self]

theorem esMaxHeap_iff (heap : MaxHeap) :
    esMaxHeap heap ↔ esMonticulo (fun x => - x.prioridad) heap.elementos heap.tamano.toNat := by
  rw [← ordenHijos_iff]
  unfold esMaxHeap ordenHijos
  constructor
  · intro h i hi
    have := h i (by omega)
    exact ⟨fun a => neg_le_neg (this.1 (by omega)), fun a => neg_le_neg (this.2 (by omega))⟩
  · intro h i hi
    have := h i (by omega)
    exact ⟨fun a => neg_le_neg_iff.mp (this.1 (by omega)),
      fun a => neg_le_neg_iff.mp (this.2 (by omega))⟩

theorem maxHeapAlcanzable_invariante {heap : MaxHeap} (h : MaxHeapAlcanzable heap) :
    0 ≤ heap.tamano ∧
      esMonticulo (fun x => - x.prioridad) heap.elementos heap.tamano.toNat := by
  induction h with
  | crear b c _ =>
    refine ⟨le_refl _, ?_⟩
    intro j _ hjt
    simp [crearMaxHeap] at hjt
  | @insertar heap x _ ih =>
    obtain ⟨h0, h1⟩ := ih
    obtain ⟨e1, e2⟩ := insertarHeap_spec heap x
    rw [e1, e2]
    have ht : (heap.tamano + 1).toNat = heap.tamano.toNat + 1 := by omega
    rw [ht]
    exact ⟨by omega, insertarG_monticulo _ _ _ _ h1⟩
  | @extraer heap _ ih =>
    obtain ⟨h0, h1⟩ := ih
    by_cases hv : heap.tamano = 0
    · rw [extraerMaxHeap_vacio heap hv]
      exact ⟨h0, h1⟩
    · obtain ⟨_, e2, _, e4⟩ := extraerMaxHeap_no_vacio heap (by omega)
      rw [e2, e4]
      have ht : (heap.tamano - 1).toNat = heap.tamano.toNat - 1 := by omega
      rw [ht]
      exact ⟨by omega, extraerG_monticulo _ _ _ h1⟩

/-- C14. Every heap reachable from `crearMaxHeap(c)`, `c ≥ 1`, by calls of
`insertarHeap` and `extraerMaxHeap` is in max-heap order: each entry at a
position `i` below `tamano` has a priority greater than or equal to the
priorities at `2i+1` and `2i+2` whenever those positions are below `tamano`. -/
theorem c14_monticulo_de_maximos (heap : MaxHeap) (h : MaxHeapAlcanzable heap) :
    esMaxHeap heap :=
  (esMaxHeap_iff heap).mpr (maxHeapAlcanzable_invariante h).2

/-- C14 on the heap obtained by inserting the priorities 50, 90, 75 and
extracting once. -/
theorem c14_monticulo_de_maximos_testigo :
    esMaxHeap (extraerMaxHeap (insertarHeap (insertarHeap (insertarHeap inicial.heap
      { indice_dron := 0, prioridad := 50 }) { indice_dron := 1, prioridad := 90 })
      { indice_dron := 2, prioridad := 75 })).1 :=
  c14_monticulo_de_maximos _
    (MaxHeapAlcanzable.extraer (MaxHeapAlcanzable.insertar _ (MaxHeapAlcanzable.insertar _
      (MaxHeapAlcanzable.insertar _ (MaxHeapAlcanzable.crear _ MAX_HEAP (by decide))))))

/-- C20. On every heap reachable by `insertarHeap` and `extraerMaxHeap`,
`consultarMaxHeap` (which only reads the heap) returns the entry
(`POS_VACIA`, `POS_VACIA`) when `tamano = 0`; otherwise it returns an entry
whose priority is greater than or equal to that of every entry of the heap,
and it is the entry that an immediately following `extraerMaxHeap` returns. -/
theorem c20_consultar_devuelve_el_maximo (heap : MaxHeap) (h : MaxHeapAlcanzable heap) :
    (heap.tamano = 0 →
      consultarMaxHeap heap = { indice_dron := POS_VACIA, prioridad := POS_VACIA }) ∧
    (heap.tamano ≠ 0 →
      (∀ i : Nat, (i : Int) < heap.tamano →
        (heap.elementos i).prioridad ≤ (consultarMaxHeap heap).prioridad) ∧
      (∀ x ∈ entradas heap, x.prioridad ≤ (consultarMaxHeap heap).prioridad) ∧
      consultarMaxHeap heap ∈ entradas heap) ∧
    (extraerMaxHeap heap).2 = consultarMaxHeap heap := by
  obtain ⟨h0, hm⟩ := maxHeapAlcanzable_invariante h
  have hmax : heap.tamano ≠ 0 → ∀ i : Nat, (i : Int) < heap.tamano →
      (heap.elementos i).prioridad ≤ (consultarMaxHeap heap).prioridad := by
    intro hne i hi
    have := monticulo_raiz_minima _ _ _ hm i (by omega)
    simp only [consultarMaxHeap, if_neg hne]
    simp only at this
    omega
  refine ⟨fun hz => by simp [consultarMaxHeap, hz], fun hne => ⟨hmax hne, ?_, ?_⟩, ?_⟩
  · intro x hx
    obtain ⟨j, hj, rfl⟩ := mem_prefijo.mp hx
    exact hmax hne j (by omega)
  · simp only [consultarMaxHeap, if_neg hne]
    exact mem_prefijo.mpr ⟨0, by omega, rfl⟩
  · by_cases hz : heap.tamano = 0
    · rw [extraerMaxHeap_vacio heap hz]
      simp [consultarMaxHeap, hz]
    · rw [(extraerMaxHeap_no_vacio heap (by omega)).1]
      simp [consultarMaxHeap, hz]

/-- C20 on the heap obtained by inserting the priorities 50, 90, 75: the entry
consulted is the one of priority 90, which the next extraction returns. -/
theorem c20_consultar_devuelve_el_maximo_testigo :
    consultarMaxHeap (insertarHeap (insertarHeap (insertarHeap inicial.heap
      { indice_dron := 0, prioridad := 50 }) { indice_dron := 1, prioridad := 90 })
      { indice_dron := 2, prioridad := 75 }) = { indice_dron := 1, prioridad := 90 } ∧
    (extraerMaxHeap (insertarHeap (insertarHeap (insertarHeap inicial.heap
      { indice_dron := 0, prioridad := 50 }) { indice_dron := 1, prioridad := 90 })
      { indice_dron := 2, prioridad := 75 })).2
      = consultarMaxHeap (insertarHeap (insertarHeap (insertarHeap inicial.heap
      { indice_dron := 0, prioridad := 50 }) { indice_dron := 1, prioridad := 90 })
      { indice_dron := 2, prioridad := 75 }) :=
  ⟨by decide,
   (c20_consultar_devuelve_el_maximo _
     (MaxHeapAlcanzable.insertar _ (MaxHeapAlcanzable.insertar _
      (MaxHeapAlcanzable.insertar _ (MaxHeapAlcanzable.crear _ MAX_HEAP (by decide)))))).2.2⟩

end GestorDrones

/-! ## Train manager: the heap of operations -/

namespace GestorTrenes

theorem subir_tren_eq_subirG :
    ∀ (n : Nat) (e : Nat → Operacion) (i : Nat),
      subir n e i = subirG (fun x => - x.clave_prioridad) n e i := by
  intro n
  induction n with
  | zero => intro e i; rfl
  | succ n ih =>
    intro e i
    simp only [subir, subirG, ih, neg_lt_neg_iff, gt_iff_lt]
    by_cases h1 : 0 < i
    · by_cases h2 : (e ((i - 1) / 2)).clave_prioridad < (e i).clave_prioridad
      · rw [if_pos ⟨h1, h2⟩, if_pos ⟨by omega, h2⟩]
      · rw [if_neg (fun h => h2 h.2), if_neg (fun h => h2 h.2)]
    · rw [if_neg (fun h => h1 h.1), if_neg (fun h => h1 (by omega))]

theorem max_heapify_aux_eq_bajarG :
    ∀ (n : Nat) (e : Nat → Operacion) (tamano : Int) (i : Nat),
      max_heapify_aux n e tamano i
        = bajarG (fun x => - x.clave_prioridad) n e tamano.toNat i := by
  intro n
  induction n with
  | zero => intro e tamano i; rfl
  | succ n ih =>
    intro e tamano i
    simp only [max_heapify_aux, bajarG, ih, Int.lt_toNat, neg_lt_neg_iff, gt_iff_lt, ne_eq,
      ite_not]

theorem insertar_heap_tren_spec (heap : Heap) (nueva_op : Operacion)
    (h : heap.tamano < MAX_HEAP) :
    (insertar_heap heap nueva_op).tamano = heap.tamano + 1 ∧
    (insertar_heap heap nueva_op).elementos
      = insertarG (fun x => - x.clave_prioridad) heap.elementos heap.tamano.toNat nueva_op := by
  unfold insertar_heap insertarG
  rw [if_neg (by omega)]
  simp only [subir_tren_eq_subirG, and_self]

theorem insertar_heap_tren_lleno (heap : Heap) (nueva_op : Operacion)
    (h : MAX_HEAP ≤ heap.tamano) : insertar_heap heap nueva_op = heap := by
  unfold insertar_heap
  rw [if_pos h]

theorem extraer_max_heap_no_vacio (heap : Heap) (h : 0 < heap.tamano) :
    (extraer_max_heap heap).2 = heap.elementos 0 ∧
    (extraer_max_heap heap).1.tamano = heap.tamano - 1 ∧
    (extraer_max_heap heap).1.elementos
      = extraerG (fun x => - x.clave_prioridad) heap.elementos heap.tamano.toNat := by
  unfold extraer_max_heap
  rw [if_neg (by omega)]
  refine ⟨rfl, rfl, ?_⟩
  simp only [max_heapify, max_heapify_aux_eq_bajarG, extraerG]
  have : (heap.tamano - 1).toNat = heap.tamano.toNat - 1 := by omega
  rw [this]

theorem esMaxHeap_tren_iff (heap : Heap) :
    esMaxHeap heap
      ↔ esMonticulo (fun x => - x.clave_prioridad) heap.elementos heap.tamano.toNat := by
  rw [← ordenHijos_iff]
  unfold esMaxHeap ordenHijos
  constructor
  · intro h i hi
    have := h i (by omega)
    exact ⟨fun a => neg_le_neg (this.1 (by omega)), fun a => neg_le_neg (this.2 (by omega))⟩
  · intro h i hi
    have := h i (by omega)
    exact ⟨fun a => neg_le_neg_iff.mp (this.1 (by omega)),
      fun a => neg_le_neg_iff.mp (this.2 (by omega))⟩

theorem heapsort_bucle_tren_eq :
    ∀ (n : Nat) (copia : Heap), (n : Int) ≤ copia.tamano →
      heapsort_bucle n copia
        = drenarG (fun x => - x.clave_prioridad) n copia.elementos copia.tamano.toNat := by
  intro n
  induction n with
  | zero => intro copia _; rfl
  | succ n ih =>
    intro copia hn
    obtain ⟨e1, e2, e3⟩ := extraer_max_heap_no_vacio copia (by omega)
    have ht : (copia.tamano - 1).toNat = copia.tamano.toNat - 1 := by omega
    simp only [heapsort_bucle, drenarG, ih (extraer_max_heap copia).1 (by rw [e2]; omega),
      e1, e2, e3, ht]

/-- C16. For every max-heap of the train manager with `tamano ≥ 1`, the
operations that `heapsort_y_mostrar` lists are in non-increasing
`clave_prioridad` order and are a permutation of the heap's first `tamano`
entries. -/
theorem c16_listado_de_mayor_a_menor (basura : Nat → Operacion) (heap : Heap)
    (hm : esMaxHeap heap) (h1 : 1 ≤ heap.tamano) :
    (heapsort_y_mostrar basura heap).Pairwise
      (fun a b => a.clave_prioridad ≥ b.clave_prioridad) ∧
    (heapsort_y_mostrar basura heap).Perm (entradas heap) := by
  unfold heapsort_y_mostrar
  rw [if_neg (by omega)]
  simp only
  rw [heapsort_bucle_tren_eq _ _ (by simp only; omega)]
  simp only
  have hc : drenarG (fun x : Operacion => - x.clave_prioridad) heap.tamano.toNat
      (fun i => if (i : Int) < heap.tamano then heap.elementos i else basura i)
      heap.tamano.toNat
      = drenarG (fun x : Operacion => - x.clave_prioridad) heap.tamano.toNat heap.elementos
        heap.tamano.toNat := by
    apply drenarG_congr _ _ _ _ _ (le_refl _)
    intro j hj
    have : (j : Int) < heap.tamano := by omega
    simp only [this, if_true]
  rw [hc]
  obtain ⟨d1, d2⟩ := drenarG_ordenado (fun x : Operacion => - x.clave_prioridad)
    heap.tamano.toNat heap.elementos ((esMaxHeap_tren_iff heap).mp hm)
  refine ⟨?_, d2⟩
  refine d1.imp ?_
  intro a b hab
  exact neg_le_neg_iff.mp hab

/-- C16 on the max-heap holding the priorities 90, 50, 75: the listing is 90,
75, 50. -/
theorem c16_listado_de_mayor_a_menor_testigo :
    heapsort_y_mostrar (fun _ => opDe 0) (heapDe [opDe 90, opDe 50, opDe 75])
      = [opDe 90, opDe 75, opDe 50] ∧
    (heapsort_y_mostrar (fun _ => opDe 0) (heapDe [opDe 90, opDe 50, opDe 75])).Pairwise
      (fun a b => a.clave_prioridad ≥ b.clave_prioridad) ∧
    (heapsort_y_mostrar (fun _ => opDe 0) (heapDe [opDe 90, opDe 50, opDe 75])).Perm
      (entradas (heapDe [opDe 90, opDe 50, opDe 75])) :=
  ⟨by decide,
   c16_listado_de_mayor_a_menor (fun _ => opDe 0) (heapDe [opDe 90, opDe 50, opDe 75])
     (by
       intro i hi
       have h3 : i < 3 := by
         have : (i : Int) < 3 := hi
         omega
       interval_cases i <;> decide)
     (by decide)⟩

/-- C17 as stated fails: on a heap that already holds `MAX_HEAP` operations,
`insertar_heap` leaves `tamano` at `MAX_HEAP` and the new operation is not
among the stored entries. -/
theorem c17_heap_lleno_descarta_la_operacion :
    (insertar_heap { elementos := fun _ => opDe 10, tamano := MAX_HEAP } (opDe 5)).tamano
      = MAX_HEAP ∧
    opDe 5 ∉ entradas (insertar_heap { elementos := fun _ => opDe 10, tamano := MAX_HEAP }
      (opDe 5)) ∧
    ¬ (∀ (heap : Heap) (nueva_op : Operacion),
        (insertar_heap heap nueva_op).tamano = heap.tamano + 1 ∧
        nueva_op ∈ entradas (insertar_heap heap nueva_op)) := by
  refine ⟨by decide, ?_, ?_⟩
  · rw [insertar_heap_tren_lleno _ _ (le_refl _)]
    unfold entradas
    rw [mem_prefijo]
    rintro ⟨j, _, hj⟩
    have h5 : opDe 10 = opDe 5 := hj
    revert h5
    decide
  · intro h
    have := (h { elementos := fun _ => opDe 10, tamano := MAX_HEAP } (opDe 5)).1
    revert this
    decide

/-- C17, amended. On a heap with `0 ≤ tamano < MAX_HEAP`, `insertar_heap`
raises `tamano` by one and the new operation is among the first `tamano`
entries afterwards, which are the previous entries plus the new one. On a heap
with `tamano ≥ MAX_HEAP` it leaves the heap as it was. -/
theorem c17_insertar_heap_hasta_el_limite (heap : Heap) (nueva_op : Operacion)
    (h0 : 0 ≤ heap.tamano) :
    (heap.tamano < MAX_HEAP →
      (insertar_heap heap nueva_op).tamano = heap.tamano + 1 ∧
      nueva_op ∈ entradas (insertar_heap heap nueva_op) ∧
      (entradas (insertar_heap heap nueva_op)).Perm (nueva_op :: entradas heap)) ∧
    (MAX_HEAP ≤ heap.tamano → insertar_heap heap nueva_op = heap) := by
  refine ⟨fun hlt => ?_, insertar_heap_tren_lleno heap nueva_op⟩
  obtain ⟨e1, e2⟩ := insertar_heap_tren_spec heap nueva_op hlt
  have hp : (entradas (insertar_heap heap nueva_op)).Perm (nueva_op :: entradas heap) := by
    unfold entradas
    rw [e1, e2]
    have ht : (heap.tamano + 1).toNat = heap.tamano.toNat + 1 := by omega
    rw [ht]
    exact insertarG_perm _ _ _ _
  exact ⟨e1, hp.symm.subset (List.mem_cons_self _ _), hp⟩

/-- C17, amended, on the heap holding the priorities 90 and 50 and a new
operation of priority 75. -/
theorem c17_insertar_heap_hasta_el_limite_testigo :
    (0 : Int) ≤ (heapDe [opDe 90, opDe 50]).tamano ∧
    (heapDe [opDe 90, opDe 50]).tamano < MAX_HEAP ∧
    (insertar_heap (heapDe [opDe 90, opDe 50]) (opDe 75)).tamano
      = (heapDe [opDe 90, opDe 50]).tamano + 1 ∧
    opDe 75 ∈ entradas (insertar_heap (heapDe [opDe 90, opDe 50]) (opDe 75)) ∧
    (entradas (insertar_heap (heapDe [opDe 90, opDe 50]) (opDe 75))).Perm
      (opDe 75 :: entradas (heapDe [opDe 90, opDe 50])) :=
  ⟨by decide, by decide,
   (c17_insertar_heap_hasta_el_limite (heapDe [opDe 90, opDe 50]) (opDe 75) (by decide)).1
     (by decide)⟩

end GestorTrenes

/-! ## Flight manager: exact lookup -/

namespace GestorVuelo

theorem codigo_de_subarbol {t s : Vuelo} (hs : s ∈ subarboles t) :
    ∃ d ∈ recorrer_inorden t, codigoDe s = some d.codigo_vuelo := by
  induction t with
  | nulo => simp [subarboles] at hs
  | nodo p d izq der ihi ihd =>
    simp only [subarboles, List.mem_append, List.mem_cons] at hs
    simp only [recorrer_inorden, List.mem_append, List.mem_cons]
    rcases hs with h | h | h
    · obtain ⟨x, hx, hc⟩ := ihi h
      exact ⟨x, Or.inl hx, hc⟩
    · exact ⟨d, Or.inr (Or.inl rfl), by rw [h]; rfl⟩
    · obtain ⟨x, hx, hc⟩ := ihd h
      exact ⟨x, Or.inr (Or.inr hx), hc⟩

theorem subarbol_de_codigo {t : Vuelo} {k : CStr} (hk : k ∈ codigos t) :
    ∃ s ∈ subarboles t, codigoDe s = some k := by
  induction t with
  | nulo => simp [codigos, recorrer_inorden] at hk
  | nodo p d izq der ihi ihd =>
    simp only [codigos, recorrer_inorden, List.map_append, List.map_cons, List.mem_append,
      List.mem_cons] at hk
    simp only [subarboles, List.mem_append, List.mem_cons]
    rcases hk with h | h | h
    · obtain ⟨s, hs, hc⟩ := ihi h
      exact ⟨s, Or.inl hs, hc⟩
    · exact ⟨.nodo p d izq der, Or.inr (Or.inl rfl), by rw [h]; rfl⟩
    · obtain ⟨s, hs, hc⟩ := ihd h
      exact ⟨s, Or.inr (Or.inr hs), hc⟩

theorem buscar_vuelo_unico {t : Vuelo} (k : CStr) (h : esABB t) :
    ∀ s ∈ subarboles t, codigoDe s = some k → s = buscar_vuelo t k := by
  induction t with
  | nulo => intro s hs; simp [subarboles] at hs
  | nodo p d izq der ihi ihd =>
    obtain ⟨hi, hd, hmi, hmd⟩ := h
    intro s hs hc
    simp only [subarboles, List.mem_append, List.mem_cons] at hs
    simp only [buscar_vuelo]
    rcases hs with hs | hs | hs
    · obtain ⟨x, hx, hcx⟩ := codigo_de_subarbol hs
      have hkx : k = x.codigo_vuelo := by
        rw [hc] at hcx
        exact Option.some.inj hcx
      have hlt : strcmp k d.codigo_vuelo < 0 := hkx ▸ hmi x hx
      rw [if_neg (by omega), if_pos hlt]
      exact ihi hi s hs hc
    · subst hs
      have hkd : d.codigo_vuelo = k := Option.some.inj hc
      rw [if_pos (by rw [hkd]; exact strcmp_self k)]
    · obtain ⟨x, hx, hcx⟩ := codigo_de_subarbol hs
      have hkx : k = x.codigo_vuelo := by
        rw [hc] at hcx
        exact Option.some.inj hcx
      have hgt : strcmp d.codigo_vuelo k < 0 := hkx ▸ hmd x hx
      have hanti := strcmp_antisim d.codigo_vuelo k
      rw [if_neg (by omega), if_neg (by omega)]
      exact ihd hd s hs hc

/-- C21. On a binary search tree of flights (distinct codes), `buscar_vuelo`
returns the node whose `codigo_vuelo` equals `k` when the tree has one: the
pointer returned is a node of the tree, its code is `k`, and it is the only
node with that code. It returns `NULL` when the tree has none. The function
writes nothing: it is a function of the tree. -/
theorem c21_busqueda_exacta (t : Vuelo) (k : CStr) (h : esABB t) :
    (k ∈ codigos t →
      buscar_vuelo t k ∈ subarboles t ∧ codigoDe (buscar_vuelo t k) = some k ∧
      ∀ s ∈ subarboles t, codigoDe s = some k → s = buscar_vuelo t k) ∧
    (k ∉ codigos t → buscar_vuelo t k = .nulo) := by
  refine ⟨fun hk => ?_, buscar_vuelo_ausente t k⟩
  obtain ⟨s, hs, hc⟩ := subarbol_de_codigo hk
  have he := buscar_vuelo_unico k h s hs hc
  rw [← he]
  exact ⟨hs, hc, fun s1 hs1 hc1 => (buscar_vuelo_unico k h s1 hs1 hc1).trans he.symm⟩

/-- C21 on the tree built from B, A, C: looking up C gives the node at address
3, and looking up Z gives `NULL`. -/
theorem c21_busqueda_exacta_testigo :
    esABB (construir [(1, vueloDe "B"), (2, vueloDe "A"), (3, vueloDe "C")]) ∧
    direccion (buscar_vuelo (construir [(1, vueloDe "B"), (2, vueloDe "A"), (3, vueloDe "C")])
      (cad "C")) = some 3 ∧
    codigoDe (buscar_vuelo (construir [(1, vueloDe "B"), (2, vueloDe "A"), (3, vueloDe "C")])
      (cad "C")) = some (cad "C") ∧
    buscar_vuelo (construir [(1, vueloDe "B"), (2, vueloDe "A"), (3, vueloDe "C")]) (cad "Z")
      = .nulo :=
  ⟨by decide, by decide,
   ((c21_busqueda_exacta (construir [(1, vueloDe "B"), (2, vueloDe "A"), (3, vueloDe "C")])
     (cad "C") (by decide)).1 (by decide)).2.1,
   (c21_busqueda_exacta (construir [(1, vueloDe "B"), (2, vueloDe "A"), (3, vueloDe "C")])
     (cad "Z") (by decide)).2 (by decide)⟩

/-- C27 as stated fails: for the date 20251204 and the time 1000 the key
computed in 32-bit `int` arithmetic is 648578088, not 202512041000; dividing it
by 10000 gives 64857 and the remainder is 8088, not the date and the time; and
the departure of 2040-11-01 at 00:00 gets a smaller key than the departure of
2040-10-31 at 23:59. -/
theorem c27_clave_de_salida_desborda :
    clave_de_salida 20251204 1000 = 648578088 ∧
    clave_de_salida 20251204 1000 ≠ 20251204 * 10000 + 1000 ∧
    fecha_y_hora_de (clave_de_salida 20251204 1000) = (64857, 8088) ∧
    clave_de_salida 20401101 0 < clave_de_salida 20401031 2359 := by
  decide

end GestorVuelo

/-! ## Train manager: lookup by destination and filtered listings -/

namespace GestorTrenes

/-- C22 as stated fails: with Madrid/T1 at the root and Sevilla/T2 below it,
`buscar_tren_por_destino(raiz, "Sevilla")` prints the line of T2 and returns
`NULL`. For every tree, the pointer returned is `NULL` whenever the root's
`destino` differs from the one looked up. -/
theorem c22_destino_bajo_la_raiz_devuelve_null :
    buscar_tren_por_destino
        (insertar_tren (insertar_tren .nulo 1 (trenDe "Madrid" "T1" 620)) 2
          (trenDe "Sevilla" "T2" 530)) (cad "Sevilla")
      = ([trenDe "Sevilla" "T2" 530], none) ∧
    ∀ (p : Nat) (d : DatosTren) (izq der : Tren) (destino : CStr),
      d.destino ≠ destino → (buscar_tren_por_destino (.nodo p d izq der) destino).2 = none := by
  refine ⟨by decide, ?_⟩
  intro p d izq der destino hne
  have h : strcmp d.destino destino ≠ 0 := fun h0 => hne (strcmp_eq_zero.mp h0)
  simp only [buscar_tren_por_destino, if_neg h]

/-- C25. For every tree, threshold and cargo type,
`filtrar_por_distancia_minima` lists the trains of the in-order traversal
whose `distancia` is at least the threshold, and `filtrar_por_carga` those
whose `tipo_carga` equals the given string: each listed once per node, in the
order of `recorrer_inorden`. -/
theorem c25_filtros_en_orden (raiz : Tren) (distancia_min : Int) (tipo_carga : CStr) :
    filtrar_por_distancia_minima raiz distancia_min
      = (recorrer_inorden raiz).filter (fun d => decide (d.distancia ≥ distancia_min)) ∧
    filtrar_por_carga raiz tipo_carga
      = (recorrer_inorden raiz).filter (fun d => decide (d.tipo_carga = tipo_carga)) := by
  induction raiz with
  | nulo => exact ⟨rfl, rfl⟩
  | nodo p d izq der ihi ihd =>
    constructor
    · simp only [filtrar_por_distancia_minima, recorrer_inorden, List.filter_append,
        List.filter_cons, ihi.1, ihd.1, List.append_assoc]
      by_cases h : d.distancia ≥ distancia_min
      · simp [h]
      · simp [h]
    · simp only [filtrar_por_carga, recorrer_inorden, List.filter_append, List.filter_cons,
        ihi.2, ihd.2, List.append_assoc]
      by_cases h : d.tipo_carga = tipo_carga
      · simp [h, strcmp_self]
      · have h0 : strcmp d.tipo_carga tipo_carga ≠ 0 := fun h0 => h (strcmp_eq_zero.mp h0)
        simp [h, h0]

end GestorTrenes

/-! ## Train exercise: lookup -/

namespace Examen01

/-- C23 as stated fails: after inserting T1 (destination Madrid) and T2
(destination Barcelona), the tree contains a train with `id_tren` T2, and
`buscar_tren(raiz, "T2")` returns `NULL`. -/
theorem c23_busqueda_por_id_en_arbol_por_destino :
    cad "T2" ∈ (recorrer_inorden (insertar_tren (insertar_tren .nulo 1 (trenDe "T1" "Madrid")) 2
      (trenDe "T2" "Barcelona"))).map (fun d => d.id_tren) ∧
    buscar_tren (insertar_tren (insertar_tren .nulo 1 (trenDe "T1" "Madrid")) 2
      (trenDe "T2" "Barcelona")) (cad "T2") = .nulo := by
  decide

end Examen01

/-! ## Drone manager: membership in the heap of missions -/

namespace GestorDrones

/-- C24. For every heap and index, `dronEnHeap` returns 1 exactly when some
entry at a position below `tamano` has that `indice_dron`; its result depends
only on `tamano` and the entries below it; and the copy that `extraerMaxHeap`
leaves at position 0 when it takes the only entry is not matched. -/
theorem c24_dron_en_heap (heap : MaxHeap) (indice_dron : Int) :
    (dronEnHeap heap indice_dron = true ↔
      ∃ i : Nat, (i : Int) < heap.tamano ∧ (heap.elementos i).indice_dron = indice_dron) ∧
    (∀ otro : MaxHeap, otro.tamano = heap.tamano →
      (∀ i : Nat, (i : Int) < heap.tamano → otro.elementos i = heap.elementos i) →
      dronEnHeap otro indice_dron = dronEnHeap heap indice_dron) ∧
    (heap.tamano = 1 →
      (extraerMaxHeap heap).1.elementos 0 = heap.elementos 0 ∧
      dronEnHeap (extraerMaxHeap heap).1 (heap.elementos 0).indice_dron = false) := by
  have hiff : ∀ h : MaxHeap, (dronEnHeap h indice_dron = true ↔
      ∃ i : Nat, (i : Int) < h.tamano ∧ (h.elementos i).indice_dron = indice_dron) := by
    intro h
    unfold dronEnHeap
    simp only [List.any_eq_true, List.mem_range, decide_eq_true_eq]
    constructor
    · rintro ⟨i, hi, he⟩
      exact ⟨i, by omega, he⟩
    · rintro ⟨i, hi, he⟩
      exact ⟨i, by omega, he⟩
  refine ⟨hiff heap, ?_, ?_⟩
  · intro otro ht he
    rw [Bool.eq_iff_iff, hiff otro, hiff heap, ht]
    constructor
    · rintro ⟨i, hi, h⟩
      exact ⟨i, hi, by rw [← he i hi]; exact h⟩
    · rintro ⟨i, hi, h⟩
      exact ⟨i, hi, by rw [he i hi]; exact h⟩
  · intro h1
    have hne : heap.tamano ≠ 0 := by omega
    have hx : extraerMaxHeap heap = ({ heap with tamano := heap.tamano - 1 }, heap.elementos 0) := by
      unfold extraerMaxHeap
      rw [if_neg hne]
      simp only
      rw [if_neg (by omega)]
    rw [hx]
    refine ⟨rfl, ?_⟩
    unfold dronEnHeap
    simp [h1]

end GestorDrones

/-! ## Drone manager: registration of a new key -/

namespace GestorDrones

theorem compararDrones_eq_zero_iff (a b : Dron) : compararDrones a b = 0 ↔ clave a = clave b := by
  unfold compararDrones clave
  simp only [Prod.mk.injEq]
  by_cases h : strcmp a.zona_entrega b.zona_entrega = 0
  · rw [if_neg (not_not.mpr h)]
    constructor
    · intro hi
      exact ⟨strcmp_eq_zero.mp h, strcmp_eq_zero.mp hi⟩
    · intro hi
      exact strcmp_eq_zero.mpr hi.2
  · rw [if_pos h]
    constructor
    · intro hz
      exact absurd hz h
    · intro hz
      exact absurd (strcmp_eq_zero.mpr hz.1) h

theorem sinEnlaces_ponerIzquierdo (abb : ABB) (i v k : Int) :
    sinEnlaces ((ponerIzquierdo abb i v).elementos k) = sinEnlaces (abb.elementos k) := by
  by_cases h : k = i
  · subst h; rw [ponerIzquierdo_mismo]; rfl
  · rw [ponerIzquierdo_otro abb v h]

theorem sinEnlaces_ponerDerecho (abb : ABB) (i v k : Int) :
    sinEnlaces ((ponerDerecho abb i v).elementos k) = sinEnlaces (abb.elementos k) := by
  by_cases h : k = i
  · subst h; rw [ponerDerecho_mismo]; rfl
  · rw [ponerDerecho_otro abb v h]

theorem insertarRecursivoABB_datos :
    ∀ (n : Nat) (abb : ABB) (i nuevo : Int) (res : ABB × Int),
      insertarRecursivoABB n abb i nuevo = some res →
      (∀ k, sinEnlaces (res.1.elementos k) = sinEnlaces (abb.elementos k)) ∧
      res.1.tamano = abb.tamano ∧ res.1.siguiente_libre = abb.siguiente_libre ∧
      res.1.raiz = abb.raiz := by
  intro n
  induction n with
  | zero => intro abb i nuevo res h; simp [insertarRecursivoABB] at h
  | succ n ih =>
    intro abb i nuevo res h
    simp only [insertarRecursivoABB] at h
    split_ifs at h with h1 h2 h3
    · cases h; exact ⟨fun _ => rfl, rfl, rfl, rfl⟩
    · cases hrec : insertarRecursivoABB n abb (abb.elementos i).izquierdo nuevo with
      | none => simp [hrec] at h
      | some res1 =>
        obtain ⟨abb1, r1⟩ := res1
        simp only [hrec, Option.some.injEq] at h
        subst h
        obtain ⟨e1, e2, e3, e4⟩ := ih _ _ _ _ hrec
        exact ⟨fun k => by rw [sinEnlaces_ponerIzquierdo]; exact e1 k, e2, e3, e4⟩
    · cases hrec : insertarRecursivoABB n abb (abb.elementos i).derecho nuevo with
      | none => simp [hrec] at h
      | some res1 =>
        obtain ⟨abb1, r1⟩ := res1
        simp only [hrec, Option.some.injEq] at h
        subst h
        obtain ⟨e1, e2, e3, e4⟩ := ih _ _ _ _ hrec
        exact ⟨fun k => by rw [sinEnlaces_ponerDerecho]; exact e1 k, e2, e3, e4⟩
    · cases h; exact ⟨fun _ => rfl, rfl, rfl, rfl⟩

theorem insertarRecursivoABB_indices (nuevo : Int) (hn : nuevo ≠ POS_VACIA) :
    ∀ (t : Forma) (fuel : Nat) (abb : ABB) (i : Int),
      Representa abb.elementos i t → t.altura < fuel → nuevo ∉ t.indices → t.indices.Nodup →
      esABB abb.elementos t →
      (abb.elementos nuevo).izquierdo = POS_VACIA → (abb.elementos nuevo).derecho = POS_VACIA →
      (∀ k ∈ t.indices, compararDrones (abb.elementos nuevo) (abb.elementos k) ≠ 0) →
      ∃ abb1 r t1 l1 l2, insertarRecursivoABB fuel abb i nuevo = some (abb1, r) ∧
        Representa abb1.elementos r t1 ∧
        t.indices = l1 ++ l2 ∧ t1.indices = l1 ++ nuevo :: l2 ∧
        (∀ k ∈ l1, menor (abb.elementos k) (abb.elementos nuevo)) ∧
        (∀ k ∈ l2, menor (abb.elementos nuevo) (abb.elementos k)) ∧
        (∀ k, k ∉ t.indices → abb1.elementos k = abb.elementos k) ∧
        (i ≠ POS_VACIA → r = i) ∧ (i = POS_VACIA → r = nuevo) := by
  intro t
  induction t with
  | hoja =>
    intro fuel abb i hr hf _ _ _ hiz hde _
    cases fuel with
    | zero => simp [Forma.altura] at hf
    | succ n =>
      have hi : i = POS_VACIA := hr
      refine ⟨abb, nuevo, .nodo nuevo .hoja .hoja, [], [], by simp [insertarRecursivoABB, hi],
        ⟨rfl, hn, hiz, hde⟩, by simp [Forma.indices], by simp [Forma.indices], by simp, by simp,
        fun _ _ => rfl, fun h => absurd hi h, fun _ => rfl⟩
  | nodo j l r ihl ihr =>
    intro fuel abb i hr hf hnot hnd hbst hiz hde hkey
    obtain ⟨hij, hj, hrl, hrr⟩ := hr
    subst hij
    obtain ⟨hbl, hbr, hml, hmr⟩ := hbst
    simp only [Forma.indices] at hnot hnd hkey
    obtain ⟨hndl, hndr, hil, hir, hdis⟩ := nodup_nodo.mp hnd
    simp only [List.mem_append, List.mem_cons, not_or] at hnot
    obtain ⟨hnl, hni, hnr⟩ := hnot
    cases fuel with
    | zero => omega
    | succ n =>
      simp only [Forma.altura] at hf
      have hfl : l.altura < n := by omega
      have hfr : r.altura < n := by omega
      simp only [insertarRecursivoABB, if_neg hj]
      by_cases hc1 : compararDrones (abb.elementos nuevo) (abb.elementos i) < 0
      · obtain ⟨abb1, r1, t1, a, b, heq, hrep1, hab, hab1, hma, hmb, hframe1, _, _⟩ :=
          ihl n abb (abb.elementos i).izquierdo hrl hfl hnl hndl hbl hiz hde
            (fun k hk => hkey k (List.mem_append_left _ hk))
        have hil1 : i ∉ t1.indices := by
          rw [hab1]
          rw [hab] at hil
          simp only [List.mem_append, List.mem_cons, not_or] at hil ⊢
          exact ⟨hil.1, fun h => hni h.symm, hil.2⟩
        have hi1 : abb1.elementos i = abb.elementos i := hframe1 i hil
        refine ⟨ponerIzquierdo abb1 i r1, i, .nodo i t1 r, a, b ++ i :: r.indices,
          by simp [if_pos hc1, heq], ⟨rfl, hj, ?_, ?_⟩, ?_, ?_, hma, ?_, ?_, fun _ => rfl,
          fun h => absurd h hj⟩
        · rw [ponerIzquierdo_mismo]
          refine representa_congr ?_ hrep1
          intro k hk
          exact ponerIzquierdo_otro abb1 r1 (fun h => hil1 (h ▸ hk))
        · rw [ponerIzquierdo_mismo]
          show Representa _ (abb1.elementos i).derecho r
          rw [hi1]
          refine representa_congr ?_ hrr
          intro k hk
          have hki : k ≠ i := fun h => hir (h ▸ hk)
          rw [ponerIzquierdo_otro abb1 r1 hki]
          exact hframe1 k (fun h => hdis k h hk)
        · simp only [Forma.indices, hab, List.append_assoc]
        · simp only [Forma.indices, hab1, List.append_assoc, List.cons_append]
        · intro k hk
          simp only [List.mem_append, List.mem_cons] at hk
          rcases hk with hk | hk | hk
          · exact hmb k hk
          · rw [hk]; exact hc1
          · exact menor_dron_trans hc1 (hmr k hk)
        · intro k hk
          simp only [Forma.indices, List.mem_append, List.mem_cons, not_or] at hk
          rw [ponerIzquierdo_otro abb1 r1 hk.2.1]
          exact hframe1 k hk.1
      · by_cases hc2 : compararDrones (abb.elementos nuevo) (abb.elementos i) > 0
        · obtain ⟨abb1, r1, t1, a, b, heq, hrep1, hab, hab1, hma, hmb, hframe1, _, _⟩ :=
            ihr n abb (abb.elementos i).derecho hrr hfr hnr hndr hbr hiz hde
              (fun k hk => hkey k (List.mem_append_right _ (List.mem_cons_of_mem _ hk)))
          have hir1 : i ∉ t1.indices := by
            rw [hab1]
            rw [hab] at hir
            simp only [List.mem_append, List.mem_cons, not_or] at hir ⊢
            exact ⟨hir.1, fun h => hni h.symm, hir.2⟩
          have hi1 : abb1.elementos i = abb.elementos i := hframe1 i hir
          have hc2m : menor (abb.elementos i) (abb.elementos nuevo) :=
            (menor_dron_iff _ _).mpr ((compararDrones_pos_iff _ _).mp hc2)
          refine ⟨ponerDerecho abb1 i r1, i, .nodo i l t1, l.indices ++ i :: a, b,
            by simp [if_neg hc1, if_pos hc2, heq], ⟨rfl, hj, ?_, ?_⟩, ?_, ?_, ?_, hmb, ?_,
            fun _ => rfl, fun h => absurd h hj⟩
          · rw [ponerDerecho_mismo]
            show Representa _ (abb1.elementos i).izquierdo l
            rw [hi1]
            refine representa_congr ?_ hrl
            intro k hk
            have hki : k ≠ i := fun h => hil (h ▸ hk)
            rw [ponerDerecho_otro abb1 r1 hki]
            exact hframe1 k (fun h => hdis k hk h)
          · rw [ponerDerecho_mismo]
            refine representa_congr ?_ hrep1
            intro k hk
            exact ponerDerecho_otro abb1 r1 (fun h => hir1 (h ▸ hk))
          · simp only [Forma.indices, hab, List.append_assoc, List.cons_append]
          · simp only [Forma.indices, hab1, List.append_assoc, List.cons_append]
          · intro k hk
            simp only [List.mem_append, List.mem_cons] at hk
            rcases hk with hk | hk | hk
            · exact menor_dron_trans (hml k hk) hc2m
            · rw [hk]; exact hc2m
            · exact hma k hk
          · intro k hk
            simp only [Forma.indices, List.mem_append, List.mem_cons, not_or] at hk
            rw [ponerDerecho_otro abb1 r1 hk.2.1]
            exact hframe1 k hk.2.2
        · exfalso
          exact hkey i (List.mem_append_right _ (List.mem_cons_self _ _)) (by omega)

theorem recorrerInordenABB_unico {n m : Nat} {abb : ABB} {l1 l2 : List Dron}
    (h1 : recorrerInordenABB n abb = some l1) (h2 : recorrerInordenABB m abb = some l2) :
    l1 = l2 := by
  unfold recorrerInordenABB at h1 h2
  rcases le_total n m with h | h
  · have := recorrerInordenRecursivo_mono n abb abb.raiz l1 h1 m h
    rw [this] at h2
    exact Option.some.inj h2
  · have := recorrerInordenRecursivo_mono m abb abb.raiz l2 h2 n h
    rw [this] at h1
    exact (Option.some.inj h1).symm

theorem clave_ausente_de_recorrido {abb : ABB} {d : Dron} {n : Nat}
    (h : (recorrerInordenABB n abb).map (fun l => l.all fun x => decide (clave x ≠ clave d))
      = some true) :
    ∀ fuel l, recorrerInordenABB fuel abb = some l → ∀ x ∈ l, clave x ≠ clave d := by
  intro fuel l hl x hx
  cases hrec : recorrerInordenABB n abb with
  | none => simp [hrec] at h
  | some l0 =>
    simp only [hrec, Option.map_some', Option.some.injEq] at h
    have hll : l = l0 := recorrerInordenABB_unico hl hrec
    subst hll
    have := List.all_eq_true.mp h x hx
    exact of_decide_eq_true this

/-- C26. On a registry that is a binary search tree with
`siguiente_libre < MAX_NODOS`, for a new drone with both links `POS_VACIA`
whose key is not in the tree, `insertarDronABB` returns 1, `tamano` grows by
one, and the in-order traversal afterwards is the previous one with the new
drone at its sorted position: every drone before it is smaller and every drone
after it is greater. The functions return for every large enough bound. -/
theorem c26_registro_de_dron_nuevo (abb : ABB) (d : Dron) (hinv : Invariante abb)
    (hlt : abb.siguiente_libre < MAX_NODOS)
    (hiz : d.izquierdo = POS_VACIA) (hde : d.derecho = POS_VACIA)
    (hkey : ∀ fuel l, recorrerInordenABB fuel abb = some l → ∀ x ∈ l, clave x ≠ clave d) :
    ∃ (abb1 : ABB) (l1 l2 : List Dron) (fuel0 : Nat),
      (∀ fuel, fuel0 ≤ fuel →
        insertarDronABB fuel abb d = some (abb1, 1) ∧
        (recorrerInordenABB fuel abb).map (List.map sinEnlaces) = some (l1 ++ l2) ∧
        (recorrerInordenABB fuel abb1).map (List.map sinEnlaces)
          = some (l1 ++ sinEnlaces d :: l2)) ∧
      abb1.tamano = abb.tamano + 1 ∧
      (∀ x ∈ l1, menor x d) ∧ (∀ x ∈ l2, menor d x) := by
  obtain ⟨t, hrep, hnd, hcota, hbst, h0, hmax⟩ := hinv
  have hkeyt : ∀ k ∈ t.indices, clave (abb.elementos k) ≠ clave d := by
    intro k hk
    exact hkey (t.altura + 1) _
      (recorrerInordenRecursivo_spec abb t _ abb.raiz hrep (Nat.lt_succ_self _))
      _ (List.mem_map_of_mem _ hk)
  have hnot : abb.siguiente_libre ∉ t.indices := fun h => by
    have := (hcota _ h).2; omega
  have hne : abb.siguiente_libre ≠ POS_VACIA := by unfold POS_VACIA; omega
  have hfuera : ∀ k ∈ t.indices,
      Function.update abb.elementos abb.siguiente_libre d k = abb.elementos k := by
    intro k hk
    exact Function.update_noteq (fun h : k = abb.siguiente_libre => hnot (h ▸ hk)) _ _
  have hrep0 : Representa (Function.update abb.elementos abb.siguiente_libre d) abb.raiz t :=
    representa_congr hfuera hrep
  have hbst0 : esABB (Function.update abb.elementos abb.siguiente_libre d) t :=
    esABB_dron_congr (fun k hk => by rw [hfuera k hk]) hbst
  have hkey0 : ∀ k ∈ t.indices,
      compararDrones (Function.update abb.elementos abb.siguiente_libre d abb.siguiente_libre)
        (Function.update abb.elementos abb.siguiente_libre d k) ≠ 0 := by
    intro k hk h
    rw [Function.update_same, hfuera k hk] at h
    exact hkeyt k hk ((compararDrones_eq_zero_iff _ _).mp h).symm
  obtain ⟨abb1, r, t1, a, b, heq, hrep1, hab, hab1, hma, hmb, _, hr1, hr2⟩ :=
    insertarRecursivoABB_indices abb.siguiente_libre hne t (t.altura + 1)
      { abb with elementos := Function.update abb.elementos abb.siguiente_libre d }
      abb.raiz hrep0 (Nat.lt_succ_self _) hnot hnd hbst0 (by simpa using hiz) (by simpa using hde)
      hkey0
  obtain ⟨hdat, hta, hsl, hra⟩ := insertarRecursivoABB_datos _ _ _ _ _ heq
  simp only at hta hsl hra hr1 hr2 hma hmb hdat
  have hcond : r = abb.siguiente_libre ∨ (abb1.raiz ≠ POS_VACIA ∧ r = abb1.raiz) ∨
      (abb1.raiz = POS_VACIA ∧ r = abb.siguiente_libre) := by
    by_cases hraiz : abb.raiz = POS_VACIA
    · exact Or.inl (hr2 hraiz)
    · exact Or.inr (Or.inl ⟨by rw [hra]; exact hraiz, by rw [hra]; exact hr1 hraiz⟩)
  have hsub : ∀ k, k ∈ a ∨ k ∈ b → k ∈ t.indices := by
    intro k hk
    rw [hab]
    exact List.mem_append.mpr hk
  have hviejo : ∀ k, k ∈ a ∨ k ∈ b →
      sinEnlaces (abb1.elementos k) = sinEnlaces (abb.elementos k) := by
    intro k hk
    rw [hdat k, hfuera k (hsub k hk)]
  have hnuevo : sinEnlaces (abb1.elementos abb.siguiente_libre) = sinEnlaces d := by
    rw [hdat, Function.update_same]
  refine ⟨({ abb1 with
              raiz := r
              siguiente_libre := abb1.siguiente_libre + 1
              tamano := abb1.tamano + 1 } : ABB),
    a.map (fun k => sinEnlaces (abb.elementos k)), b.map (fun k => sinEnlaces (abb.elementos k)),
    max (t.altura + 1) (t1.altura + 1), ?_, ?_, ?_, ?_⟩
  · intro fuel hfuel
    have hf1 : t.altura + 1 ≤ fuel := le_trans (le_max_left _ _) hfuel
    have hf2 : t1.altura + 1 ≤ fuel := le_trans (le_max_right _ _) hfuel
    refine ⟨?_, ?_, ?_⟩
    · have heq1 := insertarRecursivoABB_mono _ _ _ _ _ heq fuel hf1
      unfold insertarDronABB
      simp only [if_neg (not_le.mpr hlt), heq1, if_pos hcond, hsl, if_true]
    · have := recorrerInordenRecursivo_spec abb t fuel abb.raiz hrep (by omega)
      unfold recorrerInordenABB
      rw [this, hab]
      simp only [Option.map_some', List.map_append, List.map_map, Function.comp_def]
    · have := recorrerInordenRecursivo_spec
        ({ abb1 with
            raiz := r
            siguiente_libre := abb1.siguiente_libre + 1
            tamano := abb1.tamano + 1 } : ABB) t1 fuel r hrep1 (by omega)
      unfold recorrerInordenABB
      simp only at this ⊢
      rw [this, hab1]
      simp only [Option.map_some', List.map_append, List.map_cons, List.map_map,
        Function.comp_def, hnuevo]
      congr 2
      · exact List.map_congr_left (fun k hk => hviejo k (Or.inl hk))
      · congr 1
        exact List.map_congr_left (fun k hk => hviejo k (Or.inr hk))
  · simp only [hta]
  · intro x hx
    obtain ⟨k, hk, rfl⟩ := List.mem_map.mp hx
    have := hma k hk
    rw [Function.update_same, hfuera k (hsub k (Or.inl hk))] at this
    exact (@menor_dron_congr (abb.elementos k) d (sinEnlaces (abb.elementos k)) d rfl rfl).mpr this
  · intro x hx
    obtain ⟨k, hk, rfl⟩ := List.mem_map.mp hx
    have := hmb k hk
    rw [Function.update_same, hfuera k (hsub k (Or.inr hk))] at this
    exact (@menor_dron_congr d (abb.elementos k) d (sinEnlaces (abb.elementos k)) rfl rfl).mpr this

/-- C26 on the registry holding the drone of zone B1, registering the drone of
zone A1; and the example of `cargarDronesPrueba`: inserting B1, A1, C1 gives
the traversal A1, B1, C1. -/
theorem c26_registro_de_dron_nuevo_testigo :
    (∃ (abb1 : ABB) (l1 l2 : List Dron) (fuel0 : Nat),
      (∀ fuel, fuel0 ≤ fuel →
        insertarDronABB fuel ((insertarDronABB 5 inicial.abb d2).get (by decide)).1 d1
          = some (abb1, 1) ∧
        (recorrerInordenABB fuel ((insertarDronABB 5 inicial.abb d2).get (by decide)).1).map
          (List.map sinEnlaces) = some (l1 ++ l2) ∧
        (recorrerInordenABB fuel abb1).map (List.map sinEnlaces)
          = some (l1 ++ sinEnlaces d1 :: l2)) ∧
      abb1.tamano = ((insertarDronABB 5 inicial.abb d2).get (by decide)).1.tamano + 1 ∧
      (∀ x ∈ l1, menor x d1) ∧ (∀ x ∈ l2, menor d1 x)) ∧
    ((cargarDronesPrueba 5 inicial.abb).bind fun abb =>
      (recorrerInordenABB 5 abb).map fun l => l.map fun x => x.zona_entrega)
      = some [cad "A1", cad "B1", cad "C1"] :=
  ⟨c26_registro_de_dron_nuevo ((insertarDronABB 5 inicial.abb d2).get (by decide)).1 d1
    (alcanzable_invariante
      (@Alcanzable.insertar inicial.abb ((insertarDronABB 5 inicial.abb d2).get (by decide)).1 5 d2
        ((insertarDronABB 5 inicial.abb d2).get (by decide)).2
        (Alcanzable.inicio _) rfl rfl
        (Option.some_get (by decide : (insertarDronABB 5 inicial.abb d2).isSome = true)).symm))
    (by decide) rfl rfl
    (@clave_ausente_de_recorrido ((insertarDronABB 5 inicial.abb d2).get (by decide)).1 d1 5
      (by decide)),
   by decide⟩

end GestorDrones

/-! ## Circular list of patients: deletion by position -/

namespace Urgencias

/-- C28 as stated fails: on the list A, B, C (the one of
`test_eliminarPorPosicion`), `eliminarPorPosicion(ultimo, 1)` removes A, the
patient at position 0, and leaves B, C. With position 0 it frees the last node
(C), returns the first node as the new `ultimo`, and leaves the node of B
pointing to the freed node. -/
theorem c28_eliminar_por_posicion_quita_otro_paciente :
    ((insertarTodos memoriaVacia crearLista
        [(1, pacienteDe "A" "X" 1), (2, pacienteDe "B" "Y" 2), (3, pacienteDe "C" "Z" 3)]).bind
      fun s => (mostrarLista 5 s.1 s.2).map fun l => l.map fun x => x.nombre)
      = some [cad "A", cad "B", cad "C"] ∧
    ((insertarTodos memoriaVacia crearLista
        [(1, pacienteDe "A" "X" 1), (2, pacienteDe "B" "Y" 2), (3, pacienteDe "C" "Z" 3)]).bind
      fun s => (eliminarPorPosicion 5 s.1 s.2 1).bind
        fun r => (mostrarLista 5 r.1 r.2).map fun l => l.map fun x => x.nombre)
      = some [cad "B", cad "C"] ∧
    ((insertarTodos memoriaVacia crearLista
        [(1, pacienteDe "A" "X" 1), (2, pacienteDe "B" "Y" 2), (3, pacienteDe "C" "Z" 3)]).bind
      fun s => (eliminarPorPosicion 5 s.1 s.2 0).map
        fun r => (r.2, r.1 3, (r.1 2).map fun nd => nd.sig))
      = some (some 1, none, some (some 3)) := by
  decide

end Urgencias

/-! ## Circular list of patients: insertion and traversal -/

namespace Urgencias

theorem cadena_congr {mem mem1 : Memoria} :
    ∀ (l : List (Nat × PACIENTE)) (a b : Nat), (∀ p ∈ l.map Prod.fst, mem1 p = mem p) →
      Cadena mem a l b → Cadena mem1 a l b := by
  intro l
  induction l with
  | nil => intro a b _ h; exact h
  | cons y l ih =>
    obtain ⟨p, x⟩ := y
    intro a b hf h
    obtain ⟨hap, s, hm, hc⟩ := h
    refine ⟨hap, s, ?_, ih s b (fun q hq => hf q (List.mem_cons_of_mem _ hq)) hc⟩
    rw [hf p (by simp)]
    exact hm

theorem cadena_append {mem : Memoria} :
    ∀ (l1 l2 : List (Nat × PACIENTE)) (a b : Nat),
      Cadena mem a (l1 ++ l2) b ↔ ∃ c, Cadena mem a l1 c ∧ Cadena mem c l2 b := by
  intro l1
  induction l1 with
  | nil =>
    intro l2 a b
    constructor
    · intro h; exact ⟨a, rfl, h⟩
    · rintro ⟨c, hc, h⟩
      have : a = c := hc
      rw [this]; exact h
  | cons y l ih =>
    obtain ⟨p, x⟩ := y
    intro l2 a b
    constructor
    · rintro ⟨hap, s, hm, hc⟩
      obtain ⟨c, h1, h2⟩ := (ih l2 s b).mp hc
      exact ⟨c, ⟨hap, s, hm, h1⟩, h2⟩
    · rintro ⟨c, ⟨hap, s, hm, h1⟩, h2⟩
      exact ⟨hap, s, hm, (ih l2 s b).mpr ⟨c, h1, h2⟩⟩

theorem cadena_viva {mem : Memoria} :
    ∀ (l : List (Nat × PACIENTE)) (a b : Nat), Cadena mem a l b →
      ∀ p ∈ l.map Prod.fst, mem p ≠ none := by
  intro l
  induction l with
  | nil => intro a b _ p hp; simp at hp
  | cons y l ih =>
    obtain ⟨q, x⟩ := y
    intro a b h p hp
    obtain ⟨_, s, hm, hc⟩ := h
    simp only [List.map_cons, List.mem_cons] at hp
    rcases hp with hp | hp
    · rw [hp, hm]; simp
    · exact ih s b hc p hp

theorem ciclo_iff_ultimo (mem : Memoria) (ini : List (Nat × PACIENTE)) (u : Nat) (xu : PACIENTE) :
    Ciclo mem (ini ++ [(u, xu)]) ↔
      ∃ a, Cadena mem a ini u ∧ mem u = some { info := xu, sig := some a } ∧
        ((ini ++ [(u, xu)]).map Prod.fst).head? = some a := by
  cases ini with
  | nil =>
    simp only [List.nil_append, Ciclo, Cadena, List.map_cons, List.map_nil, List.head?_cons,
      Option.some.injEq, true_and]
    constructor
    · rintro ⟨s, hm, hs⟩
      exact ⟨u, rfl, by rw [hm, hs], rfl⟩
    · rintro ⟨a, hau, hm, _⟩
      exact ⟨a, hm, hau⟩
  | cons y l =>
    obtain ⟨a0, x0⟩ := y
    show Cadena mem a0 (((a0, x0) :: l) ++ [(u, xu)]) a0 ↔ _
    rw [cadena_append]
    constructor
    · rintro ⟨c, h1, hcu, s, hm, hs⟩
      have hs1 : s = a0 := hs
      subst hcu
      exact ⟨a0, h1, by rw [hm, hs1], by simp⟩
    · rintro ⟨a, h1, hm, ha⟩
      have ha1 : a0 = a := by simpa using ha
      subst ha1
      exact ⟨u, h1, rfl, a0, hm, rfl⟩

theorem ciclo_viva {mem : Memoria} {l : List (Nat × PACIENTE)} (h : Ciclo mem l) :
    ∀ p ∈ l.map Prod.fst, mem p ≠ none := by
  cases l with
  | nil => intro p hp; simp at hp
  | cons y l =>
    obtain ⟨a, x⟩ := y
    exact cadena_viva _ a a h

theorem insertarPaciente_circular {mem : Memoria} {ultimo : Option Nat}
    {l : List (Nat × PACIENTE)} (x : PACIENTE) {dir : Nat}
    (h : Circular mem ultimo l) (hd : mem dir = none) :
    ∃ mem1, insertarPaciente mem ultimo x dir = some (mem1, some dir) ∧
      Circular mem1 (some dir) (l ++ [(dir, x)]) ∧
      ∀ q, q ≠ dir → mem q = none → mem1 q = none := by
  obtain ⟨hnd, hci, hul⟩ := h
  have hviva := ciclo_viva hci
  have hdl : dir ∉ l.map Prod.fst := fun hm => hviva dir hm hd
  have hnd1 : ((l ++ [(dir, x)]).map Prod.fst).Nodup := by
    rw [List.map_append, List.nodup_append]
    refine ⟨hnd, by simp, ?_⟩
    intro p hp hq
    simp only [List.map_cons, List.map_nil, List.mem_singleton] at hq
    exact hdl (hq ▸ hp)
  rcases List.eq_nil_or_concat l with hl | ⟨ini, b, hl⟩
  · subst hl
    have hu : ultimo = none := by simpa using hul
    subst hu
    refine ⟨Function.update mem dir (some { info := x, sig := some dir }), by
      simp [insertarPaciente], ⟨hnd1, ?_, by simp⟩, ?_⟩
    · exact ⟨rfl, dir, by simp, rfl⟩
    · intro q hq hm
      rw [Function.update_noteq hq]; exact hm
  · obtain ⟨u, xu⟩ := b
    rw [List.concat_eq_append] at hl
    subst hl
    have hu : ultimo = some u := by simpa using hul
    subst hu
    obtain ⟨a, hca, hmu, hha⟩ := (ciclo_iff_ultimo mem ini u xu).mp hci
    have hdu : dir ≠ u := fun he => by rw [he, hmu] at hd; simp at hd
    have hud : u ≠ dir := fun he => hdu he.symm
    have huini : u ∉ ini.map Prod.fst := by
      rw [List.map_append, List.nodup_append] at hnd
      intro hm
      exact hnd.2.2 hm (by simp)
    refine ⟨Function.update (Function.update mem dir (some { info := x, sig := some a })) u
        (some { info := xu, sig := some dir }), ?_, ⟨hnd1, ?_, by simp⟩, ?_⟩
    · simp [insertarPaciente, leer, escribir, hmu, Function.update_noteq hud]
    · rw [ciclo_iff_ultimo]
      refine ⟨a, ?_, ?_, ?_⟩
      · rw [cadena_append]
        refine ⟨u, ?_, rfl, dir, by simp, rfl⟩
        refine cadena_congr ini a u ?_ hca
        intro p hp
        have hpu : p ≠ u := fun he => huini (he ▸ hp)
        have hpd : p ≠ dir := fun he => hdl (by rw [← he]; simp [hp])
        rw [Function.update_noteq hpu, Function.update_noteq hpd]
      · rw [Function.update_noteq hdu, Function.update_same]
      · rw [← hha]
        cases ini <;> simp
    · intro q hq hm
      have hqu : q ≠ u := fun he => by rw [he, hmu] at hm; simp at hm
      rw [Function.update_noteq hqu, Function.update_noteq hq]
      exact hm

theorem insertarTodos_circular :
    ∀ (l2 : List (Nat × PACIENTE)) (mem : Memoria) (ultimo : Option Nat)
      (l1 : List (Nat × PACIENTE)), Circular mem ultimo l1 → (l2.map Prod.fst).Nodup →
      (∀ p ∈ l2.map Prod.fst, mem p = none) →
      ∃ mem1 u1, insertarTodos mem ultimo l2 = some (mem1, u1) ∧
        Circular mem1 u1 (l1 ++ l2) := by
  intro l2
  induction l2 with
  | nil =>
    intro mem ultimo l1 h _ _
    exact ⟨mem, ultimo, rfl, by simpa using h⟩
  | cons y l ih =>
    obtain ⟨dir, x⟩ := y
    intro mem ultimo l1 h hnd hlibre
    simp only [List.map_cons, List.nodup_cons] at hnd
    obtain ⟨mem1, heq, hc1, hfr⟩ := insertarPaciente_circular x h (hlibre dir (by simp))
    obtain ⟨mem2, u2, heq2, hc2⟩ := ih mem1 (some dir) (l1 ++ [(dir, x)]) hc1 hnd.2 (by
      intro p hp
      exact hfr p (fun he => hnd.1 (he ▸ hp)) (hlibre p (List.mem_cons_of_mem _ hp)))
    refine ⟨mem2, u2, by simp [insertarTodos, heq, heq2], ?_⟩
    simpa using hc2

theorem mostrarBucle_cadena (mem : Memoria) (start : Nat) :
    ∀ (m : List (Nat × PACIENTE)) (a : Nat) (fuel : Nat), m ≠ [] → Cadena mem a m start →
      start ∉ (m.map Prod.fst).tail → m.length ≤ fuel →
      mostrarBucle fuel mem (some start) (some a) = some (m.map Prod.snd) := by
  intro m
  induction m with
  | nil => intro a fuel h; exact absurd rfl h
  | cons y m ih =>
    obtain ⟨p, x⟩ := y
    intro a fuel _ hc hs hf
    obtain ⟨hap, s, hm, hc1⟩ := hc
    subst hap
    cases fuel with
    | zero => simp at hf
    | succ n =>
      simp only [mostrarBucle, leer, Option.some_bind, hm]
      cases m with
      | nil =>
        have hs1 : s = start := hc1
        simp [hs1]
      | cons z m1 =>
        obtain ⟨q, y1⟩ := z
        have hsq : s = q := hc1.1
        have hq : q ≠ start := fun he => hs (by simp [he])
        have hcond : (some s : Option Nat) ≠ some start := by simp [hsq, hq]
        rw [if_pos hcond, ih s n (by simp) hc1
          (fun hm1 => hs (by simpa using Or.inr hm1)) (by simpa using hf)]
        simp

theorem contarBucle_cadena (mem : Memoria) (start : Nat) :
    ∀ (m : List (Nat × PACIENTE)) (a : Nat) (fuel : Nat) (cnt : Int), m ≠ [] →
      Cadena mem a m start → start ∉ (m.map Prod.fst).tail → m.length ≤ fuel →
      contarBucle fuel mem (some start) (some a) cnt = some (cnt + m.length) := by
  intro m
  induction m with
  | nil => intro a fuel cnt h; exact absurd rfl h
  | cons y m ih =>
    obtain ⟨p, x⟩ := y
    intro a fuel cnt _ hc hs hf
    obtain ⟨hap, s, hm, hc1⟩ := hc
    subst hap
    cases fuel with
    | zero => simp at hf
    | succ n =>
      simp only [contarBucle, leer, Option.some_bind, hm]
      cases m with
      | nil =>
        have hs1 : s = start := hc1
        simp [hs1]
      | cons z m1 =>
        obtain ⟨q, y1⟩ := z
        have hsq : s = q := hc1.1
        have hq : q ≠ start := fun he => hs (by simp [he])
        have hcond : (some s : Option Nat) ≠ some start := by simp [hsq, hq]
        rw [if_pos hcond, ih s n (cnt + 1) (by simp) hc1
          (fun hm1 => hs (by simpa using Or.inr hm1)) (by simpa using hf)]
        simp only [List.length_cons, Nat.cast_add, Nat.cast_one, Option.some.injEq]
        omega

theorem circular_no_vacia {mem : Memoria} {ultimo : Option Nat} {l : List (Nat × PACIENTE)}
    (h : Circular mem ultimo l) (hne : l ≠ []) :
    ∃ a u xu, ultimo = some u ∧ mem u = some { info := xu, sig := some a } ∧
      Cadena mem a l a ∧ a ∉ (l.map Prod.fst).tail ∧ (l.map Prod.fst).head? = some a ∧
      l.getLast? = some (u, xu) := by
  obtain ⟨hnd, hci, hul⟩ := h
  rcases List.eq_nil_or_concat l with hl | ⟨ini, b, hl⟩
  · exact absurd hl hne
  · obtain ⟨u, xu⟩ := b
    rw [List.concat_eq_append] at hl
    subst hl
    obtain ⟨a, _, hmu, hha⟩ := (ciclo_iff_ultimo mem ini u xu).mp hci
    refine ⟨a, u, xu, by simpa using hul, hmu, ?_, ?_, hha, by simp⟩
    · cases ini with
      | nil =>
        have : u = a := by simpa using hha
        subst this
        exact hci
      | cons y ini1 =>
        obtain ⟨a0, x0⟩ := y
        have : a0 = a := by simpa using hha
        subst this
        exact hci
    · cases ini with
      | nil => simp
      | cons y ini1 =>
        obtain ⟨a0, x0⟩ := y
        have : a0 = a := by simpa using hha
        subst this
        simp only [List.cons_append, List.map_cons, List.nodup_cons] at hnd
        simpa using hnd.1

theorem mostrarLista_circular {mem : Memoria} {ultimo : Option Nat} {l : List (Nat × PACIENTE)}
    (h : Circular mem ultimo l) {fuel : Nat} (hf : l.length ≤ fuel) :
    mostrarLista fuel mem ultimo = some (l.map Prod.snd) := by
  by_cases hne : l = []
  · subst hne
    have : ultimo = none := by simpa using h.2.2
    simp [mostrarLista, listaVacia, this]
  · obtain ⟨a, u, xu, hu, hmu, hca, hat, _, _⟩ := circular_no_vacia h hne
    subst hu
    simp only [mostrarLista, listaVacia, leer, Option.some_bind, hmu]
    simp only [reduceCtorEq, decide_False, Bool.false_eq_true, if_false]
    exact mostrarBucle_cadena mem a l a fuel hne hca hat hf

theorem contarNodos_circular {mem : Memoria} {ultimo : Option Nat} {l : List (Nat × PACIENTE)}
    (h : Circular mem ultimo l) {fuel : Nat} (hf : l.length ≤ fuel) :
    contarNodos fuel mem ultimo = some (l.length : Int) := by
  by_cases hne : l = []
  · subst hne
    have : ultimo = none := by simpa using h.2.2
    simp [contarNodos, this]
  · obtain ⟨a, u, xu, hu, hmu, hca, hat, _, _⟩ := circular_no_vacia h hne
    subst hu
    simp only [contarNodos, leer, Option.some_bind, hmu]
    simp only [reduceCtorEq, if_false]
    rw [contarBucle_cadena mem a l a fuel 0 hne hca hat hf]
    simp

/-- C30. Inserting a non-empty sequence of patients with `insertarPaciente`
into the empty list (each new node at a fresh address) returns the node of the
last patient inserted; its `sig` is the node of the first one; following `sig`
from the first node goes through the patients in insertion order and comes
back to the first node; and, given enough steps, `mostrarLista` prints the
patients in insertion order and `contarNodos` returns their number. -/
theorem c30_lista_circular (mem0 : Memoria) (l : List (Nat × PACIENTE)) (hne : l ≠ [])
    (hnd : (l.map Prod.fst).Nodup) (hlibre : ∀ p ∈ l.map Prod.fst, mem0 p = none) :
    ∃ (mem : Memoria) (primero ultimo : Nat) (xu : PACIENTE),
      insertarTodos mem0 crearLista l = some (mem, some ultimo) ∧
      l.getLast? = some (ultimo, xu) ∧ (l.map Prod.fst).head? = some primero ∧
      mem ultimo = some { info := xu, sig := some primero } ∧
      Cadena mem primero l primero ∧ primero ∉ (l.map Prod.fst).tail ∧
      ∀ fuel, l.length ≤ fuel →
        mostrarLista fuel mem (some ultimo) = some (l.map Prod.snd) ∧
        contarNodos fuel mem (some ultimo) = some (l.length : Int) := by
  obtain ⟨mem, u1, heq, hc⟩ := insertarTodos_circular l mem0 crearLista []
    ⟨by simp, trivial, rfl⟩ hnd hlibre
  rw [List.nil_append] at hc
  obtain ⟨a, u, xu, hu, hmu, hca, hat, hha, hlast⟩ := circular_no_vacia hc hne
  subst hu
  exact ⟨mem, a, u, xu, heq, hlast, hha, hmu, hca, hat,
    fun fuel hf => ⟨mostrarLista_circular hc hf, contarNodos_circular hc hf⟩⟩

/-- C30 on the list of `test_circularidad`: A and B inserted at the addresses
1 and 2. -/
theorem c30_lista_circular_testigo :
    ∃ (mem : Memoria) (primero ultimo : Nat) (xu : PACIENTE),
      insertarTodos memoriaVacia crearLista [(1, pacienteDe "A" "X" 1), (2, pacienteDe "B" "Y" 2)]
        = some (mem, some ultimo) ∧
      [(1, pacienteDe "A" "X" 1), (2, pacienteDe "B" "Y" 2)].getLast? = some (ultimo, xu) ∧
      ([(1, pacienteDe "A" "X" 1), (2, pacienteDe "B" "Y" 2)].map Prod.fst).head?
        = some primero ∧
      mem ultimo = some { info := xu, sig := some primero } ∧
      Cadena mem primero [(1, pacienteDe "A" "X" 1), (2, pacienteDe "B" "Y" 2)] primero ∧
      primero ∉ ([(1, pacienteDe "A" "X" 1), (2, pacienteDe "B" "Y" 2)].map Prod.fst).tail ∧
      ∀ fuel, [(1, pacienteDe "A" "X" 1), (2, pacienteDe "B" "Y" 2)].length ≤ fuel →
        mostrarLista fuel mem (some ultimo)
          = some ([(1, pacienteDe "A" "X" 1), (2, pacienteDe "B" "Y" 2)].map Prod.snd) ∧
        contarNodos fuel mem (some ultimo)
          = some (([(1, pacienteDe "A" "X" 1), (2, pacienteDe "B" "Y" 2)].length : Nat) : Int) :=
  c30_lista_circular memoriaVacia [(1, pacienteDe "A" "X" 1), (2, pacienteDe "B" "Y" 2)]
    (by decide) (by decide) (fun _ _ => rfl)

end Urgencias

/-! ## Circular list of patients: deletion by name -/

namespace Urgencias

theorem ultimo_concat (l : List (Nat × PACIENTE)) (u : Nat) (xu : PACIENTE) :
    ((l ++ [(u, xu)]).map Prod.fst).getLast? = some u := by
  rw [List.map_append]
  simp

theorem nodup_cabeza_ultimo {A B : List (Nat × PACIENTE)} {c u : Nat} {x xu : PACIENTE}
    (h : ((A ++ (c, x) :: (B ++ [(u, xu)])).map Prod.fst).Nodup) : c ≠ u := by
  intro he
  subst he
  rw [List.map_append, List.nodup_append] at h
  have := h.2.1
  simp at this

theorem ciclo_rotar {mem : Memoria} (l1 l2 : List (Nat × PACIENTE)) (h : Ciclo mem (l1 ++ l2)) :
    Ciclo mem (l2 ++ l1) := by
  cases l1 with
  | nil => simpa using h
  | cons y1 l1 =>
    cases l2 with
    | nil => simpa using h
    | cons y2 l2 =>
      obtain ⟨a, x⟩ := y1
      obtain ⟨b, y⟩ := y2
      have h1 : Cadena mem a (((a, x) :: l1) ++ ((b, y) :: l2)) a := h
      obtain ⟨c, hc1, hc2⟩ := (cadena_append _ _ _ _).mp h1
      have hcb : c = b := hc2.1
      subst hcb
      exact (cadena_append ((c, y) :: l2) ((a, x) :: l1) c c).mpr ⟨a, hc2, hc1⟩

theorem ciclo_puentear {mem : Memoria} {p c : Nat} {xp x : PACIENTE}
    {resto : List (Nat × PACIENTE)}
    (hnd : (((p, xp) :: (c, x) :: resto).map Prod.fst).Nodup)
    (h : Ciclo mem ((p, xp) :: (c, x) :: resto)) :
    ∃ s, mem p = some { info := xp, sig := some c } ∧ mem c = some { info := x, sig := some s } ∧
      Ciclo (Function.update (Function.update mem p (some { info := xp, sig := some s })) c none)
        ((p, xp) :: resto) := by
  obtain ⟨_, s0, hmp, hc0⟩ := h
  obtain ⟨hs0, s, hmc, hc1⟩ := hc0
  subst hs0
  simp only [List.map_cons, List.nodup_cons, List.mem_cons, not_or] at hnd
  obtain ⟨⟨hpc, hpr⟩, hcr, _⟩ := hnd
  refine ⟨s, hmp, hmc, rfl, s, ?_, ?_⟩
  · rw [Function.update_noteq hpc, Function.update_same]
  · refine cadena_congr resto s p ?_ hc1
    intro q hq
    have hqc : q ≠ s0 := fun he => hcr (he ▸ hq)
    have hqp : q ≠ p := fun he => hpr (he ▸ hq)
    rw [Function.update_noteq hqc, Function.update_noteq hqp]

theorem eliminarBucle_puentea {mem : Memoria} {p c s : Nat} {xp x : PACIENTE} {nombre : CStr}
    (n : Nat) (ultimo start : Option Nat)
    (hmp : mem p = some { info := xp, sig := some c })
    (hmc : mem c = some { info := x, sig := some s }) (hcp : c ≠ p) (hx : x.nombre = nombre) :
    eliminarBucle (n + 1) mem ultimo start (some c) (some p) nombre
      = some (Function.update (Function.update mem p (some { info := xp, sig := some s })) c none,
          if some c = ultimo then some p else ultimo) := by
  have h0 : strcmp x.nombre nombre = 0 := by rw [hx]; exact strcmp_self _
  have hne : (some c : Option Nat) ≠ some p := by simpa using hcp
  simp only [eliminarBucle, leer, Option.some_bind, hmc, h0, if_true, if_neg hne, hmp, escribir,
    Option.isSome_some, liberar]

theorem eliminarBucle_encontrado {mem : Memoria} {u : Nat} {nombre : CStr}
    {pre s2 : List (Nat × PACIENTE)} {c : Nat} {x : PACIENTE} (n : Nat) (start : Option Nat)
    (hC : Circular mem (some u) (pre ++ (c, x) :: s2)) (hx : x.nombre = nombre) :
    ∃ mem1 u1,
      eliminarBucle (n + 1) mem (some u) start (some c)
        (some (((pre.map Prod.fst).getLast?).getD u)) nombre = some (mem1, u1) ∧
      Circular mem1 u1 (pre ++ s2) ∧ mem1 c = none := by
  obtain ⟨hnd, hci, hul⟩ := hC
  have h0 : strcmp x.nombre nombre = 0 := by rw [hx]; exact strcmp_self _
  rcases List.eq_nil_or_concat pre with hp | ⟨pre1, b, hp⟩
  · subst hp
    simp only [List.map_nil, List.getLast?_nil, Option.getD_none, List.nil_append] at hnd hci hul ⊢
    rcases List.eq_nil_or_concat s2 with hs | ⟨ini2, b2, hs⟩
    · subst hs
      have huc : u = c := by simpa using hul
      subst huc
      obtain ⟨_, s, hmc, _⟩ := hci
      refine ⟨Function.update mem u none, none, ?_, ⟨by simp, trivial, rfl⟩, by simp⟩
      simp only [eliminarBucle, leer, Option.some_bind, hmc, h0, if_true, liberar]
    · obtain ⟨u2, xu⟩ := b2
      rw [List.concat_eq_append] at hs
      subst hs
      have hu2 : u = u2 := by
        have hl : ((c, x) :: (ini2 ++ [(u2, xu)])) = ((c, x) :: ini2) ++ [(u2, xu)] := rfl
        rw [hl, ultimo_concat] at hul
        exact Option.some.inj hul
      subst hu2
      have hrot : Ciclo mem ((u, xu) :: (c, x) :: ini2) :=
        ciclo_rotar ((c, x) :: ini2) [(u, xu)] (by simpa using hci)
      have hndrot : (((u, xu) :: (c, x) :: ini2).map Prod.fst).Nodup := by
        refine (List.Perm.nodup_iff ?_).mp hnd
        have : ((c, x) :: (ini2 ++ [(u, xu)])).Perm ((u, xu) :: (c, x) :: ini2) := by
          have := @List.perm_append_comm _ ((c, x) :: ini2) [(u, xu)]
          simpa using this
        exact this.map _
      obtain ⟨s, hmp, hmc, hci1⟩ := ciclo_puentear hndrot hrot
      have hcu : c ≠ u := by
        simp only [List.map_cons, List.nodup_cons, List.mem_cons, not_or] at hndrot
        exact fun he => hndrot.1.1 he.symm
      refine ⟨_, _, eliminarBucle_puentea n (some u) start hmp hmc hcu hx, ⟨?_, ?_, ?_⟩, by simp⟩
      · simp only [List.map_cons, List.nodup_cons] at hnd
        exact hnd.2
      · exact ciclo_rotar [(u, xu)] ini2 hci1
      · have : (some c : Option Nat) ≠ some u := by simpa using hcu
        simp [if_neg this]
  · obtain ⟨p, xp⟩ := b
    rw [List.concat_eq_append] at hp
    subst hp
    have hprev : (((pre1 ++ [(p, xp)]).map Prod.fst).getLast?).getD u = p := by simp
    rw [hprev]
    have hrot : Ciclo mem ((p, xp) :: (c, x) :: (s2 ++ pre1)) := by
      have := ciclo_rotar pre1 ((p, xp) :: (c, x) :: s2) (by simpa using hci)
      simpa using this
    have hndrot : (((p, xp) :: (c, x) :: (s2 ++ pre1)).map Prod.fst).Nodup := by
      refine (List.Perm.nodup_iff ?_).mp hnd
      have : (pre1 ++ [(p, xp)] ++ (c, x) :: s2).Perm ((p, xp) :: (c, x) :: (s2 ++ pre1)) := by
        have := @List.perm_append_comm _ pre1 ((p, xp) :: (c, x) :: s2)
        simpa using this
      exact this.map _
    obtain ⟨s, hmp, hmc, hci1⟩ := ciclo_puentear hndrot hrot
    have hcp : c ≠ p := by
      simp only [List.map_cons, List.nodup_cons, List.mem_cons, not_or] at hndrot
      exact fun he => hndrot.1.1 he.symm
    refine ⟨_, _, eliminarBucle_puentea n (some u) start hmp hmc hcp hx, ⟨?_, ?_, ?_⟩, by simp⟩
    · have hsub : (pre1 ++ [(p, xp)] ++ s2).Sublist (pre1 ++ [(p, xp)] ++ (c, x) :: s2) :=
        List.Sublist.append_left (List.sublist_cons_self _ _) _
      exact (hsub.map _).nodup hnd
    · have := ciclo_rotar ((p, xp) :: s2) pre1 (by simpa using hci1)
      simpa using this
    · rcases List.eq_nil_or_concat s2 with hs | ⟨ini2, b2, hs⟩
      · subst hs
        have huc : u = c := by simpa using hul
        simp [huc]
      · obtain ⟨u2, xu⟩ := b2
        rw [List.concat_eq_append] at hs
        subst hs
        have hu2 : u = u2 := by
          have : (pre1 ++ [(p, xp)] ++ (c, x) :: (ini2 ++ [(u2, xu)]))
              = (pre1 ++ [(p, xp)] ++ (c, x) :: ini2) ++ [(u2, xu)] := by simp
          rw [this, ultimo_concat] at hul
          exact Option.some.inj hul
        subst hu2
        have hcu : c ≠ u := nodup_cabeza_ultimo hnd
        have : (some c : Option Nat) ≠ some u := by simpa using hcu
        rw [if_neg this]
        have : (pre1 ++ [(p, xp)] ++ (ini2 ++ [(u, xu)]))
            = (pre1 ++ [(p, xp)] ++ ini2) ++ [(u, xu)] := by simp
        rw [this, ultimo_concat]

theorem eliminarBucle_avanza {mem : Memoria} {c s : Nat} {x : PACIENTE} {nombre : CStr} (n : Nat)
    (ultimo start prev : Option Nat) (hmc : mem c = some { info := x, sig := some s })
    (hx : x.nombre ≠ nombre) :
    eliminarBucle (n + 1) mem ultimo start (some c) prev nombre
      = if (some s : Option Nat) ≠ start then
          eliminarBucle n mem ultimo start (some s) (some c) nombre
        else some (mem, ultimo) := by
  have h0 : strcmp x.nombre nombre ≠ 0 := fun h => hx (strcmp_eq_zero.mp h)
  simp only [eliminarBucle, leer, Option.some_bind, hmc, if_neg h0]

theorem eliminarBucle_spec {mem : Memoria} {u : Nat} {nombre : CStr}
    {L : List (Nat × PACIENTE)} {a : Nat} (hC : Circular mem (some u) L)
    (hca : Cadena mem a L a) (hat : a ∉ (L.map Prod.fst).tail) :
    ∀ (suf pre : List (Nat × PACIENTE)) (fuel : Nat), L = pre ++ suf → suf ≠ [] →
      (∀ y ∈ pre, y.2.nombre ≠ nombre) → suf.length ≤ fuel →
      (∀ s1 c x s2, suf = s1 ++ (c, x) :: s2 → (∀ y ∈ s1, y.2.nombre ≠ nombre) →
        x.nombre = nombre →
        ∃ mem1 u1,
          eliminarBucle fuel mem (some u) (some a) ((suf.map Prod.fst).head?)
            (some (((pre.map Prod.fst).getLast?).getD u)) nombre = some (mem1, u1) ∧
          Circular mem1 u1 (pre ++ (s1 ++ s2)) ∧ mem1 c = none) ∧
      ((∀ y ∈ suf, y.2.nombre ≠ nombre) →
        eliminarBucle fuel mem (some u) (some a) ((suf.map Prod.fst).head?)
          (some (((pre.map Prod.fst).getLast?).getD u)) nombre = some (mem, some u)) := by
  intro suf
  induction suf with
  | nil => intro pre fuel _ h; exact absurd rfl h
  | cons y t ih =>
    obtain ⟨c, x⟩ := y
    intro pre fuel hL _ hpre hf
    cases fuel with
    | zero => simp at hf
    | succ n =>
      have hch : ∃ s, mem c = some { info := x, sig := some s } ∧ Cadena mem s t a := by
        rw [hL] at hca
        obtain ⟨c0, _, h2⟩ := (cadena_append _ _ _ _).mp hca
        obtain ⟨_, s, hm, hc⟩ := h2
        exact ⟨s, hm, hc⟩
      obtain ⟨s, hmc, hct⟩ := hch
      have hcont : ∀ q y t1, t = (q, y) :: t1 → s = q ∧ (some s : Option Nat) ≠ some a := by
        intro q y t1 ht
        subst ht
        have hsq : s = q := hct.1
        refine ⟨hsq, ?_⟩
        have hq : q ∈ (L.map Prod.fst).tail := by
          rw [hL]
          cases pre <;> simp
        intro he
        have : s = a := Option.some.inj he
        rw [← this, hsq] at hat
        exact hat hq
      have hL1 : L = (pre ++ [(c, x)]) ++ t := by rw [hL]; simp
      have hprev1 : (((pre ++ [(c, x)]).map Prod.fst).getLast?).getD u = c := by
        rw [ultimo_concat]; rfl
      have hft : t.length ≤ n := by simpa using hf
      simp only [List.map_cons, List.head?_cons]
      constructor
      · intro s1 c1 x1 s2 hs hs1 hx1
        cases s1 with
        | nil =>
          simp only [List.nil_append, List.cons.injEq, Prod.mk.injEq] at hs
          obtain ⟨⟨rfl, rfl⟩, rfl⟩ := hs
          rw [hL] at hC
          simpa using eliminarBucle_encontrado n (some a) hC hx1
        | cons z s3 =>
          simp only [List.cons_append, List.cons.injEq] at hs
          obtain ⟨hz, ht⟩ := hs
          subst hz
          have hxn : x.nombre ≠ nombre := hs1 (c, x) (by simp)
          have hpre1 : ∀ y ∈ pre ++ [(c, x)], y.2.nombre ≠ nombre := by
            intro y hy
            rcases List.mem_append.mp hy with h | h
            · exact hpre y h
            · rw [List.mem_singleton.mp h]; exact hxn
          rw [eliminarBucle_avanza n _ _ _ hmc hxn]
          cases t with
          | nil => cases s3 <;> simp at ht
          | cons w t1 =>
            obtain ⟨q, y⟩ := w
            obtain ⟨hsq, hne⟩ := hcont q y t1 rfl
            rw [if_pos hne]
            obtain ⟨mem1, u1, h1, h2, h3⟩ :=
              (ih (pre ++ [(c, x)]) n hL1 (by simp) hpre1 hft).1 s3 c1 x1 s2 ht
                (fun y hy => hs1 y (List.mem_cons_of_mem _ hy)) hx1
            rw [hprev1] at h1
            simp only [List.map_cons, List.head?_cons] at h1
            rw [hsq]
            exact ⟨mem1, u1, h1, by simpa using h2, h3⟩
      · intro hall
        have hxn : x.nombre ≠ nombre := hall (c, x) (by simp)
        have hpre1 : ∀ y ∈ pre ++ [(c, x)], y.2.nombre ≠ nombre := by
          intro y hy
          rcases List.mem_append.mp hy with h | h
          · exact hpre y h
          · rw [List.mem_singleton.mp h]; exact hxn
        rw [eliminarBucle_avanza n _ _ _ hmc hxn]
        cases t with
        | nil =>
          have hsa : s = a := hct
          rw [hsa]
          simp
        | cons w t1 =>
          obtain ⟨q, y⟩ := w
          obtain ⟨hsq, hne⟩ := hcont q y t1 rfl
          rw [if_pos hne]
          have h1 := (ih (pre ++ [(c, x)]) n hL1 (by simp) hpre1 hft).2
            (fun y hy => hall y (List.mem_cons_of_mem _ hy))
          rw [hprev1] at h1
          simp only [List.map_cons, List.head?_cons] at h1
          rw [hsq]
          exact h1

/-- C29. On a circular list of patients, if some patient has the given name,
`eliminarPorNombre` frees the node of the first such patient in list order and
returns the circular list of the other patients in their order (the pointer
returned is its last node, or `NULL` when no patient is left); if no patient
has that name it returns the list as it was. The function returns whenever the
bound on its loop is at least the length of the list. -/
theorem c29_eliminar_por_nombre (mem : Memoria) (ultimo : Option Nat)
    (l : List (Nat × PACIENTE)) (nombre : CStr) (h : Circular mem ultimo l) :
    (∀ l1 c x l2, l = l1 ++ (c, x) :: l2 → (∀ y ∈ l1, y.2.nombre ≠ nombre) →
      x.nombre = nombre → ∀ fuel, l.length ≤ fuel →
      ∃ mem1 u1, eliminarPorNombre fuel mem ultimo nombre = some (mem1, u1) ∧
        Circular mem1 u1 (l1 ++ l2) ∧ mem1 c = none ∧ (l1 ++ l2 = [] → u1 = none) ∧
        ∀ fuel2, (l1 ++ l2).length ≤ fuel2 →
          mostrarLista fuel2 mem1 u1 = some ((l1 ++ l2).map Prod.snd)) ∧
    ((∀ y ∈ l, y.2.nombre ≠ nombre) → ∀ fuel, l.length ≤ fuel →
      eliminarPorNombre fuel mem ultimo nombre = some (mem, ultimo)) := by
  by_cases hne : l = []
  · subst hne
    have hu : ultimo = none := by simpa using h.2.2
    subst hu
    refine ⟨?_, fun _ fuel _ => by simp [eliminarPorNombre, listaVacia]⟩
    intro l1 c x l2 hl
    cases l1 <;> simp at hl
  · obtain ⟨a, u, xu, hu, hmu, hca, hat, hha, _⟩ := circular_no_vacia h hne
    subst hu
    have hdef : ∀ fuel, eliminarPorNombre fuel mem (some u) nombre
        = eliminarBucle fuel mem (some u) (some a) ((l.map Prod.fst).head?)
            (some ((([] : List (Nat × PACIENTE)).map Prod.fst).getLast?.getD u)) nombre := by
      intro fuel
      simp only [eliminarPorNombre, listaVacia, leer, Option.some_bind, hmu, hha]
      simp
    constructor
    · intro l1 c x l2 hl hl1 hx fuel hf
      obtain ⟨mem1, u1, h1, h2, h3⟩ :=
        (eliminarBucle_spec h hca hat l [] fuel rfl hne (by simp) hf).1
          l1 c x l2 hl hl1 hx
      rw [List.nil_append] at h2
      refine ⟨mem1, u1, by rw [hdef]; exact h1, h2, h3, ?_,
        fun fuel2 hf2 => mostrarLista_circular h2 hf2⟩
      intro hvac
      rw [hvac] at h2
      simpa using h2.2.2
    · intro hall fuel hf
      rw [hdef]
      exact (eliminarBucle_spec h hca hat l [] fuel rfl hne (by simp) hf).2 hall

/-- C29 on the example of `test_menu_simulado` (the list holds the single
patient Test, and deleting Test gives the empty list) and on the one of
`test_eliminarPorNombre` (from Ana, Bea, deleting Bea leaves Ana). -/
theorem c29_eliminar_por_nombre_testigo :
    (∃ mem1 u1,
      eliminarPorNombre 1
          (Function.update memoriaVacia 1
            (some { info := pacienteDe "Test" "Simulacion" 5, sig := some 1 }))
          (some 1) (cad "Test") = some (mem1, u1) ∧
        Circular mem1 u1 ([] ++ []) ∧ mem1 1 = none ∧
        (([] : List (Nat × PACIENTE)) ++ [] = [] → u1 = none) ∧
        ∀ fuel2, (([] : List (Nat × PACIENTE)) ++ []).length ≤ fuel2 →
          mostrarLista fuel2 mem1 u1
            = some ((([] : List (Nat × PACIENTE)) ++ []).map Prod.snd)) ∧
    (∃ mem1 u1,
      eliminarPorNombre 2
          (Function.update
            (Function.update memoriaVacia 1 (some { info := pacienteDe "Ana" "X" 1, sig := some 2 }))
            2 (some { info := pacienteDe "Bea" "Y" 2, sig := some 1 }))
          (some 2) (cad "Bea") = some (mem1, u1) ∧
        Circular mem1 u1 ([(1, pacienteDe "Ana" "X" 1)] ++ []) ∧ mem1 2 = none ∧
        ([(1, pacienteDe "Ana" "X" 1)] ++ [] = [] → u1 = none) ∧
        ∀ fuel2, ([(1, pacienteDe "Ana" "X" 1)] ++ []).length ≤ fuel2 →
          mostrarLista fuel2 mem1 u1
            = some (([(1, pacienteDe "Ana" "X" 1)] ++ []).map Prod.snd)) :=
  ⟨(c29_eliminar_por_nombre
      (Function.update memoriaVacia 1
        (some { info := pacienteDe "Test" "Simulacion" 5, sig := some 1 }))
      (some 1) [(1, pacienteDe "Test" "Simulacion" 5)] (cad "Test")
      ⟨by decide, ⟨rfl, 1, by simp, rfl⟩, rfl⟩).1
      [] 1 (pacienteDe "Test" "Simulacion" 5) [] rfl (by simp) rfl 1 (by decide),
   (c29_eliminar_por_nombre
      (Function.update
        (Function.update memoriaVacia 1 (some { info := pacienteDe "Ana" "X" 1, sig := some 2 }))
        2 (some { info := pacienteDe "Bea" "Y" 2, sig := some 1 }))
      (some 2) [(1, pacienteDe "Ana" "X" 1), (2, pacienteDe "Bea" "Y" 2)] (cad "Bea")
      ⟨by decide, ⟨rfl, 2, by simp, ⟨rfl, 1, by simp, rfl⟩⟩, rfl⟩).1
      [(1, pacienteDe "Ana" "X" 1)] 2 (pacienteDe "Bea" "Y" 2) [] rfl (by decide) rfl 2
      (by decide)⟩

end Urgencias

/-! ## Binary search over integers -/

theorem wrap32_id {x : Int} (h1 : -2147483648 ≤ x) (h2 : x < 2147483648) : wrap32 x = x := by
  unfold wrap32
  omega

namespace BusquedaEnteros

theorem busqueda_bucle_spec (V : Int → Int) (N X : Int) (hN : N ≤ 1073741824)
    (hs : ∀ i j, 0 ≤ i → i ≤ j → j < N → V i ≤ V j) :
    ∀ (fuel : Nat) (izq der comps : Int), 0 ≤ izq → der < N → izq ≤ der + 1 →
      der + 1 - izq < fuel → 0 ≤ comps → comps + (der + 1 - izq) ≤ N →
      (∀ i, 0 ≤ i → i < N → V i = X → izq ≤ i ∧ i ≤ der) →
      ∃ r c, busqueda_bucle fuel V X izq der comps = some (r, c) ∧
        ((r = -1 ∧ ∀ i, 0 ≤ i → i < N → V i ≠ X) ∨ (0 ≤ r ∧ r < N ∧ V r = X)) ∧
        0 ≤ c ∧ c ≤ N := by
  intro fuel
  induction fuel with
  | zero => intro izq der comps _ _ _ hf; omega
  | succ n ih =>
    intro izq der comps h0 hd hle hf hc hcn hinv
    simp only [busqueda_bucle]
    by_cases hcond : izq ≤ der
    · rw [if_pos hcond]
      have hw : wrap32 (izq + der) = izq + der := wrap32_id (by omega) (by omega)
      have hcen : Int.tdiv (wrap32 (izq + der)) 2 = (izq + der) / 2 := by
        rw [hw]
        exact Int.tdiv_eq_ediv (by omega) (by omega)
      have hcomps : wrap32 (comps + 1) = comps + 1 := wrap32_id (by omega) (by omega)
      rw [hcen, hcomps]
      have hc1 : izq ≤ (izq + der) / 2 := by omega
      have hc2 : (izq + der) / 2 ≤ der := by omega
      by_cases heq : V ((izq + der) / 2) = X
      · rw [if_pos heq]
        exact ⟨_, _, rfl, Or.inr ⟨by omega, by omega, heq⟩, by omega, by omega⟩
      · rw [if_neg heq]
        by_cases hgt : V ((izq + der) / 2) > X
        · rw [if_pos hgt, wrap32_id (by omega) (by omega)]
          refine ih izq ((izq + der) / 2 - 1) (comps + 1) h0 (by omega) (by omega) (by omega)
            (by omega) (by omega) ?_
          intro i hi0 hiN hiX
          obtain ⟨h1, h2⟩ := hinv i hi0 hiN hiX
          refine ⟨h1, ?_⟩
          by_contra hcon
          have := hs ((izq + der) / 2) i (by omega) (by omega) hiN
          omega
        · rw [if_neg hgt, wrap32_id (by omega) (by omega)]
          refine ih ((izq + der) / 2 + 1) der (comps + 1) (by omega) hd (by omega) (by omega)
            (by omega) (by omega) ?_
          intro i hi0 hiN hiX
          obtain ⟨h1, h2⟩ := hinv i hi0 hiN hiX
          refine ⟨?_, h2⟩
          by_contra hcon
          have := hs i ((izq + der) / 2) hi0 (by omega) (by omega)
          omega
    · rw [if_neg hcond]
      refine ⟨_, _, rfl, Or.inl ⟨rfl, ?_⟩, hc, by omega⟩
      intro i hi0 hiN hiX
      have := hinv i hi0 hiN hiX
      omega

/-- C31. For every `int` array `V` of length `N`, `0 ≤ N ≤ 2^30`, sorted in
non-decreasing order, and every `X`, `busqueda_binaria` returns (for every
bound on its loop above `N`) an index `i` with `0 ≤ i < N` and `V[i] = X` when
`X` occurs in `V`, and `-1` when it does not. -/
theorem c31_busqueda_binaria (V : Int → Int) (N X : Int) (h0 : 0 ≤ N) (hN : N ≤ 1073741824)
    (hs : ∀ i j, 0 ≤ i → i ≤ j → j < N → V i ≤ V j) (fuel : Nat) (hf : N.toNat < fuel) :
    ∃ r c, busqueda_binaria fuel V N X = some (r, c) ∧
      ((∃ i, 0 ≤ i ∧ i < N ∧ V i = X) → 0 ≤ r ∧ r < N ∧ V r = X) ∧
      ((∀ i, 0 ≤ i → i < N → V i ≠ X) → r = -1) := by
  have hw : wrap32 (N - 1) = N - 1 := wrap32_id (by omega) (by omega)
  obtain ⟨r, c, heq, hr, _, _⟩ := busqueda_bucle_spec V N X hN hs fuel 0 (N - 1) 0 (le_refl _)
    (by omega) (by omega) (by omega) (le_refl _) (by omega) (fun i hi0 hiN _ => ⟨hi0, by omega⟩)
  refine ⟨r, c, by simp only [busqueda_binaria, hw]; exact heq, ?_, ?_⟩
  · rintro ⟨i, hi0, hiN, hiX⟩
    rcases hr with ⟨_, hno⟩ | h
    · exact absurd hiX (hno i hi0 hiN)
    · exact h
  · intro hno
    rcases hr with ⟨h, _⟩ | ⟨h1, h2, h3⟩
    · exact h
    · exact absurd h3 (hno r h1 h2)

/-- C31 on the vector of `main`: 18, 3 and 50 are found at the positions 3, 0
and 9, and 19, -5 and 99 give -1. -/
theorem c31_busqueda_binaria_testigo :
    (∃ r c, busqueda_binaria 11 vector_de_prueba TAM 18 = some (r, c) ∧
      ((∃ i, 0 ≤ i ∧ i < TAM ∧ vector_de_prueba i = 18) →
        0 ≤ r ∧ r < TAM ∧ vector_de_prueba r = 18) ∧
      ((∀ i, 0 ≤ i → i < TAM → vector_de_prueba i ≠ 18) → r = -1)) ∧
    [18, 3, 50, 19, -5, 99].map
        (fun X => (busqueda_binaria 11 vector_de_prueba TAM X).map Prod.fst)
      = [some 3, some 0, some 9, some (-1), some (-1), some (-1)] :=
  ⟨c31_busqueda_binaria vector_de_prueba TAM 18 (by decide) (by decide)
    (by
      intro i j hi hij hj
      have hj1 : j < 10 := hj
      have hi1 : i < 10 := by omega
      interval_cases i <;> interval_cases j <;> decide)
    11 (by decide),
   by decide⟩

end BusquedaEnteros

/-! ## Binary search over student records -/

namespace BusquedaStruct

/-- C32 as stated fails: for `a.id = -2147483648` and `id = 1` the difference
computed in 32-bit `int` arithmetic is `2147483647`, a positive value, although
`a.id < id`; and for `a.id = 2147483647` and `id = -1` it is `-2147483648`, a
negative value, although `a.id > id`. -/
theorem c32_cmp_id_cambia_de_signo :
    cmp_id { id := -2147483648, nombre := cad "Ana" } 1 = 2147483647 ∧
    cmp_id { id := 2147483647, nombre := cad "Ana" } (-1) = -2147483648 ∧
    ¬ (∀ (a : Alumno) (id : Int), -2147483648 ≤ a.id → a.id < 2147483648 →
        -2147483648 ≤ id → id < 2147483648 → (cmp_id a id < 0 ↔ a.id < id)) := by
  refine ⟨by decide, by decide, ?_⟩
  intro h
  have := (h { id := -2147483648, nombre := cad "Ana" } 1 (by decide) (by decide) (by decide)
    (by decide)).mpr (by decide)
  revert this
  decide

end BusquedaStruct

/-! ## Circular queue of processes -/

namespace ColaVectorial

theorem alcanzable_cola_invariante {c : COLA} (h : Alcanzable c) :
    0 ≤ c.front ∧ c.front < 10 ∧ 0 ≤ c.rear ∧ c.rear < 10 ∧
      c.num_elem = (c.rear - c.front) % 10 := by
  induction h with
  | crear c => simp [crearCola]
  | @encolar c nuevo _ ih =>
    obtain ⟨h1, h2, h3, h4, h5⟩ := ih
    have hm : Int.tmod (c.rear + 1) MAX = (c.rear + 1) % 10 :=
      Int.tmod_eq_emod (by omega) (by decide)
    unfold encolar colaLlena
    rw [hm]
    split_ifs
    all_goals first
      | exact ⟨h1, h2, h3, h4, h5⟩
      | (exfalso; omega)
      | (simp only; exact ⟨h1, h2, by omega, by omega, by omega⟩)
  | @desencolar c atendido _ ih =>
    obtain ⟨h1, h2, h3, h4, h5⟩ := ih
    have hm : Int.tmod (c.front + 1) MAX = (c.front + 1) % 10 :=
      Int.tmod_eq_emod (by omega) (by decide)
    unfold desencolar colaVacia
    rw [hm]
    split_ifs
    all_goals first
      | exact ⟨h1, h2, h3, h4, h5⟩
      | (exfalso; omega)
      | (simp only; exact ⟨by omega, by omega, h3, h4, by omega⟩)

/-- C34 as stated fails: after `crearCola` and nine calls of `encolar` the
queue holds 9 processes and `colaLlena` returns 1; a tenth `encolar` leaves
`num_elem` at 9. In every reachable queue `colaLlena` returns 1 exactly when
`num_elem = MAX - 1`, and `num_elem` never exceeds `MAX - 1`. -/
theorem c34_cola_llena_con_nueve :
    (colaCon [1, 2, 3, 4, 5, 6, 7, 8, 9]).num_elem = 9 ∧
    colaLlena (colaCon [1, 2, 3, 4, 5, 6, 7, 8, 9]) = 1 ∧
    (encolar (colaCon [1, 2, 3, 4, 5, 6, 7, 8, 9]) (procesoDe 10)).num_elem = 9 ∧
    ∀ c : COLA, Alcanzable c →
      (colaLlena c = 1 ↔ c.num_elem = MAX - 1) ∧ c.num_elem ≤ MAX - 1 := by
  refine ⟨by decide, by decide, by decide, ?_⟩
  intro c hc
  obtain ⟨h1, h2, h3, h4, h5⟩ := alcanzable_cola_invariante hc
  have hm : Int.tmod (c.rear + 1) MAX = (c.rear + 1) % 10 :=
    Int.tmod_eq_emod (by omega) (by decide)
  unfold colaLlena MAX
  unfold MAX at hm
  rw [hm]
  constructor
  · split_ifs with ha
    · simp only [true_iff]; omega
    · simp only [zero_ne_one, false_iff]; omega
  · omega

end ColaVectorial

/-! ## Vector stack of words -/

namespace Pilas

theorem pushVector_llena (s : StackVector) (word : CStr) (h : s.top = MAX - 1) :
    pushVector s word = s := by
  simp [pushVector, isFullVector, h]

theorem pushVector_no_llena (s : StackVector) (word : CStr) (h : s.top ≠ MAX - 1) :
    pushVector s word
      = { data := Function.update s.data (s.top + 1).toNat (copiar word), top := s.top + 1 } := by
  simp [pushVector, isFullVector, h]

theorem popVector_vacia (s : StackVector) (out_word : CStr) (h : s.top = -1) :
    popVector s out_word = (s, 0, out_word) := by
  simp [popVector, isEmptyVector, h]

theorem popVector_no_vacia (s : StackVector) (out_word : CStr) (h : s.top ≠ -1) :
    popVector s out_word = ({ s with top := s.top - 1 }, 1, copiar (s.data s.top.toNat)) := by
  simp [popVector, isEmptyVector, h]

theorem copiar_copiar (w : CStr) : copiar (copiar w) = copiar w := by
  simp [copiar, List.take_take]

theorem apilar_top :
    ∀ (l : List CStr) (s : StackVector), s.top + l.length ≤ MAX - 1 →
      (apilar s l).top = s.top + l.length ∧
      ∀ i : Nat, (i : Int) ≤ s.top → (apilar s l).data i = s.data i := by
  intro l
  induction l with
  | nil => intro s _; simp [apilar]
  | cons w l ih =>
    intro s h
    simp only [List.length_cons, Nat.cast_add, Nat.cast_one] at h
    have hne : s.top ≠ MAX - 1 := by omega
    have hp := pushVector_no_llena s w hne
    obtain ⟨h1, h2⟩ := ih (pushVector s w) (by rw [hp]; simp only; omega)
    show (apilar (pushVector s w) l).top = _ ∧ ∀ i : Nat, _ → (apilar (pushVector s w) l).data i = _
    refine ⟨by rw [h1, hp]; simp only [List.length_cons, Nat.cast_add, Nat.cast_one]; omega, ?_⟩
    intro i hi
    rw [h2 i (by rw [hp]; simp only; omega), hp]
    simp only
    rw [Function.update_noteq (by omega)]

theorem desapilar_congr :
    ∀ (n : Nat) (s1 s2 : StackVector), -1 ≤ s1.top → s1.top = s2.top →
      (∀ i : Nat, (i : Int) ≤ s1.top → s1.data i = s2.data i) →
      (desapilar n s1).2 = (desapilar n s2).2 ∧ (desapilar n s1).1.top = (desapilar n s2).1.top ∧
      ∀ i : Nat, (i : Int) ≤ (desapilar n s1).1.top →
        (desapilar n s1).1.data i = (desapilar n s2).1.data i := by
  intro n
  induction n with
  | zero => intro s1 s2 _ ht hd; exact ⟨rfl, ht, hd⟩
  | succ n ih =>
    intro s1 s2 h0 ht hd
    by_cases hv : s1.top = -1
    · have hv2 : s2.top = -1 := by rw [← ht]; exact hv
      simp only [desapilar, popVector_vacia s1 [] hv, popVector_vacia s2 [] hv2]
      simpa using ih s1 s2 h0 ht hd
    · have hv2 : s2.top ≠ -1 := by rw [← ht]; exact hv
      simp only [desapilar, popVector_no_vacia s1 [] hv, popVector_no_vacia s2 [] hv2, if_true]
      obtain ⟨i1, i2, i3⟩ := ih { s1 with top := s1.top - 1 } { s2 with top := s2.top - 1 }
        (by simp only; omega) (by simp only; omega)
        (fun i hi => hd i (by simp only at hi; omega))
      refine ⟨?_, i2, i3⟩
      rw [i1, hd s1.top.toNat (by omega), ht]

/-- C35. On a stack that is not full (`-1 ≤ top < MAX - 1`), `pushVector`
followed by `popVector` returns 1, yields the first `MAXLEN - 1` characters of
the word, and leaves `top` and the rows `0..top` as they were. Hence, after
pushing any words that fit, the same number of pops returns them (truncated)
in the reverse order and leaves `top` and the rows `0..top` as they were. -/
theorem c35_push_y_pop (s : StackVector) (word out_word : CStr) (h1 : -1 ≤ s.top)
    (h2 : s.top < MAX - 1) :
    (popVector (pushVector s word) out_word).2.1 = 1 ∧
    (popVector (pushVector s word) out_word).2.2 = word.take 29 ∧
    (popVector (pushVector s word) out_word).1.top = s.top ∧
    (∀ i : Nat, (i : Int) ≤ s.top →
      (popVector (pushVector s word) out_word).1.data i = s.data i) ∧
    ∀ l : List CStr, s.top + l.length ≤ MAX - 1 →
      (desapilar l.length (apilar s l)).2 = (l.map fun w => w.take 29).reverse ∧
      (desapilar l.length (apilar s l)).1.top = s.top ∧
      ∀ i : Nat, (i : Int) ≤ s.top → (desapilar l.length (apilar s l)).1.data i = s.data i := by
  have hida : ∀ (t : StackVector) (w o : CStr), -1 ≤ t.top → t.top < MAX - 1 →
      (popVector (pushVector t w) o).2.1 = 1 ∧
      (popVector (pushVector t w) o).2.2 = w.take 29 ∧
      (popVector (pushVector t w) o).1.top = t.top ∧
      (∀ i : Nat, (i : Int) ≤ t.top → (popVector (pushVector t w) o).1.data i = t.data i) := by
    intro t w o ht1 ht2
    have hp := pushVector_no_llena t w (by omega)
    have hq := popVector_no_vacia (pushVector t w) o (by rw [hp]; simp only; omega)
    rw [hq, hp]
    simp only
    refine ⟨trivial, ?_, by omega, ?_⟩
    · rw [Function.update_same, copiar_copiar]; rfl
    · intro i hi
      rw [Function.update_noteq (by omega)]
  refine ⟨(hida s word out_word h1 h2).1, (hida s word out_word h1 h2).2.1,
    (hida s word out_word h1 h2).2.2.1, (hida s word out_word h1 h2).2.2.2, ?_⟩
  intro l
  induction l using List.reverseRecOn with
  | nil => intro _; simp [apilar, desapilar]
  | append_singleton l w ih =>
    intro hl
    simp only [List.length_append, List.length_singleton, Nat.cast_add, Nat.cast_one] at hl
    obtain ⟨e1, e2, e3⟩ := ih (by omega)
    obtain ⟨t1, t2⟩ := apilar_top l s (by omega)
    have hap : apilar s (l ++ [w]) = pushVector (apilar s l) w := by
      simp [apilar, List.foldl_append]
    obtain ⟨p1, p2, p3, p4⟩ := hida (apilar s l) w [] (by omega) (by omega)
    obtain ⟨c1, c2, c3⟩ := desapilar_congr l.length (popVector (pushVector (apilar s l) w) []).1
      (apilar s l) (by rw [p3]; omega) p3 (fun i hi => p4 i (by rw [p3] at hi; exact hi))
    rw [hap]
    simp only [List.length_append, List.length_singleton, desapilar, p1, if_true, p2,
      List.map_append, List.map_cons, List.map_nil, List.reverse_append, List.reverse_cons,
      List.reverse_nil, List.nil_append, List.singleton_append]
    refine ⟨by rw [c1, e1], by rw [c2, e2], ?_⟩
    intro i hi
    rw [c3 i (by rw [c2, e2]; exact hi), e3 i hi]

/-- C35 on the empty stack: pushing Ana and then Luis and popping twice gives
Luis and then Ana. -/
theorem c35_push_y_pop_testigo :
    (popVector (pushVector (createStackVector { data := fun _ => [], top := 0 }) (cad "Ana"))
      []).2 = (1, cad "Ana") ∧
    (desapilar 2 (apilar (createStackVector { data := fun _ => [], top := 0 })
      [cad "Ana", cad "Luis"])).2 = [cad "Luis", cad "Ana"] :=
  ⟨Prod.ext
    (c35_push_y_pop (createStackVector { data := fun _ => [], top := 0 }) (cad "Ana") []
      (by decide) (by decide)).1
    (c35_push_y_pop (createStackVector { data := fun _ => [], top := 0 }) (cad "Ana") []
      (by decide) (by decide)).2.1,
   ((c35_push_y_pop (createStackVector { data := fun _ => [], top := 0 }) (cad "Ana") []
      (by decide) (by decide)).2.2.2.2 [cad "Ana", cad "Luis"] (by decide)).1⟩

end Pilas

namespace Pilas

theorem copiar_names (j : Nat) : copiar (names.getD j []) = names.getD j [] := by
  by_cases hj : j < 30
  · interval_cases j <;> rfl
  · rw [List.getD_eq_default _ _ (by simpa [names] using hj)]
    rfl

theorem fillBucle_spec :
    ∀ (n : Nat) (s : StackVector) (i : Nat), -1 ≤ s.top → s.top ≤ MAX - 1 →
      (fillBucle n s i).top = min (s.top + n) (MAX - 1) ∧
      (∀ j : Nat, (j : Int) ≤ s.top → (fillBucle n s i).data j = s.data j) ∧
      (∀ j : Nat, s.top < j → (j : Int) ≤ min (s.top + n) (MAX - 1) →
        (fillBucle n s i).data j = names.getD (i + (j - (s.top + 1).toNat)) []) := by
  intro n
  induction n with
  | zero =>
    intro s i h0 h1
    refine ⟨by simp only [fillBucle, Nat.cast_zero, add_zero]; omega, fun _ _ => rfl, ?_⟩
    intro j hj1 hj2
    simp only [Nat.cast_zero, add_zero] at hj2
    omega
  | succ n ih =>
    intro s i h0 h1
    simp only [fillBucle, Nat.cast_add, Nat.cast_one]
    by_cases hfull : s.top = MAX - 1
    · rw [pushVector_llena s _ hfull]
      obtain ⟨e1, e2, e3⟩ := ih s (i + 1) h0 h1
      refine ⟨by rw [e1]; omega, e2, ?_⟩
      intro j hj1 hj2
      omega
    · have hp := pushVector_no_llena s (names.getD i []) hfull
      obtain ⟨e1, e2, e3⟩ := ih (pushVector s (names.getD i [])) (i + 1)
        (by rw [hp]; simp only; omega) (by rw [hp]; simp only; omega)
      rw [hp] at e1 e2 e3
      simp only at e1 e2 e3
      rw [hp]
      refine ⟨by rw [e1]; omega, ?_, ?_⟩
      · intro j hj
        rw [e2 j (by omega), Function.update_noteq (by omega)]
      · intro j hj1 hj2
        by_cases hj : (j : Int) = s.top + 1
        · rw [e2 j (by omega)]
          have hjn : j = (s.top + 1).toNat := by omega
          rw [hjn, Function.update_same, copiar_names, Nat.sub_self, Nat.add_zero]
        · rw [e3 j (by omega) (by omega)]
          congr 1
          omega

/-- C36. On a full stack (`top = MAX - 1`) `pushVector` leaves `top` and all
rows as they were. Calling `fillStackVectorWithNames` with any count `m` on an
empty stack stores the first `min(m, 10)` names of the table in order (none
for `m ≤ 0`), and for `m ≥ 10` the tenth name, Andres, is on top. -/
theorem c36_desbordamiento_de_la_pila (s : StackVector) (m : Int) :
    (∀ word, s.top = MAX - 1 → pushVector s word = s) ∧
    (fillStackVectorWithNames (createStackVector s) m).top = min (max m 0) 10 - 1 ∧
    (∀ j : Nat, (j : Int) < min m 10 →
      (fillStackVectorWithNames (createStackVector s) m).data j = names.getD j []) ∧
    (10 ≤ m →
      (fillStackVectorWithNames (createStackVector s) m).top = 9 ∧
      (fillStackVectorWithNames (createStackVector s) m).data 9 = cad "Andres") := by
  have hlen : ((names.length : Nat) : Int) = 30 := by decide
  obtain ⟨e1, _, e3⟩ := fillBucle_spec (if m < 30 then m else 30).toNat (createStackVector s) 0
    (by simp [createStackVector]) (by simp [createStackVector, MAX])
  have hf : fillStackVectorWithNames (createStackVector s) m
      = fillBucle (if m < 30 then m else 30).toNat (createStackVector s) 0 := by
    simp only [fillStackVectorWithNames, hlen]
  have htop : (createStackVector s).top = -1 := rfl
  rw [htop] at e1 e3
  have hM : MAX = 10 := rfl
  rw [hM] at e1 e3
  have hfilas : ∀ j : Nat, (j : Int) < min m 10 →
      (fillStackVectorWithNames (createStackVector s) m).data j = names.getD j [] := by
    intro j hj
    rw [hf, e3 j (by omega) (by split_ifs <;> omega)]
    congr 1
    omega
  refine ⟨fun word h => pushVector_llena s word h, ?_, hfilas, ?_⟩
  · rw [hf, e1]
    split_ifs <;> omega
  · intro h10
    refine ⟨?_, ?_⟩
    · rw [hf, e1]
      split_ifs <;> omega
    · rw [hfilas 9 (by omega)]
      rfl

end Pilas

/-! ## Direct insertion sort -/

namespace EjercicioFinal

theorem desplazar_spec {α : Type} (mayor : α → α → Bool) (le : α → α → Prop)
    (htot : ∀ a b, le a b ∨ le b a) (htrans : ∀ a b c, le a b → le b c → le a c)
    (hm : ∀ a b, mayor a b = true ↔ ¬ le a b) (aux : α) (i : Nat) :
    ∀ (j : Nat) (v : Nat → α), j ≤ i →
      (∀ p q, p < q → q < j → le (v p) (v q)) →
      (∀ p q, j < p → p < q → q ≤ i → le (v p) (v q)) →
      (∀ q, j < q → q ≤ i → le aux (v q)) →
      (∀ p q, p < j → j < q → q ≤ i → le (v p) (v q)) →
      (∀ p q, p < q → q ≤ i →
        le (Function.update (desplazar mayor aux j v).1 (desplazar mayor aux j v).2 aux p)
          (Function.update (desplazar mayor aux j v).1 (desplazar mayor aux j v).2 aux q)) ∧
      (prefijo (Function.update (desplazar mayor aux j v).1 (desplazar mayor aux j v).2 aux)
        (i + 1)).Perm (prefijo (Function.update v j aux) (i + 1)) ∧
      (∀ k, i < k →
        Function.update (desplazar mayor aux j v).1 (desplazar mayor aux j v).2 aux k = v k) := by
  have hrefl : ∀ a, le a a := fun a => (htot a a).elim id id
  intro j
  induction j with
  | zero =>
    intro v _ _ h2 h3 _
    simp only [desplazar]
    refine ⟨?_, List.Perm.refl _, fun k hk => Function.update_noteq (by omega) _ _⟩
    intro p q hpq hq
    rw [Function.update_noteq (by omega : q ≠ 0)]
    by_cases hp : p = 0
    · rw [hp, Function.update_same]
      exact h3 q (by omega) hq
    · rw [Function.update_noteq hp]
      exact h2 p q (by omega) hpq hq
  | succ j ih =>
    intro v hji h1 h2 h3 h4
    simp only [desplazar]
    by_cases hc : mayor (v j) aux = true
    · rw [if_pos hc]
      have hle : le aux (v j) := (htot aux (v j)).elim id (fun h => absurd h ((hm _ _).mp hc))
      obtain ⟨r1, r2, r3⟩ := ih (Function.update v (j + 1) (v j)) (by omega)
        (by
          intro p q hpq hq
          rw [Function.update_noteq (by omega), Function.update_noteq (by omega)]
          exact h1 p q hpq (by omega))
        (by
          intro p q hp hpq hq
          rw [Function.update_noteq (by omega : q ≠ j + 1)]
          by_cases hpj : p = j + 1
          · rw [hpj, Function.update_same]
            exact h4 j q (by omega) (by omega) hq
          · rw [Function.update_noteq hpj]
            exact h2 p q (by omega) hpq hq)
        (by
          intro q hq1 hq2
          by_cases hqj : q = j + 1
          · rw [hqj, Function.update_same]
            exact hle
          · rw [Function.update_noteq hqj]
            exact h3 q (by omega) hq2)
        (by
          intro p q hp hq1 hq2
          rw [Function.update_noteq (by omega : p ≠ j + 1)]
          by_cases hqj : q = j + 1
          · rw [hqj, Function.update_same]
            exact h1 p j hp (by omega)
          · rw [Function.update_noteq hqj]
            exact h4 p q (by omega) (by omega) hq2)
      refine ⟨r1, ?_, ?_⟩
      · refine r2.trans ?_
        have hsw : Function.update (Function.update v (j + 1) (v j)) j aux
            = intercambiar (Function.update v (j + 1) aux) j (j + 1) := by
          funext x
          simp only [intercambiar, Function.update_apply]
          split_ifs <;> first | rfl | omega
        rw [hsw]
        exact prefijo_intercambiar _ (by omega) (by omega)
      · intro k hk
        rw [r3 k hk, Function.update_noteq (by omega)]
    · rw [if_neg hc]
      have hle : le (v j) aux := by
        by_contra h
        exact hc ((hm _ _).mpr h)
      refine ⟨?_, List.Perm.refl _, fun k hk => Function.update_noteq (by omega) _ _⟩
      intro p q hpq hq
      by_cases hp : p = j + 1
      · rw [hp, Function.update_same, Function.update_noteq (by omega : q ≠ j + 1)]
        exact h3 q (by omega) hq
      · rw [Function.update_noteq hp]
        by_cases hqj : q = j + 1
        · rw [hqj, Function.update_same]
          by_cases hpj : p = j
          · rw [hpj]; exact hle
          · exact htrans _ _ _ (h1 p j (by omega) (by omega)) hle
        · rw [Function.update_noteq hqj]
          by_cases hq1 : q < j + 1
          · exact h1 p q hpq hq1
          · by_cases hp1 : p < j + 1
            · exact h4 p q hp1 (by omega) hq
            · exact h2 p q (by omega) hpq hq

theorem prefijo_perm_extender {α : Type} {w v : Nat → α} {a : Nat} (b : Nat)
    (hp : (prefijo w a).Perm (prefijo v a)) (hf : ∀ x, a ≤ x → w x = v x) :
    (prefijo w (a + b)).Perm (prefijo v (a + b)) := by
  unfold prefijo at hp ⊢
  rw [List.range_add, List.map_append, List.map_append]
  refine hp.append ?_
  rw [List.map_map, List.map_map]
  refine List.Perm.of_eq (List.map_congr_left ?_)
  intro x _
  exact hf (a + x) (by omega)

theorem ordenacion_bucle_spec {α : Type} (mayor : α → α → Bool) (le : α → α → Prop)
    (htot : ∀ a b, le a b ∨ le b a) (htrans : ∀ a b c, le a b → le b c → le a c)
    (hm : ∀ a b, mayor a b = true ↔ ¬ le a b) :
    ∀ (k i : Nat) (v : Nat → α), (∀ p q, p < q → q < i → le (v p) (v q)) →
      (∀ p q, p < q → q < i + k →
        le (ordenacion_bucle mayor k i v p) (ordenacion_bucle mayor k i v q)) ∧
      (prefijo (ordenacion_bucle mayor k i v) (i + k)).Perm (prefijo v (i + k)) ∧
      (∀ x, i + k ≤ x → ordenacion_bucle mayor k i v x = v x) := by
  intro k
  induction k with
  | zero =>
    intro i v hs
    exact ⟨fun p q hpq hq => hs p q hpq (by omega), List.Perm.refl _, fun _ _ => rfl⟩
  | succ k ih =>
    intro i v hs
    obtain ⟨d1, d2, d3⟩ := desplazar_spec mayor le htot htrans hm (v i) i i v (le_refl _) hs
      (fun p q hp hpq hq => by omega) (fun q h1 h2 => by omega)
      (fun p q hp h1 h2 => by omega)
    rw [Function.update_eq_self] at d2
    obtain ⟨e1, e2, e3⟩ := ih (i + 1)
      (Function.update (desplazar mayor (v i) i v).1 (desplazar mayor (v i) i v).2 (v i))
      (fun p q hpq hq => d1 p q hpq (by omega))
    have hik : i + (k + 1) = i + 1 + k := by omega
    simp only [ordenacion_bucle]
    rw [hik]
    refine ⟨e1, e2.trans (prefijo_perm_extender k d2 (fun x hx => d3 x (by omega))), ?_⟩
    intro x hx
    rw [e3 x hx, d3 x (by omega)]

/-- C33. For every vector `v`, every `n` and every total, transitive order on
the values whose strict "greater than" is the comparison of the source, after
`ordenacion(v, n)` the first `n` positions are sorted in non-decreasing order
and hold a permutation of what they held, and the other positions are
unchanged. -/
theorem c33_insercion_directa {α : Type} (mayor : α → α → Bool) (le : α → α → Prop)
    (htot : ∀ a b, le a b ∨ le b a) (htrans : ∀ a b c, le a b → le b c → le a c)
    (hm : ∀ a b, mayor a b = true ↔ ¬ le a b) (v : Nat → α) (n : Int) :
    (prefijo (ordenacion mayor v n) n.toNat).Pairwise le ∧
    (prefijo (ordenacion mayor v n) n.toNat).Perm (prefijo v n.toNat) ∧
    (∀ x, n.toNat ≤ x → ordenacion mayor v n x = v x) := by
  obtain ⟨h1, h2, h3⟩ := ordenacion_bucle_spec mayor le htot htrans hm n.toNat 0 v
    (fun p q _ hq => by omega)
  simp only [Nat.zero_add] at h1 h2 h3
  refine ⟨?_, h2, h3⟩
  unfold prefijo
  rw [List.pairwise_map]
  refine (List.pairwise_lt_range n.toNat).imp_of_mem ?_
  intro a b _ hb hab
  exact h1 a b hab (List.mem_range.mp hb)

/-- C33 on the vector 3, 1, 2 with the order of the integers. -/
theorem c33_insercion_directa_testigo :
    prefijo (ordenacion (fun a b : Int => decide (a > b)) (vectorDe [3, 1, 2]) 3) 3 = [1, 2, 3] ∧
    (prefijo (ordenacion (fun a b : Int => decide (a > b)) (vectorDe [3, 1, 2]) 3)
      (3 : Int).toNat).Pairwise (fun a b : Int => a ≤ b) ∧
    (prefijo (ordenacion (fun a b : Int => decide (a > b)) (vectorDe [3, 1, 2]) 3)
      (3 : Int).toNat).Perm (prefijo (vectorDe [3, 1, 2]) (3 : Int).toNat) :=
  ⟨by decide,
   (c33_insercion_directa (fun a b : Int => decide (a > b)) (fun a b : Int => a ≤ b)
      (fun a b => le_total a b) (fun _ _ _ h1 h2 => le_trans h1 h2)
      (fun a b => by simp) (vectorDe [3, 1, 2]) 3).1,
   (c33_insercion_directa (fun a b : Int => decide (a > b)) (fun a b : Int => a ≤ b)
      (fun a b => le_total a b) (fun _ _ _ h1 h2 => le_trans h1 h2)
      (fun a b => by simp) (vectorDe [3, 1, 2]) 3).2.1⟩

end EjercicioFinal

/-! ## Drone manager: search by zone -/

namespace GestorDrones

theorem zona_le_of_menor {a b : Dron} (h : menor a b) :
    strcmp a.zona_entrega b.zona_entrega ≤ 0 := by
  have := (menor_dron_iff a b).mp h
  unfold menorClave clave at this
  rcases this with h1 | ⟨h1, _⟩
  · exact le_of_lt h1
  · exact le_of_eq h1

theorem strcmp_lt_of_lt_of_le {a b c : CStr} (h1 : strcmp a b < 0) (h2 : strcmp b c ≤ 0) :
    strcmp a c < 0 := by
  rcases lt_or_eq_of_le h2 with h | h
  · exact strcmp_trans h1 h
  · rw [← strcmp_eq_zero.mp h]; exact h1

theorem strcmp_lt_of_le_of_lt {a b c : CStr} (h1 : strcmp a b ≤ 0) (h2 : strcmp b c < 0) :
    strcmp a c < 0 := by
  rcases lt_or_eq_of_le h1 with h | h
  · exact strcmp_trans h h2
  · rw [strcmp_eq_zero.mp h]; exact h2

theorem buscarPorZonaRecursivo_spec (abb : ABB) (zona : CStr) :
    ∀ (t : Forma) (fuel : Nat) (i : Int), Representa abb.elementos i t →
      esABB abb.elementos t → t.altura < fuel →
      buscarPorZonaRecursivo fuel abb i zona
        = some ((t.indices.map abb.elementos).filter fun d => decide (d.zona_entrega = zona)) := by
  intro t
  induction t with
  | hoja =>
    intro fuel i hr _ hf
    cases fuel with
    | zero => simp [Forma.altura] at hf
    | succ n =>
      have hi : i = POS_VACIA := hr
      simp [buscarPorZonaRecursivo, hi, Forma.indices]
  | nodo j l r ihl ihr =>
    intro fuel i hr hb hf
    obtain ⟨hij, hj, hrl, hrr⟩ := hr
    subst hij
    obtain ⟨hbl, hbr, hml, hmr⟩ := hb
    cases fuel with
    | zero => omega
    | succ n =>
      simp only [Forma.altura] at hf
      have el := ihl n _ hrl hbl (by omega)
      have er := ihr n _ hrr hbr (by omega)
      have hizq : strcmp zona (abb.elementos i).zona_entrega > 0 →
          ((l.indices.map abb.elementos).filter fun d => decide (d.zona_entrega = zona)) = [] := by
        intro hc
        rw [List.filter_eq_nil_iff]
        intro d hd
        obtain ⟨k, hk, rfl⟩ := List.mem_map.mp hd
        have h1 := zona_le_of_menor (hml k hk)
        have h2 : strcmp (abb.elementos i).zona_entrega zona < 0 := strcmp_gt_iff.mp hc
        have h3 := strcmp_lt_of_le_of_lt h1 h2
        simpa using strcmp_ne_of_lt h3
      have hder : strcmp zona (abb.elementos i).zona_entrega < 0 →
          ((r.indices.map abb.elementos).filter fun d => decide (d.zona_entrega = zona)) = [] := by
        intro hc
        rw [List.filter_eq_nil_iff]
        intro d hd
        obtain ⟨k, hk, rfl⟩ := List.mem_map.mp hd
        have h1 := zona_le_of_menor (hmr k hk)
        have h3 := strcmp_lt_of_lt_of_le hc h1
        simpa using fun h : (abb.elementos k).zona_entrega = zona => strcmp_ne_of_lt h3 h.symm
      simp only [buscarPorZonaRecursivo, if_neg hj, Forma.indices, List.map_append, List.map_cons,
        List.filter_append, List.filter_cons]
      rcases lt_trichotomy (strcmp zona (abb.elementos i).zona_entrega) 0 with hc | hc | hc
      · have hne : (abb.elementos i).zona_entrega ≠ zona :=
          fun h => strcmp_ne_of_lt hc h.symm
        rw [if_pos (le_of_lt hc), el, if_neg (not_le.mpr hc), if_neg (ne_of_lt hc), hder hc]
        simp [hne]
      · have heq : (abb.elementos i).zona_entrega = zona := (strcmp_eq_zero.mp hc).symm
        rw [if_pos (le_of_eq hc), el, if_pos (le_of_eq hc.symm), er, if_pos hc]
        simp [heq]
      · have hne : (abb.elementos i).zona_entrega ≠ zona :=
          fun h => strcmp_ne_of_lt (strcmp_gt_iff.mp hc) h
        rw [if_neg (not_le.mpr hc), if_pos (le_of_lt hc), er, if_neg (ne_of_gt hc), hizq hc]
        simp [hne]

/-- C38. On a registry whose links from index `i` form a binary search tree
under `compararDrones`, for every zone `z` the drones that
`buscarPorZonaRecursivo` shows are the drones of the in-order traversal
(`recorrerInordenRecursivo`) whose `zona_entrega` equals `z`, in the same
order. Both functions return for every bound above the height of the tree. -/
theorem c38_busqueda_por_zona_es_filtro (abb : ABB) (t : Forma) (i : Int) (zona : CStr)
    (hrep : Representa abb.elementos i t) (hbst : esABB abb.elementos t) (fuel : Nat)
    (hf : t.altura < fuel) :
    (recorrerInordenRecursivo fuel abb i).isSome = true ∧
    buscarPorZonaRecursivo fuel abb i zona
      = (recorrerInordenRecursivo fuel abb i).map
          (List.filter fun d => decide (d.zona_entrega = zona)) := by
  rw [recorrerInordenRecursivo_spec abb t fuel i hrep hf,
    buscarPorZonaRecursivo_spec abb zona t fuel i hrep hbst hf]
  exact ⟨rfl, rfl⟩

/-- C38 on the registry of the three test drones and the zone A1: the search
shows the drone of zone A1 only. -/
theorem c38_busqueda_por_zona_es_filtro_testigo :
    (buscarPorZonaRecursivo 3 registro_de_prueba registro_de_prueba.raiz (cad "A1")).map
        (fun l => l.map fun d => d.id_dron) = some [cad "D1"] ∧
    (recorrerInordenRecursivo 3 registro_de_prueba registro_de_prueba.raiz).isSome = true ∧
    buscarPorZonaRecursivo 3 registro_de_prueba registro_de_prueba.raiz (cad "A1")
      = (recorrerInordenRecursivo 3 registro_de_prueba registro_de_prueba.raiz).map
          (List.filter fun d => decide (d.zona_entrega = cad "A1")) :=
  ⟨by decide,
   c38_busqueda_por_zona_es_filtro registro_de_prueba
     (.nodo 0 (.nodo 1 .hoja .hoja) (.nodo 2 .hoja .hoja)) registro_de_prueba.raiz (cad "A1")
     ⟨rfl, by decide, ⟨rfl, by decide, rfl, rfl⟩, ⟨rfl, by decide, rfl, rfl⟩⟩
     ⟨⟨trivial, trivial, by simp [Forma.indices], by simp [Forma.indices]⟩,
      ⟨trivial, trivial, by simp [Forma.indices], by simp [Forma.indices]⟩,
      by decide, by decide⟩
     3 (by decide)⟩

end GestorDrones

/-! ## Drone manager: when the registry reports that it is full -/

namespace GestorDrones

theorem insertarDronABB_clave_nueva (abb : ABB) (d : Dron) (hinv : Invariante abb)
    (hlt : abb.siguiente_libre < MAX_NODOS)
    (hiz : d.izquierdo = POS_VACIA) (hde : d.derecho = POS_VACIA)
    (hkey : ∀ fuel l, recorrerInordenABB fuel abb = some l → ∀ x ∈ l, clave x ≠ clave d) :
    ∃ (abb1 : ABB) (l1 l2 : List Dron) (fuel0 : Nat),
      (∀ fuel, fuel0 ≤ fuel →
        insertarDronABB fuel abb d = some (abb1, 1) ∧
        (recorrerInordenABB fuel abb).map (List.map sinEnlaces) = some (l1 ++ l2) ∧
        (recorrerInordenABB fuel abb1).map (List.map sinEnlaces)
          = some (l1 ++ sinEnlaces d :: l2)) ∧
      abb1.tamano = abb.tamano + 1 ∧
      (∀ x ∈ l1, menor x d) ∧ (∀ x ∈ l2, menor d x) := by
  obtain ⟨t, hrep, hnd, hcota, hbst, h0, hmax⟩ := hinv
  have hkeyt : ∀ k ∈ t.indices, clave (abb.elementos k) ≠ clave d := by
    intro k hk
    exact hkey (t.altura + 1) _
      (recorrerInordenRecursivo_spec abb t _ abb.raiz hrep (Nat.lt_succ_self _))
      _ (List.mem_map_of_mem _ hk)
  have hnot : abb.siguiente_libre ∉ t.indices := fun h => by
    have := (hcota _ h).2; omega
  have hne : abb.siguiente_libre ≠ POS_VACIA := by unfold POS_VACIA; omega
  have hfuera : ∀ k ∈ t.indices,
      Function.update abb.elementos abb.siguiente_libre d k = abb.elementos k := by
    intro k hk
    exact Function.update_noteq (fun h : k = abb.siguiente_libre => hnot (h ▸ hk)) _ _
  have hrep0 : Representa (Function.update abb.elementos abb.siguiente_libre d) abb.raiz t :=
    representa_congr hfuera hrep
  have hbst0 : esABB (Function.update abb.elementos abb.siguiente_libre d) t :=
    esABB_dron_congr (fun k hk => by rw [hfuera k hk]) hbst
  have hkey0 : ∀ k ∈ t.indices,
      compararDrones (Function.update abb.elementos abb.siguiente_libre d abb.siguiente_libre)
        (Function.update abb.elementos abb.siguiente_libre d k) ≠ 0 := by
    intro k hk h
    rw [Function.update_same, hfuera k hk] at h
    exact hkeyt k hk ((compararDrones_eq_zero_iff _ _).mp h).symm
  obtain ⟨abb1, r, t1, a, b, heq, hrep1, hab, hab1, hma, hmb, _, hr1, hr2⟩ :=
    insertarRecursivoABB_indices abb.siguiente_libre hne t (t.altura + 1)
      { abb with elementos := Function.update abb.elementos abb.siguiente_libre d }
      abb.raiz hrep0 (Nat.lt_succ_self _) hnot hnd hbst0 (by simpa using hiz) (by simpa using hde)
      hkey0
  obtain ⟨hdat, hta, hsl, hra⟩ := insertarRecursivoABB_datos _ _ _ _ _ heq
  simp only at hta hsl hra hr1 hr2 hma hmb hdat
  have hcond : r = abb.siguiente_libre ∨ (abb1.raiz ≠ POS_VACIA ∧ r = abb1.raiz) ∨
      (abb1.raiz = POS_VACIA ∧ r = abb.siguiente_libre) := by
    by_cases hraiz : abb.raiz = POS_VACIA
    · exact Or.inl (hr2 hraiz)
    · exact Or.inr (Or.inl ⟨by rw [hra]; exact hraiz, by rw [hra]; exact hr1 hraiz⟩)
  have hsub : ∀ k, k ∈ a ∨ k ∈ b → k ∈ t.indices := by
    intro k hk
    rw [hab]
    exact List.mem_append.mpr hk
  have hviejo : ∀ k, k ∈ a ∨ k ∈ b →
      sinEnlaces (abb1.elementos k) = sinEnlaces (abb.elementos k) := by
    intro k hk
    rw [hdat k, hfuera k (hsub k hk)]
  have hnuevo : sinEnlaces (abb1.elementos abb.siguiente_libre) = sinEnlaces d := by
    rw [hdat, Function.update_same]
  refine ⟨({ abb1 with
              raiz := r
              siguiente_libre := abb1.siguiente_libre + 1
              tamano := abb1.tamano + 1 } : ABB),
    a.map (fun k => sinEnlaces (abb.elementos k)), b.map (fun k => sinEnlaces (abb.elementos k)),
    max (t.altura + 1) (t1.altura + 1), ?_, ?_, ?_, ?_⟩
  · intro fuel hfuel
    have hf1 : t.altura + 1 ≤ fuel := le_trans (le_max_left _ _) hfuel
    have hf2 : t1.altura + 1 ≤ fuel := le_trans (le_max_right _ _) hfuel
    refine ⟨?_, ?_, ?_⟩
    · have heq1 := insertarRecursivoABB_mono _ _ _ _ _ heq fuel hf1
      unfold insertarDronABB
      simp only [if_neg (not_le.mpr hlt), heq1, if_pos hcond, hsl, if_true]
    · have := recorrerInordenRecursivo_spec abb t fuel abb.raiz hrep (by omega)
      unfold recorrerInordenABB
      rw [this, hab]
      simp only [Option.map_some', List.map_append, List.map_map, Function.comp_def]
    · have := recorrerInordenRecursivo_spec
        ({ abb1 with
            raiz := r
            siguiente_libre := abb1.siguiente_libre + 1
            tamano := abb1.tamano + 1 } : ABB) t1 fuel r hrep1 (by omega)
      unfold recorrerInordenABB
      simp only at this ⊢
      rw [this, hab1]
      simp only [Option.map_some', List.map_append, List.map_cons, List.map_map,
        Function.comp_def, hnuevo]
      congr 2
      · exact List.map_congr_left (fun k hk => hviejo k (Or.inl hk))
      · congr 1
        exact List.map_congr_left (fun k hk => hviejo k (Or.inr hk))
  · simp only [hta]
  · intro x hx
    obtain ⟨k, hk, rfl⟩ := List.mem_map.mp hx
    have := hma k hk
    rw [Function.update_same, hfuera k (hsub k (Or.inl hk))] at this
    exact (@menor_dron_congr (abb.elementos k) d (sinEnlaces (abb.elementos k)) d rfl rfl).mpr this
  · intro x hx
    obtain ⟨k, hk, rfl⟩ := List.mem_map.mp hx
    have := hmb k hk
    rw [Function.update_same, hfuera k (hsub k (Or.inr hk))] at this
    exact (@menor_dron_congr d (abb.elementos k) d (sinEnlaces (abb.elementos k)) rfl rfl).mpr this

/-- C37 as stated fails: after registering one hundred drones with different
zones and deleting the last one registered, `tamano` is 99, the key of a new
drone is not in the tree, and `insertarDronABB` returns 0 ("ABB lleno"),
because `siguiente_libre` is still 100. -/
theorem c37_lleno_con_un_hueco :
    ((registrarTodos 101 inicial.abb cienDrones).bind fun abb =>
      (eliminarDronABB 101 abb [64] (cad "D") inicial.heap).bind fun r =>
        (recorrerInordenABB 101 r.1).bind fun l =>
          (insertarDronABB 101 r.1 (dronDe 101)).map fun q =>
            ((abb.tamano, r.2, r.1.tamano, r.1.siguiente_libre),
              (l.length, l.all fun x => decide (clave x ≠ clave (dronDe 101))), q.2))
      = some ((100, 1, 99, 100), (99, true), 0) := by
  decide!

/-- C37, amended. In every registry reachable from `inicializarABB` by
`insertarDronABB` and `eliminarDronABB`, for a new drone (links `POS_VACIA`)
whose key is not in the tree: if `siguiente_libre < MAX_NODOS`,
`insertarDronABB` returns 1 and the drone is in the traversal afterwards; if
`siguiente_libre ≥ MAX_NODOS` it returns 0 and leaves the registry as it was,
whatever `tamano` is. -/
theorem c37_lleno_segun_siguiente_libre (abb : ABB) (d : Dron) (h : Alcanzable abb)
    (hiz : d.izquierdo = POS_VACIA) (hde : d.derecho = POS_VACIA)
    (hkey : ∀ fuel l, recorrerInordenABB fuel abb = some l → ∀ x ∈ l, clave x ≠ clave d) :
    (abb.siguiente_libre < MAX_NODOS →
      ∃ (abb1 : ABB) (fuel0 : Nat), abb1.tamano = abb.tamano + 1 ∧
        ∀ fuel, fuel0 ≤ fuel →
          insertarDronABB fuel abb d = some (abb1, 1) ∧
          ∃ l, recorrerInordenABB fuel abb1 = some l ∧ sinEnlaces d ∈ l.map sinEnlaces) ∧
    (MAX_NODOS ≤ abb.siguiente_libre → ∀ fuel, insertarDronABB fuel abb d = some (abb, 0)) := by
  constructor
  · intro hlt
    obtain ⟨abb1, l1, l2, fuel0, hf, ht, _, _⟩ :=
      insertarDronABB_clave_nueva abb d (alcanzable_invariante h) hlt hiz hde hkey
    refine ⟨abb1, fuel0, ht, fun fuel hfuel => ?_⟩
    obtain ⟨e1, _, e3⟩ := hf fuel hfuel
    refine ⟨e1, ?_⟩
    cases hrec : recorrerInordenABB fuel abb1 with
    | none => simp [hrec] at e3
    | some l =>
      refine ⟨l, rfl, ?_⟩
      simp only [hrec, Option.map_some', Option.some.injEq] at e3
      rw [e3]
      simp
  · intro hfull fuel
    unfold insertarDronABB
    rw [if_pos hfull]

/-- C37, amended, on the registry of `main` before any registration and the
test drone of zone B1. -/
theorem c37_lleno_segun_siguiente_libre_testigo :
    ∃ (abb1 : ABB) (fuel0 : Nat), abb1.tamano = inicial.abb.tamano + 1 ∧
      ∀ fuel, fuel0 ≤ fuel →
        insertarDronABB fuel inicial.abb d2 = some (abb1, 1) ∧
        ∃ l, recorrerInordenABB fuel abb1 = some l ∧ sinEnlaces d2 ∈ l.map sinEnlaces :=
  (c37_lleno_segun_siguiente_libre inicial.abb d2 (Alcanzable.inicio _) rfl rfl
    (@clave_ausente_de_recorrido inicial.abb d2 1 (by decide))).1 (by decide)

end GestorDrones
